import Mathlib

/-!
# Sequential model of `skipset` (TprceOYX/collections)

A shallow embedding of `src/skipset/skipset.go`, instantiated at `T = int`
(values are only compared, never computed with, so `Int` stands for `int`).

* Pointers `*skipsetNode[T]` are indices into an allocation arena (`heap`);
  `nil` is `none`.  A freshly allocated node is appended to the arena.
* `uint32` fields and locals (`span`, `shift`, `highestLevel`, `level`) are
  natural numbers reduced modulo `2 ^ 32` at every arithmetic operation.
* `sync.Mutex` is a Boolean flag.  Calls run one after another, so `Lock` on a
  held mutex can never be granted and `Unlock` on a free mutex is the runtime
  fault `sync: unlock of unlocked mutex`; both are modelled as `none`.
* Every operation returns an `Option`: `none` stands for a call that does not
  return normally (nil dereference, index out of range, a mutex fault, or the
  loop budget `fuel` running out).
* `rand.Int31()` is an explicit list of draws consumed by `randomLevel`.
* The unbounded loops (`for next != nil ...`, the retry loop of `Add`) take a budget
  `fuel`; a result `some r` is the result of the Go call, and more budget never changes
  it (`Add_mono`).
* `make([]T, 0, n)` in `TopN` faults for a negative `n`, for `n` above the largest
  capacity of an `int` slice (`makeLimit`), and for `n` above what the allocator can
  grant at the time of the call, a parameter `room` of `TopN` and `ToSlice`.
-/

namespace skipset

/-- The constant `maxLevel`. -/
def maxLevel : Nat := 16

/-- Modulus of `uint32` arithmetic. -/
def u32 : Nat := 2 ^ 32

/-- The struct `levelNode`: an atomically published forward pointer and a span. -/
structure levelNode where
  next : Option Nat
  span : Nat
deriving DecidableEq

/-- The struct `skipsetNode`: `mutex` is `true` while the mutex is held. -/
structure skipsetNode where
  value : Int
  levels : List levelNode
  mutex : Bool
deriving DecidableEq

/-- The struct `SkipSet` together with the arena its pointers refer to. -/
structure SkipSet where
  heap : List skipsetNode
  head : Nat
  length : Int
  highestLevel : Nat
  desc : Bool
deriving DecidableEq

/-- The function `newSkipsetNode`: `nl` empty level entries, zero value. -/
def newSkipsetNode (nl : Nat) : skipsetNode :=
  { value := 0, levels := List.replicate nl { next := none, span := 0 }, mutex := false }

/-- The function `NewSkipSet`: the head sentinel is the only allocated node. -/
def NewSkipSet (desc : Bool) : SkipSet :=
  { heap := [newSkipsetNode maxLevel], head := 0, length := 0, highestLevel := 0, desc := desc }

/-- Field read `n.value`; faults on a dangling pointer. -/
def getValue (heap : List skipsetNode) (n : Nat) : Option Int :=
  (heap[n]?).map (fun nd => nd.value)

/-- The method `getNext`: `n.levels[level].next.Load()`. -/
def getNext (heap : List skipsetNode) (n level : Nat) : Option (Option Nat) :=
  (heap[n]?).bind (fun nd => (nd.levels[level]?).map (fun lv => lv.next))

/-- The method `getNextSpan`: `int(atomic.LoadUint32(&n.levels[level].span))`. -/
def getNextSpan (heap : List skipsetNode) (n level : Nat) : Option Nat :=
  (heap[n]?).bind (fun nd => (nd.levels[level]?).map (fun lv => lv.span))

/-- Write `f` applied to the level entry `n.levels[level]`; faults when out of range. -/
def updLevel (heap : List skipsetNode) (n level : Nat) (f : levelNode → levelNode) :
    Option (List skipsetNode) :=
  (heap[n]?).bind (fun nd => (nd.levels[level]?).map (fun lv =>
    heap.set n { nd with levels := nd.levels.set level (f lv) }))

/-- The method `setNext`. -/
def setNext (heap : List skipsetNode) (n level : Nat) (next : Option Nat) :
    Option (List skipsetNode) :=
  updLevel heap n level (fun lv => { lv with next := next })

/-- The method `setNextStep`. -/
def setNextStep (heap : List skipsetNode) (n level : Nat) (step : Nat) :
    Option (List skipsetNode) :=
  updLevel heap n level (fun lv => { lv with span := step })

/-- The method `incrNextStep`: `atomic.AddUint32(&n.levels[level].span, 1)`. -/
def incrNextStep (heap : List skipsetNode) (n level : Nat) : Option (List skipsetNode) :=
  updLevel heap n level (fun lv => { lv with span := (lv.span + 1) % u32 })

/-- The call `n.mutex.Lock()`: cannot be granted when the mutex is already held. -/
def lock (heap : List skipsetNode) (n : Nat) : Option (List skipsetNode) :=
  (heap[n]?).bind (fun nd =>
    if nd.mutex then none else some (heap.set n { nd with mutex := true }))

/-- The call `n.mutex.Unlock()`: a runtime fault when the mutex is not held. -/
def unlock (heap : List skipsetNode) (n : Nat) : Option (List skipsetNode) :=
  (heap[n]?).bind (fun nd =>
    if nd.mutex then some (heap.set n { nd with mutex := false }) else none)

/-- The constant `threshold` of `randomLevel`: `math.MaxInt32 / 4`. -/
def threshold : Nat := (2 ^ 31 - 1) / 4

/-- First loop of `randomLevel`: `for rand.Int31() < threshold { level++ }`,
reading the draws from a list; `none` when the list ends before a draw stops the loop. -/
def drawLevel : List Nat → Nat → Option Nat
  | [], _ => none
  | d :: ds, level => if d < threshold then drawLevel ds ((level + 1) % u32) else some level

/-- Second loop of `randomLevel`: the compare-and-swap promotion of `highestLevel`
(with no concurrent writer the swap succeeds at once). -/
def promote (list : SkipSet) (level : Nat) : SkipSet :=
  if list.highestLevel ≥ level then list else { list with highestLevel := level }

/-- The method `randomLevel`. -/
def randomLevel (list : SkipSet) (draws : List Nat) : Option (Nat × SkipSet) :=
  (drawLevel draws 1).map (fun level => (level, promote list level))

/-- Locals of `Add` that live across the retry loop and across the levels. -/
structure AddLocals where
  prevNodes : List (Option Nat)
  nextNodes : List (Option Nat)
  prevNodesShift : List Nat
  nextNodesShift : List Nat
deriving DecidableEq

/-- The zero-initialised arrays `[maxLevel]*skipsetNode[T]` and `[maxLevel]uint32`. -/
def AddLocals.init : AddLocals :=
  { prevNodes := List.replicate maxLevel none, nextNodes := List.replicate maxLevel none,
    prevNodesShift := List.replicate maxLevel 0, nextNodesShift := List.replicate maxLevel 0 }

/-- The loop condition of lines 94: is `nv` strictly before `value` under the flag. -/
def before (desc : Bool) (nv value : Int) : Bool :=
  (decide (nv < value) && !desc) || (decide (nv > value) && desc)

/-- Horizontal walk of `Add` at level `i` (lines 94-98): returns `(node, next, shift)`. -/
def addWalk (heap : List skipsetNode) (desc : Bool) (value : Int) (i : Nat) :
    Nat → Nat → Option Nat → Nat → Option (Nat × Option Nat × Nat)
  | _, node, none, shift => some (node, none, shift)
  | 0, node, some nx, shift =>
      (getValue heap nx).bind (fun nv =>
        if before desc nv value then none else some (node, some nx, shift))
  | fuel + 1, node, some nx, shift =>
      (getValue heap nx).bind (fun nv =>
        if before desc nv value then
          (getNextSpan heap node i).bind (fun sp =>
            (getNext heap nx i).bind (fun next2 =>
              addWalk heap desc value i fuel nx next2 ((shift + sp) % u32)))
        else some (node, some nx, shift))

/-- Vertical descent of `Add` (lines 92-104) over the levels `k-1, ..., 0`.
The result `some none` is the early `return false`. -/
def addDescend (heap : List skipsetNode) (desc : Bool) (value : Int) (fuel : Nat) :
    Nat → Nat → Nat → AddLocals → Option (Option (Nat × AddLocals))
  | 0, _, shift, loc => some (some (shift, loc))
  | i + 1, node, shift, loc =>
      (getNext heap node i).bind (fun next0 =>
      (addWalk heap desc value i fuel node next0 shift).bind (fun r =>
      if i < maxLevel then
        (getNextSpan heap r.1 i).bind (fun sp =>
          let loc2 : AddLocals :=
            { prevNodes := loc.prevNodes.set i (some r.1),
              nextNodes := loc.nextNodes.set i r.2.1,
              prevNodesShift := loc.prevNodesShift.set i r.2.2,
              nextNodesShift := loc.nextNodesShift.set i ((r.2.2 + sp) % u32) }
          match r.2.1 with
          | none => addDescend heap desc value fuel i r.1 r.2.2 loc2
          | some nx =>
              (getValue heap nx).bind (fun nv =>
                if nv = value then some none
                else addDescend heap desc value fuel i r.1 r.2.2 loc2))
      else none))

/-- Lock pass of `Add` (lines 110-122) for the levels `i, ..., i + r - 1`; the
Boolean is `stateChange`. -/
def lockPass (loc : AddLocals) :
    Nat → Nat → List skipsetNode → Int → Option (List skipsetNode × Bool)
  | 0, _, heap, _ => some (heap, false)
  | r + 1, i, heap, lastPrevIndex =>
      (loc.prevNodes[i]?).bind (fun prev =>
      (loc.nextNodes[i]?).bind (fun next =>
      (loc.prevNodesShift[i]?).bind (fun ps =>
      prev.bind (fun p =>
        let prevIndex : Int := (ps : Int)
        (if lastPrevIndex ≠ prevIndex then lock heap p else some heap).bind (fun heap2 =>
          (getNext heap2 p i).bind (fun cur =>
            if cur ≠ next then some (heap2, true)
            else lockPass loc r (i + 1) heap2 prevIndex))))))

/-- Unlock pass of `Add` (lines 125-132 and 153-160) over the levels `k-1, ..., 0`. -/
def unlockPass (loc : AddLocals) : Nat → List skipsetNode → Int → Option (List skipsetNode)
  | 0, heap, _ => some heap
  | i + 1, heap, lastPrevIndex =>
      (loc.prevNodesShift[i]?).bind (fun ps =>
        let prevIndex : Int := (ps : Int)
        if lastPrevIndex ≠ prevIndex then
          (loc.prevNodes[i]?).bind (fun prev => prev.bind (fun p =>
            (unlock heap p).bind (fun heap2 => unlockPass loc i heap2 prevIndex)))
        else unlockPass loc i heap prevIndex)

/-- Splice loop of `Add` (lines 139-145) for the levels `i, ..., i + r - 1`. -/
def splice (loc : AddLocals) (newNode shift : Nat) :
    Nat → Nat → List skipsetNode → Option (List skipsetNode)
  | 0, _, heap => some heap
  | r + 1, i, heap =>
      (loc.prevNodes[i]?).bind (fun prev =>
      (loc.nextNodes[i]?).bind (fun next =>
      (loc.prevNodesShift[i]?).bind (fun ps =>
      (loc.nextNodesShift[i]?).bind (fun ns =>
      prev.bind (fun p =>
        (setNext heap newNode i next).bind (fun h1 =>
        (setNextStep h1 newNode i ((ns + 1 + u32 - shift) % u32)).bind (fun h2 =>
        (setNextStep h2 p i ((shift + u32 - ps) % u32)).bind (fun h3 =>
        (setNext h3 p i (some newNode)).bind (fun h4 =>
          splice loc newNode shift r (i + 1) h4)))))))))

/-- Span loop of `Add` (lines 146-152) for the levels `i, ..., i + r - 1`:
`prev.incrNextStep(newLevel)` until a level has no successor. -/
def incrAbove (loc : AddLocals) (newLevel : Nat) :
    Nat → Nat → List skipsetNode → Option (List skipsetNode)
  | 0, _, heap => some heap
  | r + 1, i, heap =>
      (loc.prevNodes[i]?).bind (fun prev =>
      (loc.nextNodes[i]?).bind (fun next =>
        match next with
        | none => some heap
        | some _ =>
            prev.bind (fun p =>
              (incrNextStep heap p newLevel).bind (fun h1 =>
                incrAbove loc newLevel r (i + 1) h1))))

/-- The retry loop `for { ... }` of `Add` (lines 85-162); `fuel` bounds both the
number of retries and the length of each horizontal walk. -/
def addLoop (value : Int) (newLevel : Nat) (fuel : Nat) :
    Nat → SkipSet → AddLocals → Option (Bool × SkipSet)
  | 0, _, _ => none
  | tries + 1, list, loc =>
      let highestLevel := list.highestLevel
      (addDescend list.heap list.desc value fuel highestLevel list.head 0 loc).bind (fun d =>
        match d with
        | none => some (false, list)
        | some (shift, loc2) =>
            (lockPass loc2 newLevel 0 list.heap (-1)).bind (fun lk =>
              if lk.2 then
                (unlockPass loc2 newLevel lk.1 (-1)).bind (fun h =>
                  addLoop value newLevel fuel tries { list with heap := h } loc2)
              else
                let newNode := lk.1.length
                let h0 := lk.1 ++ [{ newSkipsetNode newLevel with value := value }]
                let shift2 := (shift + 1) % u32
                (splice loc2 newNode shift2 newLevel 0 h0).bind (fun h1 =>
                (incrAbove loc2 newLevel (highestLevel - newLevel) newLevel h1).bind (fun h2 =>
                (unlockPass loc2 newLevel h2 (-1)).bind (fun h3 =>
                  some (true, { list with heap := h3 }))))))

/-- The method `Add`: draw a level, then run the retry loop. -/
def Add (list : SkipSet) (fuel : Nat) (draws : List Nat) (value : Int) :
    Option (Bool × SkipSet) :=
  (randomLevel list draws).bind (fun r =>
    addLoop value r.1 fuel (fuel + 1) r.2 AddLocals.init)

/-- The method `Remove`. -/
def Remove (list : SkipSet) (_value : Int) : Bool × SkipSet := (true, list)

/-- Horizontal walk of `Contains` at level `i` (lines 177-180). -/
def containsWalk (heap : List skipsetNode) (value : Int) (i : Nat) :
    Nat → Nat → Option Nat → Option (Nat × Option Nat)
  | _, node, none => some (node, none)
  | 0, node, some nx =>
      (getValue heap nx).bind (fun nv =>
        if nv < value then none else some (node, some nx))
  | fuel + 1, node, some nx =>
      (getValue heap nx).bind (fun nv =>
        if nv < value then
          (getNext heap nx i).bind (fun next2 => containsWalk heap value i fuel nx next2)
        else some (node, some nx))

/-- Vertical descent of `Contains` (lines 175-186) over the levels `k-1, ..., 0`. -/
def containsDescend (heap : List skipsetNode) (value : Int) (fuel : Nat) :
    Nat → Nat → Option Bool
  | 0, _ => some false
  | i + 1, node =>
      (getNext heap node i).bind (fun next0 =>
      (containsWalk heap value i fuel node next0).bind (fun r =>
        match r.2 with
        | none => containsDescend heap value fuel i r.1
        | some nx =>
            (getValue heap nx).bind (fun nv =>
              if nv = value then some true else containsDescend heap value fuel i r.1)))

/-- The method `Contains`. -/
def Contains (list : SkipSet) (fuel : Nat) (value : Int) : Option Bool :=
  containsDescend list.heap value fuel list.highestLevel list.head

/-- The loop of `TopN` (lines 194-198): at most `n` further steps from `next`. -/
def topNLoop (heap : List skipsetNode) : Nat → Option Nat → Option (List Int)
  | 0, _ => some []
  | _ + 1, none => some []
  | n + 1, some nx =>
      (getValue heap nx).bind (fun v =>
        (getNext heap nx 0).bind (fun next2 =>
          (topNLoop heap n next2).map (fun rest => v :: rest)))

/-- The largest capacity `make([]int, 0, n)` accepts on a 64-bit platform: beyond
`maxAlloc / 8 = 2 ^ 48 / 8` elements it panics with `makeslice: cap out of range`. -/
def makeLimit : Nat := 2 ^ 45

/-- The method `TopN`.  Its first statement `make([]T, 0, n)` faults for a negative
capacity, for a capacity above `makeLimit`, and when the allocator cannot grant `n`
elements; `room` is the number of elements the allocator can grant. -/
def TopN (list : SkipSet) (room : Nat) (n : Int) : Option (List Int) :=
  if n < 0 ∨ (min room makeLimit : Nat) < n.toNat then none
  else (getNext list.heap list.head 0).bind (fun next => topNLoop list.heap n.toNat next)

/-- Horizontal walk of `Index` at level `i` (lines 210-218): returns `(length, node)`. -/
def indexWalk (heap : List skipsetNode) (index : Int) (i : Nat) :
    Nat → Int → Nat → Option Nat → Option (Int × Nat)
  | _, length, node, none => some (length, node)
  | 0, length, node, some _ =>
      (getNextSpan heap node i).bind (fun step =>
        if (step : Int) + length > index then some (length, node) else none)
  | fuel + 1, length, node, some nx =>
      (getNextSpan heap node i).bind (fun step =>
        if (step : Int) + length > index then some (length, node)
        else (getNext heap nx i).bind (fun next2 =>
          indexWalk heap index i fuel (length + (step : Int)) nx next2))

/-- Vertical descent of `Index` (lines 208-222) over the levels `k-1, ..., 0`:
returns the node the search stops at. -/
def indexDescend (heap : List skipsetNode) (index : Int) (fuel : Nat) :
    Nat → Int → Nat → Option Nat
  | 0, _, node => some node
  | i + 1, length, node =>
      (getNext heap node i).bind (fun next0 =>
      (indexWalk heap index i fuel length node next0).bind (fun r =>
        if r.1 = index then some r.2 else indexDescend heap index fuel i r.1 r.2))

/-- The method `Index`. -/
def Index (list : SkipSet) (fuel : Nat) (index : Int) : Option Int :=
  (indexDescend list.heap index fuel list.highestLevel (-1) list.head).bind (fun node =>
    getValue list.heap node)

/-- The method `Len`. -/
def Len (list : SkipSet) : Int := list.length

/-- The method `ToSlice`: `list.TopN(list.Len())`. -/
def ToSlice (list : SkipSet) (room : Nat) : Option (List Int) := TopN list room (Len list)

/-- A draw sequence that makes `randomLevel` return height `h` (for `h ≥ 1`):
`h - 1` draws below the threshold, then one at the threshold. -/
def drawsFor (h : Nat) : List Nat := List.replicate (h - 1) 0 ++ [threshold]

/-- The set as a call of `Add` leaves it when its search faults at the first level it
visits: `randomLevel` has run (line 81) and nothing else has been written. -/
def afterDraw (list : SkipSet) (draws : List Nat) : Option SkipSet :=
  (randomLevel list draws).map Prod.snd

/-- Run `Add` for each `(draws, value)` pair in turn, collecting the results. -/
def addAll (fuel : Nat) : SkipSet → List (List Nat × Int) → Option (List Bool × SkipSet)
  | list, [] => some ([], list)
  | list, c :: cs =>
      (Add list fuel c.1 c.2).bind (fun r =>
        (addAll fuel r.2 cs).map (fun rs => (r.1 :: rs.1, rs.2)))

/-! ## Abstract description of the linked structure -/

/-- Last node of the path `x :: S`. -/
def lastId (x : Nat) : List (Nat × Int) → Nat
  | [] => x
  | a :: S => lastId a.1 S

/-- First node of `S`, as a pointer (`none` is `nil`). -/
def headId : List (Nat × Int) → Option Nat
  | [] => none
  | a :: _ => some a.1

/-- The level-`l` forward pointers starting at node `x` visit exactly the nodes of
`S`, carrying the listed values, and then reach `nil`. -/
def chainFrom (heap : List skipsetNode) (l : Nat) : Nat → List (Nat × Int) → Prop
  | x, [] => getNext heap x l = some none
  | x, a :: S =>
      getNext heap x l = some (some a.1) ∧ getValue heap a.1 = some a.2 ∧ chainFrom heap l a.1 S

/-- Strict order of the set on `(node, value)` pairs. -/
def ordered (desc : Bool) (a b : Nat × Int) : Prop := before desc a.2 b.2 = true

/-- The entries of `S` placed before `v`. -/
def lower (desc : Bool) (v : Int) (S : List (Nat × Int)) : List (Nat × Int) :=
  S.filter (fun a => before desc a.2 v)

/-- The entries of `S` not placed before `v`. -/
def upper (desc : Bool) (v : Int) (S : List (Nat × Int)) : List (Nat × Int) :=
  S.filter (fun a => !before desc a.2 v)

/-- The chain `S` with the new node `n` holding `v` put at its place. -/
def ins (desc : Bool) (n : Nat) (v : Int) (S : List (Nat × Int)) : List (Nat × Int) :=
  lower desc v S ++ (n, v) :: upper desc v S

/-- Structural invariant of a skip set: `C l` is the chain of level `l`. -/
structure Inv (s : SkipSet) (C : Nat → List (Nat × Int)) : Prop where
  head_eq : s.head = 0
  level_le : s.highestLevel ≤ maxLevel
  head_value : getValue s.heap 0 = some 0
  chain : ∀ l, l < maxLevel → chainFrom s.heap l 0 (C l)
  top : ∀ l, s.highestLevel ≤ l → C l = []
  sub : ∀ l, (C (l + 1)).Sublist (C l)
  sorted : (C 0).Pairwise (ordered s.desc)
  pos : ∀ a ∈ C 0, 0 < a.1 ∧ a.1 < s.heap.length

/-- The added values in the order selected by the flag. -/
def sortedValues (desc : Bool) (vals : List Int) : List Int :=
  if desc then vals.insertionSort (fun a b => b ≤ a) else vals.insertionSort (fun a b => a ≤ b)

/-- The draws make `randomLevel` return a height between 1 and `maxLevel`. -/
def heightOK (draws : List Nat) : Bool :=
  match drawLevel draws 1 with
  | some h => decide (1 ≤ h) && decide (h ≤ maxLevel)
  | none => false

/-- Every call draws a height between 1 and `maxLevel`. -/
def heightsOK (calls : List (List Nat × Int)) : Prop :=
  ∀ c ∈ calls, heightOK c.1 = true

/-- Two arenas with the same size, values and forward pointers. -/
def SameLinks (h1 h2 : List skipsetNode) : Prop :=
  h2.length = h1.length ∧ (∀ n, getValue h2 n = getValue h1 n) ∧
    (∀ n l, getNext h2 n l = getNext h1 n l)

/-- The arrays of `Add` keep their length `maxLevel`. -/
def LocLen (loc : AddLocals) : Prop :=
  loc.prevNodes.length = maxLevel ∧ loc.nextNodes.length = maxLevel

/-- What the descent of `Add` leaves in the arrays below level `k`. -/
def Captured (desc : Bool) (v : Int) (C : Nat → List (Nat × Int)) (k : Nat) (loc : AddLocals) :
    Prop :=
  ∀ l, l < k →
    loc.prevNodes[l]? = some (some (lastId 0 (lower desc v (C l)))) ∧
    loc.nextNodes[l]? = some (headId (upper desc v (C l))) ∧
    ∀ a, (upper desc v (C l)).head? = some a → a.2 ≠ v

/-! ## Concrete runs -/

/-- The state reached from a fresh set by the calls (the fresh set if a call faults). -/
def stateAfter (desc : Bool) (fuel : Nat) (calls : List (List Nat × Int)) : SkipSet :=
  match addAll fuel (NewSkipSet desc) calls with
  | some r => r.2
  | none => NewSkipSet desc

/-- The values of `TestSkipSet` (`shuffleData`), with heights 1, 2, 1, 3, 1, 2. -/
def testCalls : List (List Nat × Int) :=
  [(drawsFor 1, 5), (drawsFor 2, 9), (drawsFor 1, 1), (drawsFor 3, 3), (drawsFor 1, 6),
    (drawsFor 2, 4)]

/-- Four calls adding 1, 4, 2, 3 with heights 1, 3, 1, 4. -/
def faultCalls : List (List Nat × Int) :=
  [(drawsFor 1, 1), (drawsFor 3, 4), (drawsFor 1, 2), (drawsFor 4, 3)]

/-- Two calls adding 10 with height 3, then 5 with height 1. -/
def rankCalls : List (List Nat × Int) := [(drawsFor 3, 10), (drawsFor 1, 5)]

/-- Two calls adding 5, then 9, both with height 1. -/
def pairCalls : List (List Nat × Int) := [(drawsFor 1, 5), (drawsFor 1, 9)]

/-- Two calls adding 1, then 3, both with height 1. -/
def smallCalls : List (List Nat × Int) := [(drawsFor 1, 1), (drawsFor 1, 3)]

/-- Three calls adding 1, 4, 2 with heights 1, 3, 1 (the first three of `faultCalls`). -/
def spanCalls : List (List Nat × Int) := [(drawsFor 1, 1), (drawsFor 3, 4), (drawsFor 1, 2)]

/-- One call adding 10 with height 3 (the first of `rankCalls`). -/
def tenCall : List (List Nat × Int) := [(drawsFor 3, 10)]

/-- One call adding 1 with height 1. -/
def oneCall : List (List Nat × Int) := [(drawsFor 1, 1)]

/-- Seventeen draws: sixteen below the threshold, then one at the threshold. -/
def longDraws : List Nat := List.replicate 16 0 ++ [threshold]

/-- The state in which a first caller of Add(5), having drawn height 2, has promoted
`highestLevel` and is about to search: the set holds 1. -/
def retryBefore : SkipSet := promote (stateAfter false 4 oneCall) 2

/-- The arrays captured by the search of that first caller. -/
def retryCaptured : AddLocals :=
  match addDescend retryBefore.heap retryBefore.desc 5 4 retryBefore.highestLevel
      retryBefore.head 0 AddLocals.init with
  | some (some p) => p.2
  | _ => AddLocals.init

/-- The arena after a second caller has run Add(3) with height 1 to completion,
between the search and the lock pass of the first caller. -/
def retryHeap : List skipsetNode :=
  match Add retryBefore 4 (drawsFor 1) 3 with
  | some r => r.2.heap
  | none => []

/-! ## A chain of nodes of height 1, and the wrap of the span counter -/

/-- A node of height 1 holding `j`, linked at level 0 to node `j + 1` with span 1. -/
def linkNode (j : Nat) : skipsetNode :=
  { value := (j : Int), levels := [{ next := some (j + 1), span := 1 }], mutex := false }

/-- A node of height 1 holding `j`, with no successor. -/
def lastNode (j : Nat) : skipsetNode :=
  { value := (j : Int), levels := [{ next := none, span := 0 }], mutex := false }

/-- The head sentinel linked at level 0 to node 1 with span 1, its other levels unused. -/
def ascHead : skipsetNode :=
  { value := 0,
    levels := { next := some 1, span := 1 } :: List.replicate 15 { next := none, span := 0 },
    mutex := false }

/-- The nodes 1, ..., k of a chain in which every node is linked to the next one. -/
def linkNodes (k : Nat) : List skipsetNode := (List.range k).map (fun j => linkNode (j + 1))

/-- The arena holding 1, ..., k + 1 in nodes 1, ..., k + 1 of height 1. -/
def ascHeap (k : Nat) : List skipsetNode := ascHead :: (linkNodes k ++ [lastNode (k + 1)])

/-- The ascending set holding 1, ..., k + 1 in nodes of height 1. -/
def ascState (k : Nat) : SkipSet :=
  { heap := ascHeap k, head := 0, length := 0, highestLevel := 1, desc := false }

/-- The calls adding 1, ..., k in this order, each with height 1. -/
def ascCalls (k : Nat) : List (List Nat × Int) :=
  (List.range k).map (fun j => (drawsFor 1, ((j + 1 : Nat) : Int)))

/-- The arrays of `Add` after its level-0 walk to node `k + 1`. -/
def ascLocals (loc : AddLocals) (k : Nat) : AddLocals :=
  { prevNodes := loc.prevNodes.set 0 (some (k + 1)),
    nextNodes := loc.nextNodes.set 0 none,
    prevNodesShift := loc.prevNodesShift.set 0 ((k + 1) % u32),
    nextNodesShift := loc.nextNodesShift.set 0 (((k + 1) % u32 + 0) % u32) }

/-- The head sentinel after the wrap: its level-1 link goes to node `k + 2` with stored
span 0. -/
def wrapHead (k : Nat) : skipsetNode :=
  { value := 0,
    levels := { next := some 1, span := 1 } :: { next := some (k + 2), span := 0 } ::
      List.replicate 14 { next := none, span := 0 },
    mutex := false }

/-- The node of height 2 holding `k + 2`, last at both levels. -/
def wrapNode (k : Nat) : skipsetNode :=
  { value := ((k + 2 : Nat) : Int),
    levels := [{ next := none, span := 0 }, { next := none, span := 1 }], mutex := false }

/-- The arena after adding `k + 2` with height 2 to the chain holding 1, ..., k + 1. -/
def wrapHeap (k : Nat) : List skipsetNode :=
  wrapHead k :: (linkNodes k ++ [linkNode (k + 1), wrapNode k])

/-- Two less than the modulus of `uint32`. -/
def wrapCount : Nat := 2 ^ 32 - 2

/-- The ascending set after adding 1, ..., 2 ^ 32 - 1 with height 1 and then 2 ^ 32 with
height 2. -/
def wrapState : SkipSet :=
  { heap := wrapHeap wrapCount, head := 0, length := 0, highestLevel := 2, desc := false }

/-- The arrays of `Add` after the search of the chain from level 1. -/
def wrapLocals (k : Nat) : AddLocals :=
  ascLocals
    { prevNodes := AddLocals.init.prevNodes.set 1 (some 0),
      nextNodes := AddLocals.init.nextNodes.set 1 none,
      prevNodesShift := AddLocals.init.prevNodesShift.set 1 0,
      nextNodesShift := AddLocals.init.nextNodesShift.set 1 ((0 + 0) % u32) } k

/-! ## Observations on the linked structure -/

/-- The nodes met by following the level-`l` forward pointers from `next` to `nil`,
with their values. -/
def levelChain (heap : List skipsetNode) (l : Nat) : Nat → Option Nat → Option (List (Nat × Int))
  | _, none => some []
  | 0, some _ => none
  | fuel + 1, some n =>
      (getValue heap n).bind (fun v =>
        (getNext heap n l).bind (fun nx =>
          (levelChain heap l fuel nx).map (fun rest => (n, v) :: rest)))

/-- The nodes reachable from the head at level `l`, in chain order. -/
def reachableAt (s : SkipSet) (fuel l : Nat) : Option (List (Nat × Int)) :=
  (getNext s.heap s.head l).bind (fun nx => levelChain s.heap l fuel nx)

/-- Number of level-0 steps from node `x` to node `y`. -/
def steps0 (heap : List skipsetNode) (y : Nat) : Nat → Nat → Option Nat
  | 0, x => if x = y then some 0 else none
  | fuel + 1, x =>
      if x = y then some 0
      else (getNext heap x 0).bind (fun nx => nx.bind (fun n =>
        (steps0 heap y fuel n).map (fun k => k + 1)))

/-- The heights drawn by the calls, in order. -/
def drawnHeights (calls : List (List Nat × Int)) : List Nat :=
  calls.filterMap (fun c => drawLevel c.1 1)

/-- The largest of the heights (0 for no height). -/
def maxHeight (hs : List Nat) : Nat := hs.foldl max 0

/-- The draws of 31 bits that make the first loop of `randomLevel` go on. -/
def continuing : Finset Nat := (Finset.range (2 ^ 31)).filter (fun d => d < threshold)

/-! ## Positions: the span sums along the search path -/

/-- Number of levels of node `x` (0 for a dangling pointer). -/
def height (heap : List skipsetNode) (x : Nat) : Nat :=
  match heap[x]? with
  | some nd => nd.levels.length
  | none => 0

/-- Stored span of the level-`l` link of node `x` (0 when the node has no such level). -/
def spanAt (heap : List skipsetNode) (x l : Nat) : Nat := (getNextSpan heap x l).getD 0

/-- The value of `shift` with which a search arrives, over a link of level `g - 1`, at
the first node of height at least `g` placed after the nodes of `rev`; `rev` lists the
nodes passed so far, last one first, `ht` gives their heights and `sp` the stored spans. -/
def landF (ht : Nat → Nat) (sp : Nat → Nat → Nat) : List Nat → Nat → Nat
  | [], g => sp 0 (g - 1) % u32
  | b :: rest, g =>
      if g ≤ ht b then (landF ht sp rest (ht b) + sp b (g - 1)) % u32 else landF ht sp rest g

/-- The last node of height at least `g` among `rev` (the head when there is none). -/
def lastF (ht : Nat → Nat) : List Nat → Nat → Nat
  | [], _ => 0
  | b :: rest, g => if g ≤ ht b then b else lastF ht rest g

/-- The value of `shift` with which a search stands on that node. -/
def posF (ht : Nat → Nat) (sp : Nat → Nat → Nat) : List Nat → Nat → Nat
  | [], _ => 0
  | b :: rest, g => if g ≤ ht b then landF ht sp rest (ht b) else posF ht sp rest g

/-- How the stored spans `sq` after an insertion relate to the spans `sp` before it:
`n` is the new node of height `h`, `rlo` the nodes placed before it (last one first),
`shift2` the value of `shift` after `shift += 1`, `M` the number of span increments. -/
structure SpanRel (ht : Nat → Nat) (sp sq : Nat → Nat → Nat) (n h M shift2 : Nat)
    (rlo : List Nat) : Prop where
  nodup : rlo.Nodup
  zero : 0 ∉ rlo
  fresh : n ∉ rlo
  new0 : n ≠ 0
  htn : ht n = h
  shiftLt : shift2 < u32
  same : ∀ x t, x ≠ n → ¬ (t < h ∧ x = lastF ht rlo (t + 1)) →
    ∃ c, sq x t % u32 = (sp x t + c) % u32 ∧ c ≤ M ∧
      (c ≠ 0 → t = h ∧ ∃ i, h ≤ i ∧ x = lastF ht rlo (i + 1)) ∧
      (1 < c → ∃ i, h < i ∧ x = lastF ht rlo (i + 1))
  prev : ∀ t, t < h →
    sq (lastF ht rlo (t + 1)) t % u32 = (shift2 + u32 - posF ht sp rlo (t + 1)) % u32
  newSpan : ∀ t, t < h →
    sq n t % u32 = (landF ht sp rlo (t + 1) + 1 + u32 - shift2) % u32

/-- Number of times the span loop of `Add` increments the span of node `x`, over the
levels `i, ..., i + r - 1`. -/
def incrCount (loc : AddLocals) : Nat → Nat → Nat → Nat
  | 0, _, _ => 0
  | r + 1, i, x =>
      match loc.nextNodes[i]? with
      | some (some _) =>
          (if loc.prevNodes[i]? = some (some x) then 1 else 0) + incrCount loc r (i + 1) x
      | _ => 0

/-- Positions of a skip set: the chain of level `t` holds the nodes of height above
`t`, and the search reaches every node with a shift between 1 and `B`. -/
structure Pos (s : SkipSet) (C : Nat → List (Nat × Int)) (B : Nat) : Prop where
  ht : ∀ t, C t = (C 0).filter (fun a => decide (t < height s.heap a.1))
  bound : ∀ pre a rest, ((C 0).map Prod.fst).reverse = pre ++ a :: rest →
    1 ≤ landF (height s.heap) (spanAt s.heap) rest (height s.heap a) ∧
      landF (height s.heap) (spanAt s.heap) rest (height s.heap a) ≤ B

end skipset

/-!
# Model of `hashset` (TprceOYX/collections)

A shallow embedding of `src/hashset/hashset.go`.  A Go map is a reference: the maps
live in an arena (`List (List T)`), each map being the list of its keys, and a value of
type `HashSet[T]` is `none` (the nil map) or `some r`, a reference to map `r` of the
arena.  The list of a map is duplicate free and its order stands for the order in which
`range` visits the keys; the theorems hold for every such order.  Writing to the nil
map is the runtime fault `assignment to entry in nil map`, modelled as `none`.
-/

namespace hashset

/-- The keys of the map `s`; the nil map has none. -/
def keysOf {T : Type} (st : List (List T)) (s : Option Nat) : List T :=
  match s with
  | none => []
  | some r => (st[r]?).getD []

/-- The set value `s` is nil or refers to a map of the arena. -/
def Valid {T : Type} (st : List (List T)) (s : Option Nat) : Prop :=
  ∀ r, s = some r → r < st.length

/-- The statement `s[k] = struct{}{}`. -/
def assign {T : Type} [DecidableEq T] (st : List (List T)) (s : Option Nat) (k : T) :
    Option (List (List T)) :=
  match s with
  | none => none
  | some r => (st[r]?).map (fun m => st.set r (m.insert k))

/-- The loop `for _, v := range elements { s[v] = struct{}{} }`. -/
def assignAll {T : Type} [DecidableEq T] (s : Option Nat) :
    List (List T) → List T → Option (List (List T))
  | st, [] => some st
  | st, k :: ks => (assign st s k).bind (fun st2 => assignAll s st2 ks)

/-- The function `NewHashSet`: `make(map[T]struct{})` allocates an empty map. -/
def NewHashSet {T : Type} (st : List (List T)) : List (List T) × Option Nat :=
  (st ++ [[]], some st.length)

/-- The function `NewHashSetWithSize`: the size is only a capacity hint. -/
def NewHashSetWithSize {T : Type} (st : List (List T)) (_size : Int) :
    List (List T) × Option Nat :=
  (st ++ [[]], some st.length)

/-- The function `NewHashSetFromSlice`. -/
def NewHashSetFromSlice {T : Type} [DecidableEq T] (st : List (List T)) (slice : List T) :
    Option (List (List T) × Option Nat) :=
  (assignAll (some st.length) (st ++ [[]]) slice).map (fun st2 => (st2, some st.length))

/-- The method `Len`. -/
def Len {T : Type} (st : List (List T)) (s : Option Nat) : Nat := (keysOf st s).length

/-- The method `Add`. -/
def Add {T : Type} [DecidableEq T] (st : List (List T)) (s : Option Nat) (elements : List T) :
    Option (List (List T)) :=
  assignAll s st elements

/-- The method `Contain`. -/
def Contain {T : Type} [DecidableEq T] (st : List (List T)) (s : Option Nat) (ele : T) : Bool :=
  decide (ele ∈ keysOf st s)

/-- The outer loop of `Merge` over `others`; the inner loop ranges over the keys the
other set holds when its turn comes. -/
def mergeLoop {T : Type} [DecidableEq T] (s : Option Nat) :
    List (List T) → List (Option Nat) → Option (List (List T))
  | st, [] => some st
  | st, o :: os => (assignAll s st (keysOf st o)).bind (fun st2 => mergeLoop s st2 os)

/-- The method `Merge`: returns the receiver. -/
def Merge {T : Type} [DecidableEq T] (st : List (List T)) (s : Option Nat)
    (others : List (Option Nat)) : Option (List (List T) × Option Nat) :=
  (mergeLoop s st others).map (fun st2 => (st2, s))

/-- The loop of `Intersection` over the keys of `rangeSet`. -/
def intersectLoop {T : Type} [DecidableEq T] (res compareSet : Option Nat) :
    List (List T) → List T → Option (List (List T))
  | st, [] => some st
  | st, k :: ks =>
      if k ∈ keysOf st compareSet then
        (assign st res k).bind (fun st2 => intersectLoop res compareSet st2 ks)
      else intersectLoop res compareSet st ks

/-- The method `Intersection`. -/
def Intersection {T : Type} [DecidableEq T] (st : List (List T)) (s other : Option Nat) :
    Option (List (List T) × Option Nat) :=
  let rangeSet := if Len st s > Len st other then other else s
  let compareSet := if Len st s > Len st other then s else other
  let res := NewHashSetWithSize st (Len st rangeSet)
  (intersectLoop res.2 compareSet res.1 (keysOf res.1 rangeSet)).map (fun st2 => (st2, res.2))

/-- The method `ToSlice`. -/
def ToSlice {T : Type} (st : List (List T)) (s : Option Nat) : List T := keysOf st s

/-- The arena of `TestHashSet` before `Merge`: map 0 holds 1, 2, 3, 4 (built by
`NewHashSetWithSize` and `Add`), map 1 is `NewHashSetFromSlice` of 3, 4, 5, 6. -/
def testArena : List (List Nat) :=
  match Add (NewHashSetWithSize [] 4).1 (NewHashSetWithSize ([] : List (List Nat)) 4).2
      [1, 2, 3, 4] with
  | some st1 =>
      (match NewHashSetFromSlice st1 [3, 4, 5, 6] with
       | some r => r.1
       | none => [])
  | none => []

/-- An arena with two maps: map 0 holds 1, map 1 holds 2. -/
def twoMaps : List (List Nat) := [[1], [2]]

end hashset

namespace skipset

/-! ## Primitive operations on the arena -/

theorem getNextSpan_of_getNext {heap : List skipsetNode} {n l : Nat} {x : Option Nat}
    (h : getNext heap n l = some x) : ∃ sp, getNextSpan heap n l = some sp := by
  unfold getNext at h
  unfold getNextSpan
  cases hn : heap[n]? with
  | none => simp [hn] at h
  | some nd =>
    simp only [hn, Option.some_bind] at h ⊢
    cases hl : nd.levels[l]? with
    | none => simp [hl] at h
    | some lv => exact ⟨lv.span, by simp⟩

theorem updLevel_length {heap heap2 : List skipsetNode} {n l : Nat} {f : levelNode → levelNode}
    (h : updLevel heap n l f = some heap2) : heap2.length = heap.length := by
  unfold updLevel at h
  cases hn : heap[n]? with
  | none => simp [hn] at h
  | some nd =>
    simp only [hn, Option.some_bind] at h
    cases hl : nd.levels[l]? with
    | none => simp [hl] at h
    | some lv =>
      simp only [hl, Option.map_some', Option.some.injEq] at h
      subst h
      simp

theorem updLevel_getValue {heap heap2 : List skipsetNode} {n l : Nat} {f : levelNode → levelNode}
    (h : updLevel heap n l f = some heap2) (m : Nat) : getValue heap2 m = getValue heap m := by
  unfold updLevel at h
  cases hn : heap[n]? with
  | none => simp [hn] at h
  | some nd =>
    simp only [hn, Option.some_bind] at h
    cases hl : nd.levels[l]? with
    | none => simp [hl] at h
    | some lv =>
      simp only [hl, Option.map_some', Option.some.injEq] at h
      subst h
      unfold getValue
      rw [List.getElem?_set]
      by_cases hm : n = m
      · subst hm
        have hlt : n < heap.length := by
          rcases List.getElem?_eq_some.1 hn with ⟨hlt, _⟩
          exact hlt
        simp [hlt, hn]
      · simp [hm]

theorem updLevel_getNext {heap heap2 : List skipsetNode} {n l : Nat} {f : levelNode → levelNode}
    (h : updLevel heap n l f = some heap2) (m k : Nat) :
    getNext heap2 m k =
      if m = n ∧ k = l then (getNext heap n l).map (fun _ =>
        ((heap[n]?).bind (fun nd => (nd.levels[l]?).map (fun lv => (f lv).next))).getD none)
      else getNext heap m k := by
  unfold updLevel at h
  cases hn : heap[n]? with
  | none => simp [hn] at h
  | some nd =>
    simp only [hn, Option.some_bind] at h
    cases hl : nd.levels[l]? with
    | none => simp [hl] at h
    | some lv =>
      simp only [hl, Option.map_some', Option.some.injEq] at h
      subst h
      have hlt : n < heap.length := by
        rcases List.getElem?_eq_some.1 hn with ⟨hlt, _⟩
        exact hlt
      have hllt : l < nd.levels.length := by
        rcases List.getElem?_eq_some.1 hl with ⟨hlt, _⟩
        exact hlt
      unfold getNext
      rw [List.getElem?_set]
      by_cases hm : n = m
      · subst hm
        simp only [hlt, if_true, Option.some_bind, true_and, hn, hl, Option.map_some',
          Option.getD_some]
        rw [List.getElem?_set]
        by_cases hk : l = k
        · subst hk
          simp [hllt]
        · have hk2 : ¬ k = l := fun e => hk e.symm
          simp [hk, hk2]
      · have hm2 : ¬ m = n := fun e => hm e.symm
        simp [hm, hm2]

theorem setNext_getNext {heap heap2 : List skipsetNode} {n l : Nat} {nx : Option Nat}
    (h : setNext heap n l nx = some heap2) (m k : Nat) :
    getNext heap2 m k = if m = n ∧ k = l then some nx else getNext heap m k := by
  unfold setNext at h
  rw [updLevel_getNext h]
  by_cases c : m = n ∧ k = l
  · simp only [c, and_self, if_true]
    unfold updLevel at h
    cases hn : heap[n]? with
    | none => simp [hn] at h
    | some nd =>
      simp only [hn, Option.some_bind] at h
      cases hl : nd.levels[l]? with
      | none => simp [hl] at h
      | some lv => simp [getNext, hn, hl]
  · simp [c]

theorem updLevel_sameLinks {heap heap2 : List skipsetNode} {n l : Nat} {f : levelNode → levelNode}
    (h : updLevel heap n l f = some heap2) (hf : ∀ lv, (f lv).next = lv.next) :
    SameLinks heap heap2 := by
  refine ⟨updLevel_length h, updLevel_getValue h, fun m k => ?_⟩
  rw [updLevel_getNext h]
  by_cases c : m = n ∧ k = l
  · simp only [c, and_self, if_true]
    unfold updLevel at h
    cases hn : heap[n]? with
    | none => simp [hn] at h
    | some nd =>
      simp only [hn, Option.some_bind] at h
      cases hl : nd.levels[l]? with
      | none => simp [hl] at h
      | some lv => simp [getNext, hn, hl, hf]
  · simp [c]

theorem setNextStep_sameLinks {heap heap2 : List skipsetNode} {n l st : Nat}
    (h : setNextStep heap n l st = some heap2) : SameLinks heap heap2 := by
  unfold setNextStep at h
  exact updLevel_sameLinks h (fun _ => rfl)

theorem incrNextStep_sameLinks {heap heap2 : List skipsetNode} {n l : Nat}
    (h : incrNextStep heap n l = some heap2) : SameLinks heap heap2 := by
  unfold incrNextStep at h
  exact updLevel_sameLinks h (fun _ => rfl)

theorem SameLinks.refl (h : List skipsetNode) : SameLinks h h := ⟨rfl, fun _ => rfl, fun _ _ => rfl⟩

theorem SameLinks.trans {h1 h2 h3 : List skipsetNode} (a : SameLinks h1 h2) (b : SameLinks h2 h3) :
    SameLinks h1 h3 :=
  ⟨b.1.trans a.1, fun n => (b.2.1 n).trans (a.2.1 n), fun n l => (b.2.2 n l).trans (a.2.2 n l)⟩

theorem lock_sameLinks {heap heap2 : List skipsetNode} {n : Nat}
    (h : lock heap n = some heap2) : SameLinks heap heap2 := by
  unfold lock at h
  cases hn : heap[n]? with
  | none => simp [hn] at h
  | some nd =>
    simp only [hn, Option.some_bind] at h
    have hlt : n < heap.length := by
      rcases List.getElem?_eq_some.1 hn with ⟨hlt, _⟩
      exact hlt
    by_cases hm : nd.mutex = true
    · simp [hm] at h
    · simp only [hm, Bool.false_eq_true, if_false, Option.some.injEq] at h
      subst h
      refine ⟨by simp, fun m => ?_, fun m k => ?_⟩
      · unfold getValue
        rw [List.getElem?_set]
        by_cases e : n = m
        · subst e
          simp [hlt, hn]
        · simp [e]
      · unfold getNext
        rw [List.getElem?_set]
        by_cases e : n = m
        · subst e
          simp [hlt, hn]
        · simp [e]

theorem unlock_sameLinks {heap heap2 : List skipsetNode} {n : Nat}
    (h : unlock heap n = some heap2) : SameLinks heap heap2 := by
  unfold unlock at h
  cases hn : heap[n]? with
  | none => simp [hn] at h
  | some nd =>
    simp only [hn, Option.some_bind] at h
    have hlt : n < heap.length := by
      rcases List.getElem?_eq_some.1 hn with ⟨hlt, _⟩
      exact hlt
    by_cases hm : nd.mutex = true
    · simp only [hm, if_true, Option.some.injEq] at h
      subst h
      refine ⟨by simp, fun m => ?_, fun m k => ?_⟩
      · unfold getValue
        rw [List.getElem?_set]
        by_cases e : n = m
        · subst e
          simp [hlt, hn]
        · simp [e]
      · unfold getNext
        rw [List.getElem?_set]
        by_cases e : n = m
        · subst e
          simp [hlt, hn]
        · simp [e]
    · simp [hm] at h

theorem lockPass_sameLinks (loc : AddLocals) :
    ∀ (r i : Nat) (heap : List skipsetNode) (last : Int) (res : List skipsetNode × Bool),
      lockPass loc r i heap last = some res → SameLinks heap res.1
  | 0, _, heap, _, res, h => by
      simp only [lockPass, Option.some.injEq] at h
      subst h
      exact SameLinks.refl _
  | r + 1, i, heap, last, res, h => by
      simp only [lockPass, Option.bind_eq_some] at h
      obtain ⟨prev, _, next, _, ps, _, p, _, heap2, hlock, cur, _, hres⟩ := h
      have s1 : SameLinks heap heap2 := by
        by_cases c : last = (ps : Int)
        · simp only [c, ne_eq, not_true_eq_false, if_false, Option.some.injEq] at hlock
          subst hlock
          exact SameLinks.refl _
        · simp only [ne_eq, c, not_false_eq_true, if_true] at hlock
          exact lock_sameLinks hlock
      by_cases c2 : cur = next
      · simp only [c2, ne_eq, not_true_eq_false, if_false] at hres
        exact s1.trans (lockPass_sameLinks loc r (i + 1) heap2 _ res hres)
      · simp only [ne_eq, c2, not_false_eq_true, if_true, Option.some.injEq] at hres
        subst hres
        exact s1

theorem unlockPass_sameLinks (loc : AddLocals) :
    ∀ (k : Nat) (heap : List skipsetNode) (last : Int) (res : List skipsetNode),
      unlockPass loc k heap last = some res → SameLinks heap res
  | 0, heap, _, res, h => by
      simp only [unlockPass, Option.some.injEq] at h
      subst h
      exact SameLinks.refl _
  | i + 1, heap, last, res, h => by
      simp only [unlockPass, Option.bind_eq_some] at h
      obtain ⟨ps, _, hres⟩ := h
      by_cases c : last = (ps : Int)
      · simp only [c, ne_eq, not_true_eq_false, if_false] at hres
        exact unlockPass_sameLinks loc i heap _ res hres
      · simp only [ne_eq, c, not_false_eq_true, if_true, Option.bind_eq_some] at hres
        obtain ⟨prev, _, p, _, heap2, hu, hrest⟩ := hres
        exact (unlock_sameLinks hu).trans (unlockPass_sameLinks loc i heap2 _ res hrest)

theorem incrAbove_sameLinks (loc : AddLocals) (newLevel : Nat) :
    ∀ (r i : Nat) (heap res : List skipsetNode),
      incrAbove loc newLevel r i heap = some res → SameLinks heap res
  | 0, _, heap, res, h => by
      simp only [incrAbove, Option.some.injEq] at h
      subst h
      exact SameLinks.refl _
  | r + 1, i, heap, res, h => by
      simp only [incrAbove, Option.bind_eq_some] at h
      obtain ⟨prev, _, next, _, hres⟩ := h
      cases next with
      | none =>
        simp only [Option.some.injEq] at hres
        subst hres
        exact SameLinks.refl _
      | some nx =>
        simp only [Option.bind_eq_some] at hres
        obtain ⟨p, _, h1, hi, hrest⟩ := hres
        exact (incrNextStep_sameLinks hi).trans (incrAbove_sameLinks loc newLevel r (i + 1) h1 res hrest)

theorem setNext_length {heap heap2 : List skipsetNode} {n l : Nat} {nx : Option Nat}
    (h : setNext heap n l nx = some heap2) : heap2.length = heap.length := by
  unfold setNext at h
  exact updLevel_length h

theorem setNext_getValue {heap heap2 : List skipsetNode} {n l : Nat} {nx : Option Nat}
    (h : setNext heap n l nx = some heap2) (m : Nat) : getValue heap2 m = getValue heap m := by
  unfold setNext at h
  exact updLevel_getValue h m

theorem splice_step {heap h1 h2 h3 h4 : List skipsetNode} {new p i a b : Nat} {next : Option Nat}
    (e1 : setNext heap new i next = some h1) (e2 : setNextStep h1 new i a = some h2)
    (e3 : setNextStep h2 p i b = some h3) (e4 : setNext h3 p i (some new) = some h4) :
    h4.length = heap.length ∧ (∀ n, getValue h4 n = getValue heap n) ∧
      ∀ n l, getNext h4 n l =
        if n = p ∧ l = i then some (some new)
        else if n = new ∧ l = i then some next else getNext heap n l := by
  have s2 := setNextStep_sameLinks e2
  have s3 := setNextStep_sameLinks e3
  refine ⟨?_, fun n => ?_, fun n l => ?_⟩
  · rw [setNext_length e4, s3.1, s2.1, setNext_length e1]
  · rw [setNext_getValue e4, s3.2.1, s2.2.1, setNext_getValue e1]
  · rw [setNext_getNext e4, s3.2.2, s2.2.2, setNext_getNext e1]

/-- Effect of the splice loop on values and forward pointers. -/
theorem splice_spec (loc : AddLocals) (new shift : Nat) :
    ∀ (r i : Nat) (heap res : List skipsetNode),
      splice loc new shift r i heap = some res →
      res.length = heap.length ∧ (∀ n, getValue res n = getValue heap n) ∧
        ∀ n l, getNext res n l =
          if i ≤ l ∧ l < i + r then
            (if loc.prevNodes[l]? = some (some n) then some (some new)
             else if n = new then some ((loc.nextNodes[l]?).getD none)
             else getNext heap n l)
          else getNext heap n l
  | 0, i, heap, res, h => by
      simp only [splice, Option.some.injEq] at h
      subst h
      refine ⟨rfl, fun _ => rfl, fun n l => ?_⟩
      have c : ¬ (i ≤ l ∧ l < i + 0) := by omega
      rw [if_neg c]
  | r + 1, i, heap, res, h => by
      simp only [splice, Option.bind_eq_some] at h
      obtain ⟨prev, hp, next, hn, ps, _, ns, _, p, hpp, h1, e1, h2, e2, h3, e3, h4, e4, hrest⟩ := h
      subst hpp
      obtain ⟨l4, v4, n4⟩ := splice_step e1 e2 e3 e4
      obtain ⟨lr, vr, nr⟩ := splice_spec loc new shift r (i + 1) h4 res hrest
      refine ⟨lr.trans l4, fun n => (vr n).trans (v4 n), fun n l => ?_⟩
      rw [nr n l, n4 n l]
      by_cases c1 : i + 1 ≤ l ∧ l < i + 1 + r
      · have c2 : i ≤ l ∧ l < i + (r + 1) := by omega
        have c3 : ¬ l = i := by omega
        simp [c1, c2, c3]
      · by_cases c4 : l = i
        · subst c4
          have c2 : l ≤ l ∧ l < l + (r + 1) := by omega
          simp only [c1, if_false, c2, and_self, if_true, and_true, hp, hn, Option.getD_some,
            Option.some.injEq]
          by_cases c5 : n = p
          · subst c5
            simp
          · have c6 : ¬ p = n := fun e => c5 e.symm
            simp [c5, c6]
        · have c2 : ¬ (i ≤ l ∧ l < i + (r + 1)) := by omega
          simp [c1, c2, c4]

/-! ## The order selected by the flag -/

theorem before_irrefl (desc : Bool) (a : Int) : before desc a a = false := by
  cases desc <;> simp [before]

theorem before_trans {desc : Bool} {a b c : Int}
    (h1 : before desc a b = true) (h2 : before desc b c = true) : before desc a c = true := by
  cases desc <;> simp [before] at h1 h2 ⊢ <;> omega

theorem before_of_not {desc : Bool} {a v : Int}
    (h1 : before desc a v = false) (h2 : a ≠ v) : before desc v a = true := by
  cases desc <;> simp [before] at h1 ⊢ <;> omega

theorem before_asymm {desc : Bool} {a b : Int}
    (h1 : before desc a b = true) : before desc b a = false := by
  cases desc <;> simp [before] at h1 ⊢ <;> omega

/-! ## Paths and chains -/

theorem lastId_append (x : Nat) (A B : List (Nat × Int)) :
    lastId x (A ++ B) = lastId (lastId x A) B := by
  induction A generalizing x with
  | nil => rfl
  | cons a A ih => simp [lastId, ih]

theorem lastId_mem (x : Nat) (A : List (Nat × Int)) :
    lastId x A = x ∨ ∃ a ∈ A, a.1 = lastId x A := by
  induction A generalizing x with
  | nil => exact Or.inl rfl
  | cons a A ih =>
    right
    rcases ih a.1 with h | ⟨b, hb, e⟩
    · exact ⟨a, List.mem_cons_self _ _, by simp [lastId, h]⟩
    · exact ⟨b, List.mem_cons_of_mem _ hb, by simpa [lastId] using e⟩

theorem chainFrom_getNext {heap : List skipsetNode} {l x : Nat} {S : List (Nat × Int)}
    (h : chainFrom heap l x S) : getNext heap x l = some (headId S) := by
  cases S with
  | nil => exact h
  | cons a S => exact h.1

theorem chainFrom_value {heap : List skipsetNode} {l : Nat} :
    ∀ {x : Nat} {S : List (Nat × Int)}, chainFrom heap l x S →
      ∀ a ∈ S, getValue heap a.1 = some a.2
  | _, [], _, a, ha => by simp at ha
  | _, b :: S, h, a, ha => by
      rcases List.mem_cons.1 ha with e | e
      · subst e
        exact h.2.1
      · exact chainFrom_value h.2.2 a e

theorem chainFrom_append_cons {heap : List skipsetNode} {l : Nat} :
    ∀ {x : Nat} {A : List (Nat × Int)} {a : Nat × Int} {B : List (Nat × Int)},
      chainFrom heap l x (A ++ a :: B) → chainFrom heap l a.1 B
  | _, [], _, _, h => h.2.2
  | _, _ :: A, _, _, h => chainFrom_append_cons (A := A) h.2.2

/-- A chain depends only on the values and forward pointers of the arena. -/
theorem chainFrom_congr {h1 h2 : List skipsetNode} {l : Nat} :
    ∀ {x : Nat} {S : List (Nat × Int)},
      (∀ n, (n = x ∨ ∃ a ∈ S, a.1 = n) → getNext h2 n l = getNext h1 n l) →
      (∀ a ∈ S, getValue h2 a.1 = getValue h1 a.1) →
      chainFrom h1 l x S → chainFrom h2 l x S
  | x, [], hn, _, h => by
      unfold chainFrom at h ⊢
      rw [hn x (Or.inl rfl)]
      exact h
  | x, a :: S, hn, hv, h => by
      unfold chainFrom at h ⊢
      refine ⟨?_, ?_, ?_⟩
      · rw [hn x (Or.inl rfl)]
        exact h.1
      · rw [hv a (List.mem_cons_self _ _)]
        exact h.2.1
      · apply @chainFrom_congr h1 h2 l a.1 S _ _ h.2.2
        · intro n hn2
          apply hn
          rcases hn2 with e | ⟨b, hb, e⟩
          · exact Or.inr ⟨a, List.mem_cons_self _ _, e.symm⟩
          · exact Or.inr ⟨b, List.mem_cons_of_mem _ hb, e⟩
        · intro b hb
          exact hv b (List.mem_cons_of_mem _ hb)

theorem chainFrom_sameLinks {h1 h2 : List skipsetNode} (s : SameLinks h1 h2) {l x : Nat}
    {S : List (Nat × Int)} (h : chainFrom h1 l x S) : chainFrom h2 l x S :=
  chainFrom_congr (fun n _ => s.2.2 n l) (fun a _ => s.2.1 a.1) h

/-! ## Lower and upper part of an ordered chain -/

theorem lower_nil_of_head {desc : Bool} {v : Int} {a : Nat × Int} {S : List (Nat × Int)}
    (hs : (a :: S).Pairwise (ordered desc)) (ha : before desc a.2 v = false) :
    lower desc v (a :: S) = [] := by
  unfold lower
  rw [List.filter_eq_nil_iff]
  intro b hb
  rcases List.mem_cons.1 hb with e | e
  · subst e
    simp [ha]
  · have hab : before desc a.2 b.2 = true := (List.pairwise_cons.1 hs).1 b e
    intro hbv
    have := before_trans hab hbv
    rw [ha] at this
    exact Bool.noConfusion this

theorem upper_of_head {desc : Bool} {v : Int} {a : Nat × Int} {S : List (Nat × Int)}
    (hs : (a :: S).Pairwise (ordered desc)) (ha : before desc a.2 v = false) :
    upper desc v (a :: S) = a :: S := by
  unfold upper
  rw [List.filter_eq_self]
  intro b hb
  rcases List.mem_cons.1 hb with e | e
  · subst e
    simp [ha]
  · have hab : before desc a.2 b.2 = true := (List.pairwise_cons.1 hs).1 b e
    cases hbv : before desc b.2 v with
    | false => rfl
    | true =>
      have := before_trans hab hbv
      rw [ha] at this
      exact Bool.noConfusion this

theorem lower_append_upper {desc : Bool} {v : Int} :
    ∀ {S : List (Nat × Int)}, S.Pairwise (ordered desc) → lower desc v S ++ upper desc v S = S
  | [], _ => rfl
  | a :: S, hs => by
      cases ha : before desc a.2 v with
      | false => rw [lower_nil_of_head hs ha, upper_of_head hs ha]; rfl
      | true =>
        have ih := lower_append_upper (v := v) (List.pairwise_cons.1 hs).2
        unfold lower upper at ih ⊢
        simp only [List.filter_cons, ha, if_true, Bool.not_true, Bool.false_eq_true, if_false,
          List.cons_append, ih]

/-! ## The horizontal walks -/

/-- With enough budget the walk of `Add` along an ordered chain stops at the last
entry placed before `value`. -/
theorem addWalk_chain {heap : List skipsetNode} {desc : Bool} {v : Int} {l : Nat} :
    ∀ (S : List (Nat × Int)) (fuel x shift : Nat),
      chainFrom heap l x S → S.length ≤ fuel → S.Pairwise (ordered desc) →
      ∃ shift2, addWalk heap desc v l fuel x (headId S) shift =
        some (lastId x (lower desc v S), headId (upper desc v S), shift2)
  | [], fuel, x, shift, _, _, _ => by
      refine ⟨shift, ?_⟩
      cases fuel <;> simp [addWalk, headId, lower, upper, lastId]
  | a :: S, fuel, x, shift, hc, hf, hs => by
      have hval : getValue heap a.1 = some a.2 := hc.2.1
      cases hb : before desc a.2 v with
      | false =>
        refine ⟨shift, ?_⟩
        rw [lower_nil_of_head hs hb, upper_of_head hs hb]
        cases fuel <;> simp [addWalk, headId, lastId, hval, hb]
      | true =>
        cases fuel with
        | zero => simp at hf
        | succ fuel =>
          obtain ⟨sp, hsp⟩ := getNextSpan_of_getNext hc.1
          have hnx := chainFrom_getNext hc.2.2
          obtain ⟨sh2, ih⟩ := addWalk_chain (v := v) S fuel a.1 ((shift + sp) % u32) hc.2.2
            (by simpa using hf) (List.pairwise_cons.1 hs).2
          refine ⟨sh2, ?_⟩
          have e1 : lower desc v (a :: S) = a :: lower desc v S := by simp [lower, hb]
          have e2 : upper desc v (a :: S) = upper desc v S := by simp [upper, hb]
          rw [e1, e2]
          simp only [headId, addWalk, hval, Option.some_bind, hb, if_true, hsp, hnx, lastId]
          exact ih

theorem addWalk_mono {heap : List skipsetNode} {desc : Bool} {v : Int} {l : Nat} :
    ∀ (fuel x : Nat) (nx : Option Nat) (shift : Nat) (r : Nat × Option Nat × Nat),
      addWalk heap desc v l fuel x nx shift = some r →
      addWalk heap desc v l (fuel + 1) x nx shift = some r
  | fuel, x, none, shift, r, h => by
      cases fuel <;> simpa [addWalk] using h
  | 0, x, some n, shift, r, h => by
      simp only [addWalk, Option.bind_eq_some] at h ⊢
      obtain ⟨nv, hv, hr⟩ := h
      refine ⟨nv, hv, ?_⟩
      cases hb : before desc nv v with
      | false => simpa [hb] using hr
      | true => simp [hb] at hr
  | fuel + 1, x, some n, shift, r, h => by
      simp only [addWalk, Option.bind_eq_some] at h
      obtain ⟨nv, hv, hr⟩ := h
      rw [addWalk]
      simp only [Option.bind_eq_some]
      refine ⟨nv, hv, ?_⟩
      cases hb : before desc nv v with
      | false => simpa [hb] using hr
      | true =>
        simp only [hb, if_true, Option.bind_eq_some] at hr ⊢
        obtain ⟨sp, hsp, n2, hn2, hrec⟩ := hr
        exact ⟨sp, hsp, n2, hn2, addWalk_mono fuel n n2 _ r hrec⟩

theorem addWalk_mono_le {heap : List skipsetNode} {desc : Bool} {v : Int} {l : Nat}
    {fuel fuel2 x : Nat} {nx : Option Nat} {shift : Nat} {r : Nat × Option Nat × Nat}
    (hle : fuel ≤ fuel2) (h : addWalk heap desc v l fuel x nx shift = some r) :
    addWalk heap desc v l fuel2 x nx shift = some r := by
  induction hle with
  | refl => exact h
  | step _ ih => exact addWalk_mono _ _ _ _ _ ih

/-- With enough budget the walk of `Contains` along a chain returns, and stops on
the chain. -/
theorem containsWalk_chain {heap : List skipsetNode} {v : Int} {l : Nat} :
    ∀ (S : List (Nat × Int)) (fuel x : Nat),
      chainFrom heap l x S → S.length ≤ fuel →
      ∃ p nx, containsWalk heap v l fuel x (headId S) = some (p, nx) ∧
        (p = x ∨ ∃ a ∈ S, a.1 = p) ∧ (∀ y, nx = some y → ∃ a ∈ S, a.1 = y)
  | [], fuel, x, _, _ => by
      refine ⟨x, none, ?_, Or.inl rfl, by simp⟩
      cases fuel <;> simp [containsWalk, headId]
  | a :: S, fuel, x, hc, hf => by
      have hval : getValue heap a.1 = some a.2 := hc.2.1
      by_cases hb : a.2 < v
      · cases fuel with
        | zero => simp at hf
        | succ fuel =>
          have hnx := chainFrom_getNext hc.2.2
          obtain ⟨p, nx, e, hp, hn⟩ := containsWalk_chain (v := v) S fuel a.1 hc.2.2
            (by simpa using hf)
          refine ⟨p, nx, ?_, ?_, ?_⟩
          · simp only [headId, containsWalk, hval, Option.some_bind, hb, if_true, hnx]
            exact e
          · right
            rcases hp with e2 | ⟨b, hb2, e2⟩
            · exact ⟨a, List.mem_cons_self _ _, e2.symm⟩
            · exact ⟨b, List.mem_cons_of_mem _ hb2, e2⟩
          · intro y hy
            obtain ⟨b, hb2, e2⟩ := hn y hy
            exact ⟨b, List.mem_cons_of_mem _ hb2, e2⟩
      · refine ⟨x, some a.1, ?_, Or.inl rfl, ?_⟩
        · cases fuel <;> simp [containsWalk, headId, hval, hb]
        · intro y hy
          exact ⟨a, List.mem_cons_self _ _, by simpa using hy⟩

/-! ## Consequences of the invariant -/

theorem Inv.sub_zero {s : SkipSet} {C : Nat → List (Nat × Int)} (inv : Inv s C) :
    ∀ l, (C l).Sublist (C 0)
  | 0 => List.Sublist.refl _
  | l + 1 => (inv.sub l).trans (Inv.sub_zero inv l)

theorem Inv.sorted_level {s : SkipSet} {C : Nat → List (Nat × Int)} (inv : Inv s C) (l : Nat) :
    (C l).Pairwise (ordered s.desc) :=
  List.Pairwise.sublist (inv.sub_zero l) inv.sorted

theorem chainFrom_getNext_mem {heap : List skipsetNode} {l : Nat} :
    ∀ {x : Nat} {S : List (Nat × Int)}, chainFrom heap l x S →
      ∀ n, (n = x ∨ ∃ a ∈ S, a.1 = n) → ∃ y, getNext heap n l = some y
  | x, [], h, n, hn => by
      rcases hn with e | ⟨a, ha, _⟩
      · subst e
        exact ⟨none, h⟩
      · simp at ha
  | x, b :: S, h, n, hn => by
      rcases hn with e | ⟨a, ha, e⟩
      · subst e
        exact ⟨some b.1, h.1⟩
      · rcases List.mem_cons.1 ha with e2 | e2
        · subst e2
          exact chainFrom_getNext_mem h.2.2 n (Or.inl e.symm)
        · exact chainFrom_getNext_mem h.2.2 n (Or.inr ⟨a, e2, e⟩)

theorem chain_split {heap : List skipsetNode} {desc : Bool} {v : Int} {l node : Nat}
    {T : List (Nat × Int)} (hc : chainFrom heap l 0 T) (hs : T.Pairwise (ordered desc))
    (hnode : node = 0 ∨ ∃ a ∈ T, a.1 = node ∧ before desc a.2 v = true) :
    ∃ Pre S, T = Pre ++ S ∧ lastId 0 Pre = node ∧ (∀ b ∈ Pre, before desc b.2 v = true) ∧
      chainFrom heap l node S := by
  rcases hnode with e | ⟨a, ha, e, hb⟩
  · subst e
    exact ⟨[], T, rfl, rfl, by simp, hc⟩
  · obtain ⟨A, B, hT⟩ := List.append_of_mem ha
    subst hT
    refine ⟨A ++ [a], B, by simp, ?_, ?_, ?_⟩
    · rw [lastId_append]
      simpa [lastId] using e
    · intro b hb2
      rcases List.mem_append.1 hb2 with h1 | h1
      · have hab : before desc b.2 a.2 = true :=
          (List.pairwise_append.1 hs).2.2 b h1 a (List.mem_cons_self _ _)
        exact before_trans hab hb
      · have : b = a := by simpa using h1
        subst this
        exact hb
    · rw [← e]
      exact chainFrom_append_cons hc

theorem lower_append_of_all {desc : Bool} {v : Int} {Pre S : List (Nat × Int)}
    (h : ∀ b ∈ Pre, before desc b.2 v = true) :
    lower desc v (Pre ++ S) = Pre ++ lower desc v S := by
  unfold lower
  rw [List.filter_append]
  congr 1
  rw [List.filter_eq_self]
  exact h

theorem upper_append_of_all {desc : Bool} {v : Int} {Pre S : List (Nat × Int)}
    (h : ∀ b ∈ Pre, before desc b.2 v = true) :
    upper desc v (Pre ++ S) = upper desc v S := by
  unfold upper
  rw [List.filter_append]
  have : List.filter (fun a => !before desc a.2 v) Pre = [] := by
    rw [List.filter_eq_nil_iff]
    intro b hb
    simp [h b hb]
  rw [this]
  rfl

theorem mem_lower {desc : Bool} {v : Int} {S : List (Nat × Int)} {a : Nat × Int} :
    a ∈ lower desc v S ↔ a ∈ S ∧ before desc a.2 v = true := by
  simp [lower]

theorem mem_upper {desc : Bool} {v : Int} {S : List (Nat × Int)} {a : Nat × Int} :
    a ∈ upper desc v S ↔ a ∈ S ∧ before desc a.2 v = false := by
  simp [upper]

theorem headId_nil : headId [] = none := rfl

theorem headId_cons (a : Nat × Int) (S : List (Nat × Int)) : headId (a :: S) = some a.1 := rfl

/-- With enough budget the descent of `Add` returns: either it met `value`, or it
captured at every level the last node before `value` and its successor. -/
theorem addDescend_total {s : SkipSet} {C : Nat → List (Nat × Int)} {v : Int} {fuel : Nat}
    (inv : Inv s C) (hf : (C 0).length ≤ fuel) :
    ∀ (k node shift : Nat) (loc : AddLocals), k ≤ maxLevel → LocLen loc →
      (node = 0 ∨ ∃ a ∈ C k, a.1 = node ∧ before s.desc a.2 v = true) →
      ∃ r, addDescend s.heap s.desc v fuel k node shift loc = some r ∧
        (r = none → ∃ a ∈ C 0, a.2 = v) ∧
        (∀ sh loc2, r = some (sh, loc2) →
          LocLen loc2 ∧ Captured s.desc v C k loc2 ∧
          ∀ l, k ≤ l → loc2.prevNodes[l]? = loc.prevNodes[l]? ∧
            loc2.nextNodes[l]? = loc.nextNodes[l]?)
  | 0, node, shift, loc, _, hlen, _ => by
      refine ⟨some (shift, loc), rfl, by simp, ?_⟩
      intro sh loc2 e
      simp only [Option.some.injEq, Prod.mk.injEq] at e
      obtain ⟨_, e2⟩ := e
      subst e2
      exact ⟨hlen, fun l hl => absurd hl (Nat.not_lt_zero l), fun l _ => ⟨rfl, rfl⟩⟩
  | i + 1, node, shift, loc, hk, hlen, hnode => by
      have hi : i < maxLevel := hk
      have hnode2 : node = 0 ∨ ∃ a ∈ C i, a.1 = node ∧ before s.desc a.2 v = true := by
        rcases hnode with e | ⟨a, ha, e⟩
        · exact Or.inl e
        · exact Or.inr ⟨a, (inv.sub i).subset ha, e⟩
      obtain ⟨Pre, S, hT, hlast, hpre, hc⟩ :=
        chain_split (inv.chain i hi) (inv.sorted_level i) hnode2
      have hsS : S.Pairwise (ordered s.desc) := by
        have := inv.sorted_level i
        rw [hT] at this
        exact (List.pairwise_append.1 this).2.1
      have hlenS : S.length ≤ fuel := by
        have h1 : (C i).length ≤ (C 0).length := (inv.sub_zero i).length_le
        rw [hT, List.length_append] at h1
        omega
      obtain ⟨sh2, hw⟩ := addWalk_chain (v := v) S fuel node shift hc hlenS hsS
      have elow : lastId node (lower s.desc v S) = lastId 0 (lower s.desc v (C i)) := by
        rw [hT, lower_append_of_all hpre, lastId_append, hlast]
      have eup : upper s.desc v S = upper s.desc v (C i) := by
        rw [hT, upper_append_of_all hpre]
      rw [elow, eup] at hw
      have hpmem : lastId 0 (lower s.desc v (C i)) = 0 ∨
          ∃ a ∈ C i, a.1 = lastId 0 (lower s.desc v (C i)) ∧ before s.desc a.2 v = true := by
        rcases lastId_mem 0 (lower s.desc v (C i)) with e | ⟨a, ha, e⟩
        · exact Or.inl e
        · exact Or.inr ⟨a, (mem_lower.1 ha).1, e, (mem_lower.1 ha).2⟩
      obtain ⟨y, hy⟩ := chainFrom_getNext_mem (inv.chain i hi) (lastId 0 (lower s.desc v (C i)))
        (by
          rcases hpmem with e | ⟨a, ha, e, _⟩
          · exact Or.inl e
          · exact Or.inr ⟨a, ha, e⟩)
      obtain ⟨sp, hsp⟩ := getNextSpan_of_getNext hy
      have hlen2 : ∀ (x : Option Nat) (y2 : Option Nat) (a b : List Nat),
          LocLen { prevNodes := loc.prevNodes.set i x, nextNodes := loc.nextNodes.set i y2,
                   prevNodesShift := a, nextNodesShift := b } := by
        intro x y2 a b
        exact ⟨by simp [hlen.1], by simp [hlen.2]⟩
      have key : ∀ (loc2 : AddLocals),
          loc2 = { prevNodes := loc.prevNodes.set i (some (lastId 0 (lower s.desc v (C i)))),
                   nextNodes := loc.nextNodes.set i (headId (upper s.desc v (C i))),
                   prevNodesShift := loc.prevNodesShift.set i sh2,
                   nextNodesShift := loc.nextNodesShift.set i ((sh2 + sp) % u32) } →
          (∀ a, (upper s.desc v (C i)).head? = some a → a.2 ≠ v) →
          ∃ r, addDescend s.heap s.desc v fuel i (lastId 0 (lower s.desc v (C i))) sh2 loc2
              = some r ∧
            (r = none → ∃ a ∈ C 0, a.2 = v) ∧
            (∀ sh loc3, r = some (sh, loc3) →
              LocLen loc3 ∧ Captured s.desc v C (i + 1) loc3 ∧
              ∀ l, i + 1 ≤ l → loc3.prevNodes[l]? = loc.prevNodes[l]? ∧
                loc3.nextNodes[l]? = loc.nextNodes[l]?) := by
        intro loc2 hloc2 hne
        have hl2 : LocLen loc2 := by
          rw [hloc2]
          exact hlen2 _ _ _ _
        obtain ⟨r, hr, hnone, hsome⟩ :=
          addDescend_total inv hf i (lastId 0 (lower s.desc v (C i))) sh2 loc2
            (Nat.le_of_lt hi) hl2 hpmem
        refine ⟨r, hr, hnone, ?_⟩
        intro sh loc3 e
        obtain ⟨l3, c3, f3⟩ := hsome sh loc3 e
        have hip : i < loc.prevNodes.length := by rw [hlen.1]; exact hi
        have hin : i < loc.nextNodes.length := by rw [hlen.2]; exact hi
        refine ⟨l3, ?_, ?_⟩
        · intro l hl
          by_cases c : l < i
          · exact c3 l c
          · have e2 : l = i := by omega
            subst e2
            obtain ⟨fp, fn⟩ := f3 l (Nat.le_refl l)
            refine ⟨?_, ?_, hne⟩
            · rw [fp, hloc2]
              simp [List.getElem?_set, hip]
            · rw [fn, hloc2]
              simp [List.getElem?_set, hin]
        · intro l hl
          obtain ⟨fp, fn⟩ := f3 l (by omega)
          have c : ¬ i = l := by omega
          refine ⟨?_, ?_⟩
          · rw [fp, hloc2]
            simp [List.getElem?_set, c]
          · rw [fn, hloc2]
            simp [List.getElem?_set, c]
      cases hup : upper s.desc v (C i) with
      | nil =>
        obtain ⟨r, hr, hrest⟩ := key _ rfl (by simp [hup])
        refine ⟨r, ?_, hrest⟩
        rw [hup] at hw hr
        rw [addDescend]
        simp only [chainFrom_getNext hc, Option.some_bind, hw, hi, if_true, hsp, headId_nil]
        exact hr
      | cons a U =>
        have hamem : a ∈ upper s.desc v (C i) := by rw [hup]; exact List.mem_cons_self _ _
        have haC : a ∈ C i := (mem_upper.1 hamem).1
        have hval : getValue s.heap a.1 = some a.2 := chainFrom_value (inv.chain i hi) a haC
        by_cases hav : a.2 = v
        · refine ⟨none, ?_, fun _ => ⟨a, (inv.sub_zero i).subset haC, hav⟩, by simp⟩
          rw [hup] at hw
          rw [addDescend]
          simp only [chainFrom_getNext hc, Option.some_bind, hw, hi, if_true, hsp, headId_cons,
            hval, hav]
        · obtain ⟨r, hr, hrest⟩ := key _ rfl (by
            intro b hb
            rw [hup] at hb
            simp only [List.head?_cons, Option.some.injEq] at hb
            subst hb
            exact hav)
          refine ⟨r, ?_, hrest⟩
          rw [hup] at hw hr
          rw [addDescend]
          simp only [chainFrom_getNext hc, Option.some_bind, hw, hi, if_true, hsp, headId_cons,
            hval, hav, if_false]
          exact hr

theorem addDescend_mono {heap : List skipsetNode} {desc : Bool} {v : Int} {fuel fuel2 : Nat}
    (hle : fuel ≤ fuel2) :
    ∀ (k node shift : Nat) (loc : AddLocals) (r : Option (Nat × AddLocals)),
      addDescend heap desc v fuel k node shift loc = some r →
      addDescend heap desc v fuel2 k node shift loc = some r
  | 0, _, _, _, _, h => by simpa [addDescend] using h
  | i + 1, node, shift, loc, r, h => by
      rw [addDescend] at h ⊢
      simp only [Option.bind_eq_some] at h ⊢
      obtain ⟨n0, hn0, w, hw, hrest⟩ := h
      refine ⟨n0, hn0, w, addWalk_mono_le hle hw, ?_⟩
      by_cases hi : i < maxLevel
      · simp only [hi, if_true, Option.bind_eq_some] at hrest ⊢
        obtain ⟨sp, hsp, hm⟩ := hrest
        refine ⟨sp, hsp, ?_⟩
        cases hnx : w.2.1 with
        | none =>
          simp only [hnx] at hm ⊢
          exact addDescend_mono hle i _ _ _ r hm
        | some nx =>
          simp only [hnx, Option.bind_eq_some] at hm ⊢
          obtain ⟨nv, hnv, hif⟩ := hm
          refine ⟨nv, hnv, ?_⟩
          by_cases c : nv = v
          · simpa [c] using hif
          · simp only [c, if_false] at hif ⊢
            exact addDescend_mono hle i _ _ _ r hif
      · simp [hi] at hrest

/-! ## Inserting an entry into an ordered chain -/

theorem ins_sublist {desc : Bool} {n : Nat} {v : Int} {S T : List (Nat × Int)}
    (h : S.Sublist T) : (ins desc n v S).Sublist (ins desc n v T) := by
  unfold ins lower upper
  exact List.Sublist.append (h.filter _) (List.Sublist.cons₂ _ (h.filter _))

theorem sublist_ins {desc : Bool} {n : Nat} {v : Int} {T : List (Nat × Int)}
    (hs : T.Pairwise (ordered desc)) : T.Sublist (ins desc n v T) := by
  have e : lower desc v T ++ upper desc v T = T := lower_append_upper hs
  unfold ins
  conv_lhs => rw [← e]
  exact List.Sublist.append (List.Sublist.refl _) (List.sublist_cons_self _ _)

theorem not_mem_of_head_ne {desc : Bool} {v : Int} {T : List (Nat × Int)}
    (hs : T.Pairwise (ordered desc))
    (hh : ∀ a, (upper desc v T).head? = some a → a.2 ≠ v) : ∀ a ∈ T, a.2 ≠ v := by
  intro a ha hav
  have hau : a ∈ upper desc v T := mem_upper.2 ⟨ha, by rw [hav]; exact before_irrefl _ _⟩
  have hsu : (upper desc v T).Pairwise (ordered desc) :=
    List.Pairwise.sublist (List.filter_sublist _) hs
  cases hup : upper desc v T with
  | nil => rw [hup] at hau; simp at hau
  | cons u U =>
    rw [hup] at hau hsu
    have hu : u ∈ upper desc v T := by rw [hup]; exact List.mem_cons_self _ _
    have hne : u.2 ≠ v := hh u (by simp [hup])
    have hvu : before desc v u.2 = true := before_of_not (mem_upper.1 hu).2 hne
    rcases List.mem_cons.1 hau with e | e
    · subst e
      exact hne hav
    · have hua : before desc u.2 a.2 = true := (List.pairwise_cons.1 hsu).1 a e
      have := before_trans hvu hua
      rw [hav, before_irrefl] at this
      exact Bool.noConfusion this

theorem ins_sorted {desc : Bool} {n : Nat} {v : Int} {T : List (Nat × Int)}
    (hs : T.Pairwise (ordered desc)) (hne : ∀ a ∈ T, a.2 ≠ v) :
    (ins desc n v T).Pairwise (ordered desc) := by
  unfold ins
  rw [List.pairwise_append]
  refine ⟨List.Pairwise.sublist (List.filter_sublist _) hs, ?_, ?_⟩
  · rw [List.pairwise_cons]
    refine ⟨?_, List.Pairwise.sublist (List.filter_sublist _) hs⟩
    intro b hb
    exact before_of_not (mem_upper.1 hb).2 (hne b (mem_upper.1 hb).1)
  · intro a ha b hb
    have hav : before desc a.2 v = true := (mem_lower.1 ha).2
    rcases List.mem_cons.1 hb with e | e
    · subst e
      exact hav
    · exact before_trans hav (before_of_not (mem_upper.1 e).2 (hne b (mem_upper.1 e).1))

theorem mem_ins {desc : Bool} {n : Nat} {v : Int} {T : List (Nat × Int)} {a : Nat × Int} :
    a ∈ ins desc n v T ↔ a = (n, v) ∨ a ∈ T := by
  unfold ins
  rw [List.mem_append, List.mem_cons, mem_lower, mem_upper]
  constructor
  · rintro (h | h | h)
    · exact Or.inr h.1
    · exact Or.inl h
    · exact Or.inr h.1
  · rintro (h | h)
    · exact Or.inr (Or.inl h)
    · cases hb : before desc a.2 v with
      | true => exact Or.inl ⟨h, rfl⟩
      | false => exact Or.inr (Or.inr ⟨h, rfl⟩)

theorem ins_perm {desc : Bool} {n : Nat} {v : Int} (T : List (Nat × Int)) :
    (ins desc n v T).Perm ((n, v) :: T) := by
  unfold ins lower upper
  exact List.perm_middle.trans (List.Perm.cons _ (List.filter_append_perm _ T))

theorem chainFrom_relink {h1 h2 : List skipsetNode} {l x y : Nat} {B : List (Nat × Int)}
    (hc : chainFrom h1 l x B) (hy : getNext h2 y l = some (headId B))
    (hn : ∀ b ∈ B, getNext h2 b.1 l = getNext h1 b.1 l)
    (hv : ∀ b ∈ B, getValue h2 b.1 = getValue h1 b.1) : chainFrom h2 l y B := by
  cases B with
  | nil => exact hy
  | cons b B =>
    refine ⟨hy, ?_, ?_⟩
    · rw [hv b (List.mem_cons_self _ _)]
      exact hc.2.1
    · apply chainFrom_congr _ _ hc.2.2
      · intro n hn2
        rcases hn2 with e | ⟨c, hc2, e⟩
        · subst e
          exact hn b (List.mem_cons_self _ _)
        · subst e
          exact hn c (List.mem_cons_of_mem _ hc2)
      · intro c hc2
        exact hv c (List.mem_cons_of_mem _ hc2)

/-- Linking a new node after the last entry of `A` turns the chain `A ++ B` into
the chain `A ++ (new, v) :: B`. -/
theorem chainFrom_insert {h1 h2 : List skipsetNode} {l new : Nat} {v : Int}
    {B : List (Nat × Int)} :
    ∀ (A : List (Nat × Int)) (x : Nat), chainFrom h1 l x (A ++ B) →
      (∀ n, (n = x ∨ ∃ a ∈ A, a.1 = n) → n ≠ lastId x A → getNext h2 n l = getNext h1 n l) →
      getNext h2 (lastId x A) l = some (some new) → getValue h2 new = some v →
      getNext h2 new l = some (headId B) →
      (∀ b ∈ B, getNext h2 b.1 l = getNext h1 b.1 l) →
      (∀ a ∈ A ++ B, getValue h2 a.1 = getValue h1 a.1) →
      (x :: A.map Prod.fst).Nodup →
      chainFrom h2 l x (A ++ (new, v) :: B)
  | [], x, hc, _, hp, hval, hnew, hB, hv, _ => by
      refine ⟨hp, hval, ?_⟩
      exact chainFrom_relink hc hnew hB (fun b hb => hv b (by simpa using hb))
  | a :: A, x, hc, hfr, hp, hval, hnew, hB, hv, hnd => by
      have hnd2 : (a.1 :: A.map Prod.fst).Nodup := (List.nodup_cons.1 hnd).2
      have hx : x ∉ a.1 :: A.map Prod.fst := (List.nodup_cons.1 hnd).1
      have hlast : lastId a.1 A ∈ a.1 :: A.map Prod.fst := by
        rcases lastId_mem a.1 A with e | ⟨b, hb, e⟩
        · rw [e]
          exact List.mem_cons_self _ _
        · rw [← e]
          exact List.mem_cons_of_mem _ (List.mem_map_of_mem _ hb)
      have hxne : x ≠ lastId x (a :: A) := by
        intro e
        apply hx
        rw [e]
        exact hlast
      refine ⟨?_, ?_, ?_⟩
      · rw [hfr x (Or.inl rfl) hxne]
        exact hc.1
      · rw [hv a (List.mem_cons_self _ _)]
        exact hc.2.1
      · apply chainFrom_insert A a.1 hc.2.2 _ hp hval hnew hB _ hnd2
        · intro n hn hne
          apply hfr n _ hne
          rcases hn with e | ⟨b, hb, e⟩
          · exact Or.inr ⟨a, List.mem_cons_self _ _, e.symm⟩
          · exact Or.inr ⟨b, List.mem_cons_of_mem _ hb, e⟩
        · intro b hb
          exact hv b (List.mem_cons_of_mem _ hb)

/-! ## Allocation of a node at the end of the arena -/

theorem getValue_append (h : List skipsetNode) (nd : skipsetNode) (n : Nat) :
    getValue (h ++ [nd]) n =
      if n < h.length then getValue h n else if n = h.length then some nd.value else none := by
  unfold getValue
  rw [List.getElem?_append]
  by_cases c : n < h.length
  · simp [c]
  · by_cases c2 : n = h.length
    · subst c2
      simp
    · have : n - h.length ≠ 0 := by omega
      have e : ([nd] : List skipsetNode)[n - h.length]? = none := by
        apply List.getElem?_eq_none
        simp
        omega
      simp [c, c2, e]

theorem getNext_append (h : List skipsetNode) (nd : skipsetNode) (n l : Nat) :
    getNext (h ++ [nd]) n l =
      if n < h.length then getNext h n l
      else if n = h.length then (nd.levels[l]?).map (fun lv => lv.next) else none := by
  unfold getNext
  rw [List.getElem?_append]
  by_cases c : n < h.length
  · simp [c]
  · by_cases c2 : n = h.length
    · subst c2
      simp
    · have e : ([nd] : List skipsetNode)[n - h.length]? = none := by
        apply List.getElem?_eq_none
        simp
        omega
      simp [c, c2, e]

theorem getValue_lt {h : List skipsetNode} {n : Nat} {v : Int} (e : getValue h n = some v) :
    n < h.length := by
  unfold getValue at e
  cases hn : h[n]? with
  | none => simp [hn] at e
  | some nd =>
    rcases List.getElem?_eq_some.1 hn with ⟨hlt, _⟩
    exact hlt

theorem Inv.value_of_mem {s : SkipSet} {C : Nat → List (Nat × Int)} (inv : Inv s C) {l : Nat}
    {a : Nat × Int} (ha : a ∈ C l) : getValue s.heap a.1 = some a.2 :=
  chainFrom_value (inv.chain 0 (by decide)) a ((inv.sub_zero l).subset ha)

theorem Inv.ids_nodup {s : SkipSet} {C : Nat → List (Nat × Int)} (inv : Inv s C) (l : Nat) :
    (0 :: (C l).map Prod.fst).Nodup := by
  rw [List.nodup_cons]
  constructor
  · intro h0
    obtain ⟨a, ha, e⟩ := List.mem_map.1 h0
    have := (inv.pos a ((inv.sub_zero l).subset ha)).1
    omega
  · unfold List.Nodup
    rw [List.pairwise_map]
    apply List.Pairwise.imp_of_mem _ (inv.sorted_level l)
    intro a b ha hb hab e
    have va := inv.value_of_mem ha
    have vb := inv.value_of_mem hb
    rw [e, vb] at va
    have e2 : b.2 = a.2 := by simpa using va
    unfold ordered at hab
    rw [e2, before_irrefl] at hab
    exact Bool.noConfusion hab

theorem newNode_level (newLevel : Nat) (v : Int) (l : Nat) :
    (({ newSkipsetNode newLevel with value := v } : skipsetNode).levels[l]?).map
      (fun lv => lv.next) = if l < newLevel then some none else none := by
  simp only [newSkipsetNode, List.getElem?_replicate]
  by_cases c : l < newLevel <;> simp [c]

/-- Splicing a new node holding `v` at the captured places keeps the invariant, with
`v` inserted into the chains of the levels below the height of the new node. -/
theorem inv_insert {s : SkipSet} {C : Nat → List (Nat × Int)} {v : Int} {newLevel shift2 : Nat}
    {loc2 : AddLocals} {hlk h1 h3 : List skipsetNode}
    (inv : Inv s C) (hnl : 1 ≤ newLevel) (hle : newLevel ≤ s.highestLevel)
    (hcap : Captured s.desc v C s.highestLevel loc2) (hne : ∀ a ∈ C 0, a.2 ≠ v)
    (slk : SameLinks s.heap hlk)
    (hsp : splice loc2 hlk.length shift2 newLevel 0
      (hlk ++ [{ newSkipsetNode newLevel with value := v }]) = some h1)
    (s13 : SameLinks h1 h3) :
    Inv { s with heap := h3 }
      (fun l => if l < newLevel then ins s.desc s.heap.length v (C l) else C l) := by
  obtain ⟨len1, val1, nx1⟩ := splice_spec loc2 hlk.length shift2 newLevel 0 _ h1 hsp
  have hnew : hlk.length = s.heap.length := slk.1
  have hpos : 0 < s.heap.length := getValue_lt inv.head_value
  have hlt : ∀ l, ∀ a ∈ C l, a.1 < s.heap.length := fun l a ha =>
    (inv.pos a ((inv.sub_zero l).subset ha)).2
  have FV : ∀ n, getValue h3 n =
      if n < s.heap.length then getValue s.heap n
      else if n = s.heap.length then some v else none := by
    intro n
    rw [s13.2.1, val1, getValue_append, hnew, slk.2.1]
  have F0 : ∀ n l, n < s.heap.length →
      getNext (hlk ++ [{ newSkipsetNode newLevel with value := v }]) n l = getNext s.heap n l := by
    intro n l hn
    rw [getNext_append, hnew, if_pos hn, slk.2.2]
  have FN : ∀ n l, newLevel ≤ l → n < s.heap.length → getNext h3 n l = getNext s.heap n l := by
    intro n l hl hn
    rw [s13.2.2, nx1]
    have c : ¬ (0 ≤ l ∧ l < 0 + newLevel) := by omega
    rw [if_neg c, F0 n l hn]
  have hpredlt : ∀ l, lastId 0 (lower s.desc v (C l)) < s.heap.length := by
    intro l
    rcases lastId_mem 0 (lower s.desc v (C l)) with e | ⟨a, ha, e⟩
    · rw [e]
      exact hpos
    · rw [← e]
      exact hlt l a (mem_lower.1 ha).1
  have FL : ∀ n l, l < newLevel → getNext h3 n l =
      if lastId 0 (lower s.desc v (C l)) = n then some (some s.heap.length)
      else if n = s.heap.length then some (headId (upper s.desc v (C l)))
      else getNext s.heap n l := by
    intro n l hl
    obtain ⟨cp, cn, _⟩ := hcap l (by omega)
    rw [s13.2.2, nx1]
    have c : 0 ≤ l ∧ l < 0 + newLevel := by omega
    rw [if_pos c, cp, cn, hnew]
    by_cases c1 : lastId 0 (lower s.desc v (C l)) = n
    · simp [c1]
    · have c1b : ¬ some (some (lastId 0 (lower s.desc v (C l)))) = some (some n) := by
        simpa using c1
      rw [if_neg c1b, if_neg c1]
      by_cases c2 : n = s.heap.length
      · simp [c2]
      · rw [if_neg c2, if_neg c2]
        by_cases c3 : n < s.heap.length
        · exact F0 n l c3
        · have c4 : s.heap.length < n := by omega
          rw [getNext_append, hnew, if_neg c3, if_neg c2]
          unfold getNext
          rw [List.getElem?_eq_none (Nat.le_of_lt c4)]
          rfl
  refine ⟨inv.head_eq, inv.level_le, ?_, ?_, ?_, ?_, ?_, ?_⟩
  · show getValue h3 0 = some 0
    rw [FV, if_pos hpos]
    exact inv.head_value
  · intro l hl
    show chainFrom h3 l 0 (if l < newLevel then ins s.desc s.heap.length v (C l) else C l)
    by_cases c : l < newLevel
    · rw [if_pos c]
      have hs := inv.sorted_level l
      have hch : chainFrom s.heap l 0 (lower s.desc v (C l) ++ upper s.desc v (C l)) := by
        rw [lower_append_upper hs]
        exact inv.chain l hl
      unfold ins
      apply chainFrom_insert _ 0 hch
      · intro n hn hne2
        have hnlt : n < s.heap.length := by
          rcases hn with e | ⟨a, ha, e⟩
          · rw [e]
            exact hpos
          · rw [← e]
            exact hlt l a (mem_lower.1 ha).1
        rw [FL n l c, if_neg (fun e => hne2 e.symm), if_neg (Nat.ne_of_lt hnlt)]
      · rw [FL _ l c, if_pos rfl]
      · rw [FV, if_neg (Nat.lt_irrefl _), if_pos rfl]
      · rw [FL _ l c, if_neg (Nat.ne_of_lt (hpredlt l)), if_pos rfl]
      · intro b hb
        have hbC := (mem_upper.1 hb).1
        have hbl : b.1 < s.heap.length := hlt l b hbC
        have hbne : ¬ lastId 0 (lower s.desc v (C l)) = b.1 := by
          intro e
          rcases lastId_mem 0 (lower s.desc v (C l)) with e0 | ⟨a, ha, ea⟩
          · have := (inv.pos b ((inv.sub_zero l).subset hbC)).1
            omega
          · have va := inv.value_of_mem (mem_lower.1 ha).1
            have vb := inv.value_of_mem hbC
            rw [ea, e, vb] at va
            have e2 : b.2 = a.2 := by simpa using va
            have h1 := (mem_lower.1 ha).2
            have h2 := (mem_upper.1 hb).2
            rw [e2, h1] at h2
            exact Bool.noConfusion h2
        rw [FL _ l c, if_neg hbne, if_neg (Nat.ne_of_lt hbl)]
      · intro a ha
        have haC : a ∈ C l := by
          rw [lower_append_upper hs] at ha
          exact ha
        rw [FV, if_pos (hlt l a haC)]
      · have hsub : (lower s.desc v (C l)).Sublist (C l) := List.filter_sublist _
        exact List.Nodup.sublist (List.Sublist.cons₂ _ (hsub.map _)) (inv.ids_nodup l)
    · rw [if_neg c]
      apply chainFrom_congr _ _ (inv.chain l hl)
      · intro n hn
        apply FN n l (by omega)
        rcases hn with e | ⟨a, ha, e⟩
        · rw [e]
          exact hpos
        · rw [← e]
          exact hlt l a ha
      · intro a ha
        rw [FV, if_pos (hlt l a ha)]
  · intro l hl
    have c : ¬ l < newLevel := by
      have : s.highestLevel ≤ l := hl
      omega
    show (if l < newLevel then ins s.desc s.heap.length v (C l) else C l) = []
    rw [if_neg c]
    exact inv.top l hl
  · intro l
    show List.Sublist (if l + 1 < newLevel then ins s.desc s.heap.length v (C (l + 1)) else C (l + 1))
      (if l < newLevel then ins s.desc s.heap.length v (C l) else C l)
    by_cases c : l + 1 < newLevel
    · have c2 : l < newLevel := by omega
      rw [if_pos c, if_pos c2]
      exact ins_sublist (inv.sub l)
    · rw [if_neg c]
      by_cases c2 : l < newLevel
      · rw [if_pos c2]
        exact (inv.sub l).trans (sublist_ins (inv.sorted_level l))
      · rw [if_neg c2]
        exact inv.sub l
  · show List.Pairwise (ordered s.desc)
      (if 0 < newLevel then ins s.desc s.heap.length v (C 0) else C 0)
    rw [if_pos (by omega)]
    exact ins_sorted inv.sorted hne
  · intro a ha
    have ha2 : a ∈ (if 0 < newLevel then ins s.desc s.heap.length v (C 0) else C 0) := ha
    rw [if_pos (by omega)] at ha2
    have hlen3 : h3.length = s.heap.length + 1 := by
      rw [s13.1, len1, List.length_append, hnew]
      rfl
    show 0 < a.1 ∧ a.1 < h3.length
    rw [hlen3]
    rcases mem_ins.1 ha2 with e | e
    · subst e
      exact ⟨hpos, Nat.lt_succ_self _⟩
    · have := inv.pos a e
      exact ⟨this.1, Nat.lt_succ_of_lt this.2⟩

theorem Inv.sameLinks {s : SkipSet} {C : Nat → List (Nat × Int)} (inv : Inv s C)
    {h : List skipsetNode} (sl : SameLinks s.heap h) : Inv { s with heap := h } C := by
  refine ⟨inv.head_eq, inv.level_le, ?_, ?_, inv.top, inv.sub, inv.sorted, ?_⟩
  · show getValue h 0 = some 0
    rw [sl.2.1]
    exact inv.head_value
  · intro l hl
    exact chainFrom_sameLinks sl (inv.chain l hl)
  · intro a ha
    show 0 < a.1 ∧ a.1 < h.length
    rw [sl.1]
    exact inv.pos a ha

theorem Inv.promote {s : SkipSet} {C : Nat → List (Nat × Int)} (inv : Inv s C) {h : Nat}
    (hh : h ≤ maxLevel) : Inv (promote s h) C := by
  unfold skipset.promote
  by_cases c : s.highestLevel ≥ h
  · rw [if_pos c]
    exact inv
  · rw [if_neg c]
    refine ⟨inv.head_eq, hh, inv.head_value, inv.chain, ?_, inv.sub, inv.sorted, inv.pos⟩
    intro l hl
    have : h ≤ l := hl
    exact inv.top l (by omega)

theorem promote_level (s : SkipSet) (h : Nat) : h ≤ (promote s h).highestLevel := by
  unfold promote
  by_cases c : s.highestLevel ≥ h
  · rw [if_pos c]
    exact c
  · rw [if_neg c]

theorem promote_fields (s : SkipSet) (h : Nat) :
    (promote s h).heap = s.heap ∧ (promote s h).desc = s.desc ∧
      (promote s h).length = s.length ∧ (promote s h).head = s.head := by
  unfold promote
  by_cases c : s.highestLevel ≥ h
  · rw [if_pos c]
    exact ⟨rfl, rfl, rfl, rfl⟩
  · rw [if_neg c]
    exact ⟨rfl, rfl, rfl, rfl⟩

/-- What the retry loop of `Add` returns on a state satisfying the invariant. -/
theorem addLoop_spec {C : Nat → List (Nat × Int)} {v : Int} {newLevel fuel : Nat}
    (hnl : 1 ≤ newLevel) :
    ∀ (tries : Nat) (s : SkipSet) (loc : AddLocals), Inv s C → newLevel ≤ s.highestLevel →
      LocLen loc → ∀ (b : Bool) (s2 : SkipSet),
      addLoop v newLevel fuel tries s loc = some (b, s2) →
      (b = false ∧ s2 = s ∧ ∃ a ∈ C 0, a.2 = v) ∨
      (b = true ∧ (∀ a ∈ C 0, a.2 ≠ v) ∧
        Inv s2 (fun l => if l < newLevel then ins s.desc s.heap.length v (C l) else C l) ∧
        s2.desc = s.desc ∧ s2.length = s.length ∧ s2.highestLevel = s.highestLevel ∧
        s2.heap.length = s.heap.length + 1)
  | 0, _, _, _, _, _, _, _, h => by simp [addLoop] at h
  | tries + 1, s, loc, inv, hle, hlen, b, s2, h => by
      rw [addLoop] at h
      simp only [Option.bind_eq_some] at h
      obtain ⟨d, hd, hrest⟩ := h
      obtain ⟨r, hr, hnone, hsome⟩ :=
        addDescend_total (v := v) inv (Nat.le_max_right fuel (C 0).length) s.highestLevel 0 0 loc
          inv.level_le hlen (Or.inl rfl)
      rw [inv.head_eq] at hd
      have hd2 := addDescend_mono (Nat.le_max_left fuel (C 0).length) _ _ _ _ _ hd
      rw [hr] at hd2
      have hdr : r = d := by simpa using hd2
      subst hdr
      cases r with
      | none =>
        simp only [Option.some.injEq, Prod.mk.injEq] at hrest
        exact Or.inl ⟨hrest.1.symm, hrest.2.symm, hnone rfl⟩
      | some p =>
        obtain ⟨shift, loc2⟩ := p
        obtain ⟨hlen2, hcap, _⟩ := hsome shift loc2 rfl
        have hne : ∀ a ∈ C 0, a.2 ≠ v :=
          not_mem_of_head_ne inv.sorted (hcap 0 (by omega)).2.2
        simp only [Option.bind_eq_some] at hrest
        obtain ⟨lk, hlk, hbr⟩ := hrest
        have slk := lockPass_sameLinks loc2 newLevel 0 s.heap (-1) lk hlk
        by_cases c : lk.2 = true
        · simp only [c, if_true, Option.bind_eq_some] at hbr
          obtain ⟨hu, hun, hrec⟩ := hbr
          have su := unlockPass_sameLinks loc2 newLevel lk.1 (-1) hu hun
          have sl := slk.trans su
          rcases addLoop_spec hnl tries { s with heap := hu } loc2 (inv.sameLinks sl) hle hlen2
            b s2 hrec with ⟨_, _, a, ha, e⟩ | ⟨hb, _, hinv, h1, h2, h3, h4⟩
          · exact absurd e (hne a ha)
          · right
            refine ⟨hb, hne, ?_, h1, h2, h3, ?_⟩
            · have e : ({ s with heap := hu } : SkipSet).heap.length = s.heap.length := sl.1
              rw [e] at hinv
              exact hinv
            · rw [h4]
              show hu.length + 1 = s.heap.length + 1
              rw [sl.1]
        · simp only [c, Bool.false_eq_true, if_false, Option.bind_eq_some, Option.some.injEq,
            Prod.mk.injEq] at hbr
          obtain ⟨h1, hs1, h2, hs2, h3, hs3, hb, hres⟩ := hbr
          have s13 : SameLinks h1 h3 :=
            (incrAbove_sameLinks loc2 newLevel _ _ h1 h2 hs2).trans
              (unlockPass_sameLinks loc2 newLevel h2 (-1) h3 hs3)
          have hinv := inv_insert inv hnl hle hcap hne slk hs1 s13
          right
          subst hres
          refine ⟨hb.symm, hne, hinv, rfl, rfl, rfl, ?_⟩
          obtain ⟨len1, _, _⟩ := splice_spec loc2 lk.1.length _ newLevel 0 _ h1 hs1
          show h3.length = s.heap.length + 1
          rw [s13.1, len1, List.length_append, slk.1]
          rfl

theorem locLen_init : LocLen AddLocals.init := by
  unfold LocLen AddLocals.init
  simp

/-- What `Add` returns on a state satisfying the invariant, for a height in range. -/
theorem Add_spec {s s2 : SkipSet} {C : Nat → List (Nat × Int)} {v : Int} {fuel : Nat}
    {draws : List Nat} {b : Bool} (inv : Inv s C)
    (hh : ∃ h, drawLevel draws 1 = some h ∧ 1 ≤ h ∧ h ≤ maxLevel)
    (h : Add s fuel draws v = some (b, s2)) :
    s2.desc = s.desc ∧ s2.length = s.length ∧
    ((b = false ∧ s2.heap = s.heap ∧ Inv s2 C ∧ ∃ a ∈ C 0, a.2 = v) ∨
     (b = true ∧ (∀ a ∈ C 0, a.2 ≠ v) ∧
        ∃ C2, Inv s2 C2 ∧ (C2 0).Perm ((s.heap.length, v) :: C 0) ∧
          s2.heap.length = s.heap.length + 1)) := by
  obtain ⟨lvl, hl, h1, h16⟩ := hh
  unfold Add randomLevel at h
  rw [hl] at h
  simp only [Option.map_some', Option.some_bind] at h
  obtain ⟨pf1, pf2, pf3, _⟩ := promote_fields s lvl
  rcases addLoop_spec h1 (fuel + 1) (promote s lvl) AddLocals.init (inv.promote h16)
      (promote_level s lvl) locLen_init b s2 h with
    ⟨hb, hs, hex⟩ | ⟨hb, hne, hinv, e1, e2, _, e4⟩
  · subst hs
    exact ⟨pf2, pf3, Or.inl ⟨hb, pf1, inv.promote h16, hex⟩⟩
  · refine ⟨e1.trans pf2, e2.trans pf3, Or.inr ⟨hb, hne, _, hinv, ?_, ?_⟩⟩
    · show List.Perm (if 0 < lvl then ins _ _ v (C 0) else C 0) _
      rw [if_pos (by omega), pf1]
      exact ins_perm _
    · rw [e4, pf1]

theorem heightOK_iff {draws : List Nat} (h : heightOK draws = true) :
    ∃ h, drawLevel draws 1 = some h ∧ 1 ≤ h ∧ h ≤ maxLevel := by
  unfold heightOK at h
  cases hd : drawLevel draws 1 with
  | none => simp [hd] at h
  | some l =>
    simp only [hd, Bool.and_eq_true, decide_eq_true_eq] at h
    exact ⟨l, rfl, h.1, h.2⟩

/-! ## Reachable states -/

theorem inv_new (desc : Bool) : Inv (NewSkipSet desc) (fun _ => []) := by
  refine ⟨rfl, Nat.zero_le _, rfl, ?_, fun _ _ => rfl, fun _ => List.Sublist.refl _,
    List.Pairwise.nil, ?_⟩
  · intro l hl
    show getNext [newSkipsetNode maxLevel] 0 l = some none
    unfold getNext newSkipsetNode
    simp [List.getElem?_replicate, hl]
  · intro a ha
    simp at ha

/-- Every state produced by a run of `Add` calls satisfies the invariant, and its
level-0 chain holds the values present before together with the values added. -/
theorem addAll_inv {fuel : Nat} :
    ∀ (calls : List (List Nat × Int)) (s : SkipSet) (C : Nat → List (Nat × Int))
      (res : List Bool) (s2 : SkipSet), Inv s C → heightsOK calls →
      addAll fuel s calls = some (res, s2) →
      ∃ C2, Inv s2 C2 ∧ s2.desc = s.desc ∧ s2.length = s.length ∧
        (∀ v, (∃ a ∈ C2 0, a.2 = v) ↔ (∃ a ∈ C 0, a.2 = v) ∨ v ∈ calls.map Prod.snd) ∧
        (C2 0).length ≤ (C 0).length + calls.length
  | [], s, C, res, s2, inv, _, h => by
      simp only [addAll, Option.some.injEq, Prod.mk.injEq] at h
      obtain ⟨_, e⟩ := h
      subst e
      exact ⟨C, inv, rfl, rfl, by simp, by simp⟩
  | c :: cs, s, C, res, s2, inv, hh, h => by
      simp only [addAll, Option.bind_eq_some, Option.map_eq_some'] at h
      obtain ⟨r, hr, rs, hrs, e⟩ := h
      have hc := heightOK_iff (hh c (List.mem_cons_self _ _))
      have hh2 : heightsOK cs := fun c2 h2 => hh c2 (List.mem_cons_of_mem _ h2)
      obtain ⟨b, s1⟩ := r
      obtain ⟨res2, s3⟩ := rs
      simp only [Prod.mk.injEq] at e
      obtain ⟨_, e2⟩ := e
      subst e2
      obtain ⟨d1, l1, hcase⟩ := Add_spec inv hc hr
      rcases hcase with ⟨_, _, inv1, hex⟩ | ⟨_, hne, C1, inv1, hperm, _⟩
      · obtain ⟨C2, inv2, d2, l2, hmem, hlen⟩ := addAll_inv cs s1 C res2 s3 inv1 hh2 hrs
        refine ⟨C2, inv2, d2.trans d1, l2.trans l1, ?_, ?_⟩
        · intro v
          rw [hmem v]
          simp only [List.map_cons, List.mem_cons]
          constructor
          · rintro (h1 | h1)
            · exact Or.inl h1
            · exact Or.inr (Or.inr h1)
          · rintro (h1 | h1 | h1)
            · exact Or.inl h1
            · subst h1
              exact Or.inl hex
            · exact Or.inr h1
        · simp only [List.length_cons]
          omega
      · obtain ⟨C2, inv2, d2, l2, hmem, hlen⟩ := addAll_inv cs s1 C1 res2 s3 inv1 hh2 hrs
        refine ⟨C2, inv2, d2.trans d1, l2.trans l1, ?_, ?_⟩
        · intro v
          rw [hmem v]
          simp only [List.map_cons, List.mem_cons]
          constructor
          · rintro (⟨a, ha, e⟩ | h1)
            · rcases List.mem_cons.1 (hperm.subset ha) with e1 | e1
              · subst e1
                exact Or.inr (Or.inl e.symm)
              · exact Or.inl ⟨a, e1, e⟩
            · exact Or.inr (Or.inr h1)
          · rintro (⟨a, ha, e⟩ | h1 | h1)
            · exact Or.inl ⟨a, hperm.symm.subset (List.mem_cons_of_mem _ ha), e⟩
            · exact Or.inl ⟨(s.heap.length, c.2),
                hperm.symm.subset (List.mem_cons_self _ _), h1.symm⟩
            · exact Or.inr h1
        · have := hperm.length_eq
          simp only [List.length_cons] at this ⊢
          omega

/-- Reachable states from a fresh set. -/
theorem reach_inv {desc : Bool} {fuel : Nat} {calls : List (List Nat × Int)} {res : List Bool}
    {s : SkipSet} (hh : heightsOK calls)
    (h : addAll fuel (NewSkipSet desc) calls = some (res, s)) :
    ∃ C, Inv s C ∧ s.desc = desc ∧ s.length = 0 ∧
      (∀ v, (∃ a ∈ C 0, a.2 = v) ↔ v ∈ calls.map Prod.snd) ∧ (C 0).length ≤ calls.length := by
  obtain ⟨C, inv, d, l, hmem, hlen⟩ := addAll_inv calls _ _ res s (inv_new desc) hh h
  refine ⟨C, inv, d, l, ?_, by simpa using hlen⟩
  intro v
  rw [hmem v]
  simp

/-! ## `TopN` -/

theorem topNLoop_chain {heap : List skipsetNode} :
    ∀ (S : List (Nat × Int)) (n x : Nat), chainFrom heap 0 x S →
      topNLoop heap n (headId S) = some ((S.map Prod.snd).take n)
  | [], n, _, _ => by cases n <;> rfl
  | a :: S, 0, _, _ => rfl
  | a :: S, n + 1, x, hc => by
      have ih := topNLoop_chain S n a.1 hc.2.2
      simp only [headId_cons, topNLoop, hc.2.1, Option.some_bind, chainFrom_getNext hc.2.2, ih,
        Option.map_some', List.map_cons, List.take_succ_cons]

theorem TopN_of_inv {s : SkipSet} {C : Nat → List (Nat × Int)} (inv : Inv s C)
    {room n : Nat} (hr : n ≤ room) (hm : n ≤ makeLimit) :
    TopN s room (n : Int) = some (((C 0).map Prod.snd).take n) := by
  unfold TopN
  have hn : ¬ ((n : Int) < 0 ∨ (min room makeLimit : Nat) < (n : Int).toNat) := by
    rw [Int.toNat_ofNat]
    have := Nat.le_min.2 ⟨hr, hm⟩
    omega
  rw [if_neg hn, inv.head_eq, chainFrom_getNext (inv.chain 0 (by decide))]
  simp only [Option.some_bind, Int.toNat_ofNat]
  exact topNLoop_chain _ n 0 (inv.chain 0 (by decide))

theorem sorted_values_eq {desc : Bool} {L : List (Nat × Int)} {vals : List Int}
    (hs : L.Pairwise (ordered desc)) (hmem : ∀ v, (∃ a ∈ L, a.2 = v) ↔ v ∈ vals)
    (hnd : vals.Nodup) : L.map Prod.snd = sortedValues desc vals := by
  have hp : (L.map Prod.snd).Pairwise (fun a b => before desc a b = true) := by
    rw [List.pairwise_map]
    exact hs
  have hnd2 : (L.map Prod.snd).Nodup := by
    apply List.Pairwise.imp _ hp
    intro a b hab e
    rw [e, before_irrefl] at hab
    exact Bool.noConfusion hab
  have hperm : (L.map Prod.snd).Perm vals := by
    rw [List.perm_ext_iff_of_nodup hnd2 hnd]
    intro v
    rw [← hmem v]
    simp
  unfold sortedValues
  cases desc with
  | false =>
    simp only [Bool.false_eq_true, if_false]
    apply List.eq_of_perm_of_sorted (r := fun a b : Int => a ≤ b)
      (hperm.trans (List.perm_insertionSort _ _).symm)
    · apply List.Pairwise.imp _ hp
      intro a b hab
      simp [before] at hab
      omega
    · exact List.sorted_insertionSort _ _
  | true =>
    simp only [if_true]
    haveI : IsTotal Int (fun a b => b ≤ a) := ⟨fun a b => le_total b a⟩
    haveI : IsTrans Int (fun a b => b ≤ a) := ⟨fun a b c h1 h2 => le_trans h2 h1⟩
    haveI : IsAntisymm Int (fun a b => b ≤ a) := ⟨fun a b h1 h2 => le_antisymm h2 h1⟩
    apply List.eq_of_perm_of_sorted (r := fun a b : Int => b ≤ a)
      (hperm.trans (List.perm_insertionSort _ _).symm)
    · apply List.Pairwise.imp _ hp
      intro a b hab
      simp [before] at hab
      omega
    · exact List.sorted_insertionSort _ _

/-! ## `Contains` -/

theorem chain_suffix {heap : List skipsetNode} {l node : Nat} {T : List (Nat × Int)}
    (hc : chainFrom heap l 0 T) (hnode : node = 0 ∨ ∃ a ∈ T, a.1 = node) :
    ∃ Pre S, T = Pre ++ S ∧ chainFrom heap l node S := by
  rcases hnode with e | ⟨a, ha, e⟩
  · subst e
    exact ⟨[], T, rfl, hc⟩
  · obtain ⟨A, B, hT⟩ := List.append_of_mem ha
    subst hT
    refine ⟨A ++ [a], B, by simp, ?_⟩
    rw [← e]
    exact chainFrom_append_cons hc

/-- With enough budget the descent of `Contains` reports a value held by no node as
absent. -/
theorem containsDescend_false {s : SkipSet} {C : Nat → List (Nat × Int)} {v : Int} {fuel : Nat}
    (inv : Inv s C) (hf : (C 0).length ≤ fuel) (hne : ∀ a ∈ C 0, a.2 ≠ v) :
    ∀ (k node : Nat), k ≤ maxLevel → (node = 0 ∨ ∃ a ∈ C k, a.1 = node) →
      containsDescend s.heap v fuel k node = some false
  | 0, _, _, _ => rfl
  | i + 1, node, hk, hnode => by
      have hi : i < maxLevel := hk
      have hnode2 : node = 0 ∨ ∃ a ∈ C i, a.1 = node := by
        rcases hnode with e | ⟨a, ha, e⟩
        · exact Or.inl e
        · exact Or.inr ⟨a, (inv.sub i).subset ha, e⟩
      obtain ⟨Pre, S, hT, hc⟩ := chain_suffix (inv.chain i hi) hnode2
      have hSsub : ∀ a ∈ S, a ∈ C i := by
        intro a ha
        rw [hT]
        exact List.mem_append_right _ ha
      have hlenS : S.length ≤ fuel := by
        have h1 : (C i).length ≤ (C 0).length := (inv.sub_zero i).length_le
        rw [hT, List.length_append] at h1
        omega
      obtain ⟨p, nx, hw, hp, hnx⟩ := containsWalk_chain (v := v) S fuel node hc hlenS
      have hp2 : p = 0 ∨ ∃ a ∈ C i, a.1 = p := by
        rcases hp with e | ⟨a, ha, e⟩
        · rw [e]
          exact hnode2
        · exact Or.inr ⟨a, hSsub a ha, e⟩
      have ih := containsDescend_false inv hf hne i p (Nat.le_of_lt hi) hp2
      rw [containsDescend]
      simp only [chainFrom_getNext hc, Option.some_bind, hw]
      cases nx with
      | none => exact ih
      | some y =>
        obtain ⟨a, ha, e⟩ := hnx y rfl
        have hval : getValue s.heap y = some a.2 := by
          rw [← e]
          exact inv.value_of_mem (hSsub a ha)
        have hav : ¬ a.2 = v := hne a ((inv.sub_zero i).subset (hSsub a ha))
        simp only [hval, Option.some_bind, hav, if_false]
        exact ih

/-! ## `Add` of a value that is present -/

theorem Add_present {s : SkipSet} {C : Nat → List (Nat × Int)} {v : Int} {fuel : Nat}
    {draws : List Nat} (inv : Inv s C) (hd : heightOK draws = true)
    (hf : (C 0).length ≤ fuel) (hex : ∃ a ∈ C 0, a.2 = v) :
    ∃ s2, Add s fuel draws v = some (false, s2) ∧ s2.heap = s.heap ∧ s2.head = s.head ∧
      s2.length = s.length := by
  obtain ⟨lvl, hl, h1, h16⟩ := heightOK_iff hd
  obtain ⟨pf1, _, pf3, pf4⟩ := promote_fields s lvl
  refine ⟨promote s lvl, ?_, pf1, pf4, pf3⟩
  have invp := inv.promote h16
  obtain ⟨r, hr, _, hsome⟩ :=
    addDescend_total (v := v) invp hf (promote s lvl).highestLevel 0 0 AddLocals.init
      invp.level_le locLen_init (Or.inl rfl)
  have hrn : r = none := by
    cases r with
    | none => rfl
    | some p =>
      obtain ⟨sh, loc2⟩ := p
      obtain ⟨_, hcap, _⟩ := hsome sh loc2 rfl
      have hlv := promote_level s lvl
      have hne := not_mem_of_head_ne invp.sorted (hcap 0 (by omega)).2.2
      obtain ⟨a, ha, e⟩ := hex
      exact absurd e (hne a ha)
  subst hrn
  unfold Add randomLevel
  rw [hl]
  simp only [Option.map_some', Option.some_bind]
  rw [addLoop, invp.head_eq]
  simp only [hr, Option.some_bind]

/-! ## `Index` below the valid range -/

theorem indexWalk_neg {heap : List skipsetNode} {index : Int} {i fuel node : Nat}
    {next : Option Nat} {y : Option Nat} (hi : index ≤ -2) (hy : getNext heap node i = some y) :
    indexWalk heap index i fuel (-1) node next = some (-1, node) := by
  obtain ⟨sp, hsp⟩ := getNextSpan_of_getNext hy
  have hgt : (sp : Int) + -1 > index := by omega
  cases next with
  | none => cases fuel <;> rfl
  | some nx =>
    cases fuel with
    | zero => simp only [indexWalk, hsp, Option.some_bind, if_pos hgt]
    | succ fuel => simp only [indexWalk, hsp, Option.some_bind, if_pos hgt]

theorem indexDescend_neg {heap : List skipsetNode} {index : Int} {fuel : Nat} (hi : index ≤ -2) :
    ∀ (k : Nat), (∀ l, l < k → ∃ y, getNext heap 0 l = some y) →
      indexDescend heap index fuel k (-1) 0 = some 0
  | 0, _ => rfl
  | i + 1, h => by
      obtain ⟨y, hy⟩ := h i (Nat.lt_succ_self i)
      have hne : ¬ ((-1 : Int) = index) := by omega
      rw [indexDescend]
      simp only [hy, Option.some_bind, indexWalk_neg hi hy, hne, if_false]
      exact indexDescend_neg hi i (fun l hl => h l (Nat.lt_succ_of_lt hl))

theorem Index_neg {s : SkipSet} {C : Nat → List (Nat × Int)} (inv : Inv s C) {index : Int}
    (hi : index ≤ -2) (fuel : Nat) : Index s fuel index = some 0 := by
  unfold Index
  rw [inv.head_eq, indexDescend_neg hi]
  · exact inv.head_value
  · intro l hl
    have hl2 : l < maxLevel := Nat.lt_of_lt_of_le hl inv.level_le
    exact ⟨_, chainFrom_getNext (inv.chain l hl2)⟩

/-! ## A larger loop budget never changes a result -/

theorem addLoop_mono {v : Int} {newLevel fuel fuel2 : Nat} (hle : fuel ≤ fuel2) :
    ∀ (tries tries2 : Nat) (s : SkipSet) (loc : AddLocals) (r : Bool × SkipSet),
      tries ≤ tries2 → addLoop v newLevel fuel tries s loc = some r →
      addLoop v newLevel fuel2 tries2 s loc = some r
  | 0, _, _, _, _, _, h => by simp [addLoop] at h
  | tries + 1, 0, _, _, _, ht, _ => by omega
  | tries + 1, tries2 + 1, s, loc, r, ht, h => by
      rw [addLoop] at h ⊢
      simp only [Option.bind_eq_some] at h ⊢
      obtain ⟨d, hd, hrest⟩ := h
      refine ⟨d, addDescend_mono hle _ _ _ _ _ hd, ?_⟩
      cases d with
      | none => exact hrest
      | some p =>
        obtain ⟨shift, loc2⟩ := p
        simp only [Option.bind_eq_some] at hrest ⊢
        obtain ⟨lk, hlk, hbr⟩ := hrest
        refine ⟨lk, hlk, ?_⟩
        by_cases c : lk.2 = true
        · simp only [c, if_true, Option.bind_eq_some] at hbr ⊢
          obtain ⟨hu, hun, hrec⟩ := hbr
          exact ⟨hu, hun, addLoop_mono hle tries tries2 _ loc2 r (by omega) hrec⟩
        · simp only [c, Bool.false_eq_true, if_false] at hbr ⊢
          exact hbr

theorem Add_mono {s : SkipSet} {fuel fuel2 : Nat} {draws : List Nat} {v : Int}
    {r : Bool × SkipSet} (hle : fuel ≤ fuel2) (h : Add s fuel draws v = some r) :
    Add s fuel2 draws v = some r := by
  unfold Add at h ⊢
  simp only [Option.bind_eq_some] at h ⊢
  obtain ⟨p, hp, hl⟩ := h
  exact ⟨p, hp, addLoop_mono hle _ _ _ _ _ (by omega) hl⟩

theorem addAll_mono {fuel fuel2 : Nat} (hle : fuel ≤ fuel2) :
    ∀ (calls : List (List Nat × Int)) (s : SkipSet) (r : List Bool × SkipSet),
      addAll fuel s calls = some r → addAll fuel2 s calls = some r
  | [], _, _, h => h
  | c :: cs, s, r, h => by
      simp only [addAll, Option.bind_eq_some, Option.map_eq_some'] at h ⊢
      obtain ⟨r1, h1, rs, hrs, e⟩ := h
      exact ⟨r1, Add_mono hle h1, rs, addAll_mono hle cs _ _ hrs, e⟩

/-! ## The fifth call of the faulting run, phase by phase -/

/-- In the state reached by `faultCalls` (node 2 holds 4, node 4 holds 3), the descent of
Add(5) with height 4 captures node 2 as predecessor of levels 0..2 and node 4 as
predecessor of level 3, all four with shift 3; the lock pass then holds the mutex of
node 2 only, and `Unlock` on node 4, the first step of the unlock pass, faults. -/
theorem fifth_call_trace :
    (addDescend (promote (stateAfter false 8 faultCalls) 4).heap false 5 8 4 0 0
        AddLocals.init).map (fun d => d.map (fun p =>
          (p.2.prevNodes.take 4, p.2.prevNodesShift.take 4)))
      = some (some ([some 2, some 2, some 2, some 4], [3, 3, 3, 3])) ∧
    (addDescend (promote (stateAfter false 8 faultCalls) 4).heap false 5 8 4 0 0
        AddLocals.init).bind (fun d => d.bind (fun p =>
          (lockPass p.2 4 0 (promote (stateAfter false 8 faultCalls) 4).heap (-1)).map
            (fun lk => (lk.1.map (fun nd => nd.mutex), lk.2, unlock lk.1 4))))
      = some ([false, false, true, false, false], false, none) := by
  refine ⟨by rfl, by rfl⟩

/-! ## Claims -/

/-- C1: `Add` must return true for a value not added before. On an ascending set the
calls Add(1), Add(4), Add(2), Add(3) with heights 1, 3, 1, 4 all return true, and the
next call Add(5) with height 4 does not return for any loop budget: its unlock pass
releases a mutex that the lock pass never acquired. -/
theorem Add_fifth_call_faults :
    addAll 8 (NewSkipSet false) faultCalls
        = some ([true, true, true, true], stateAfter false 8 faultCalls) ∧
      ∀ fuel, Add (stateAfter false 8 faultCalls) fuel (drawsFor 4) 5 = none := by
  refine ⟨by rfl, fun fuel => ?_⟩
  have h8 : Add (stateAfter false 8 faultCalls) 8 (drawsFor 4) 5 = none := by rfl
  by_cases hf : fuel ≤ 8
  · cases hr : Add (stateAfter false 8 faultCalls) fuel (drawsFor 4) 5 with
    | none => rfl
    | some r =>
      have h2 := Add_mono hf hr
      rw [h8] at h2
      exact Option.noConfusion h2
  · have hd := @addDescend_mono (promote (stateAfter false 8 faultCalls) 4).heap
      (promote (stateAfter false 8 faultCalls) 4).desc 5 8 fuel
      (show 8 ≤ fuel by omega) (promote (stateAfter false 8 faultCalls) 4).highestLevel
      (promote (stateAfter false 8 faultCalls) 4).head 0 AddLocals.init
      ((addDescend (promote (stateAfter false 8 faultCalls) 4).heap
        (promote (stateAfter false 8 faultCalls) 4).desc 5 8
        (promote (stateAfter false 8 faultCalls) 4).highestLevel
        (promote (stateAfter false 8 faultCalls) 4).head 0 AddLocals.init).getD none) (by rfl)
    unfold Add randomLevel
    have hl : drawLevel (drawsFor 4) 1 = some 4 := by rfl
    rw [hl]
    simp only [Option.map_some', Option.some_bind]
    rw [addLoop, hd]
    rfl

/-- C2, as stated, fails: after the six calls of the test (distinct values, heights 1,
2, 1, 3, 1, 2, all returning true) `TopN(n)` with `n = 2 ^ 45 + 1` returns nothing,
whatever memory is available: `make([]T, 0, n)` faults on a capacity above `makeLimit`,
while the claim promises the six values for every `n ≥ 0`. -/
theorem TopN_above_makeLimit_counterexample :
    addAll 8 (NewSkipSet false) testCalls
        = some ([true, true, true, true, true, true], stateAfter false 8 testCalls) ∧
      heightsOK testCalls ∧ (testCalls.map Prod.snd).Nodup ∧
      (0 : Int) ≤ 2 ^ 45 + 1 ∧
      (∀ room : Nat, TopN (stateAfter false 8 testCalls) room (2 ^ 45 + 1) = none) ∧
      TopN (stateAfter false 8 testCalls) 5 6 = none := by
  refine ⟨by rfl, by unfold heightsOK; decide, by decide, by decide, fun room => ?_, by rfl⟩
  unfold TopN
  have e : ((2 : Int) ^ 45 + 1).toNat = 2 ^ 45 + 1 := by rfl
  have hlt : (min room makeLimit : Nat) < ((2 : Int) ^ 45 + 1).toNat := by
    rw [e]
    exact Nat.lt_succ_of_le (Nat.min_le_right room makeLimit)
  rw [if_pos (Or.inr hlt)]

/-- C2, amended: after a run of `Add` calls with distinct values and heights in 1..16
that returned, `TopN(n)` is the first `min n m` of the `m` added values in the order of
the flag, without duplicates, for every `n ≥ 0` that `make([]T, 0, n)` can allocate:
`n` is at most `makeLimit` and at most the number `room` of elements the allocator can
grant. -/
theorem TopN_sorted (desc : Bool) (fuel : Nat) (calls : List (List Nat × Int))
    (res : List Bool) (s : SkipSet)
    (hret : addAll fuel (NewSkipSet desc) calls = some (res, s)) (hh : heightsOK calls)
    (hd : (calls.map Prod.snd).Nodup) (room n : Nat) (hr : n ≤ room) (hm : n ≤ makeLimit) :
    TopN s room (n : Int) = some ((sortedValues desc (calls.map Prod.snd)).take n) ∧
      ((sortedValues desc (calls.map Prod.snd)).take n).length = min n calls.length ∧
      ((sortedValues desc (calls.map Prod.snd)).take n).Nodup := by
  obtain ⟨C, inv, hdesc, _, hmem, _⟩ := reach_inv hh hret
  have hs := inv.sorted
  rw [hdesc] at hs
  have e := sorted_values_eq hs hmem hd
  have hperm : (sortedValues desc (calls.map Prod.snd)).Perm (calls.map Prod.snd) := by
    unfold sortedValues
    cases desc
    · exact List.perm_insertionSort _ _
    · exact List.perm_insertionSort _ _
  refine ⟨?_, ?_, ?_⟩
  · rw [TopN_of_inv inv hr hm, e]
  · rw [List.length_take, hperm.length_eq, List.length_map]
  · exact List.Nodup.sublist (List.take_sublist _ _) ((hperm.nodup_iff).2 hd)

theorem TopN_sorted_witness :
    TopN (stateAfter false 8 testCalls) 1024 100 = some [1, 3, 4, 5, 6, 9] ∧
      TopN (stateAfter false 8 testCalls) 1024 3 = some [1, 3, 4] :=
  ⟨(TopN_sorted false 8 testCalls (List.replicate 6 true) (stateAfter false 8 testCalls)
      (by rfl) (by unfold heightsOK; decide) (by decide) 1024 100 (by decide)
      (by unfold makeLimit; decide)).1,
   (TopN_sorted false 8 testCalls (List.replicate 6 true) (stateAfter false 8 testCalls)
      (by rfl) (by unfold heightsOK; decide) (by decide) 1024 3 (by decide)
      (by unfold makeLimit; decide)).1⟩

/-- C3: `Index(i)` must return the i-th smallest value. After Add(10) with height 3
and Add(5) with height 1 on an ascending set the elements are 5, 10, yet `Index(0)`
returns 10: the span loop of `Add` incremented the level-1 span of the head twice and
left its level-2 span at 1. -/
theorem Index_zero_returns_second :
    addAll 4 (NewSkipSet false) rankCalls = some ([true, true], stateAfter false 4 rankCalls) ∧
      TopN (stateAfter false 4 rankCalls) 1024 2 = some [5, 10] ∧
      Index (stateAfter false 4 rankCalls) 4 0 = some 10 ∧
      getNextSpan (stateAfter false 4 rankCalls).heap 0 1 = some 3 ∧
      getNextSpan (stateAfter false 4 rankCalls).heap 0 2 = some 1 := by
  refine ⟨by rfl, by rfl, by rfl, by rfl, by rfl⟩

/-- C4: `Len()` must be the number of values added. After the six calls of the test
returned true, `Len()` is 0: no path of `Add` writes the field `length`. -/
theorem Len_zero_after_six_adds :
    addAll 8 (NewSkipSet false) testCalls
        = some ([true, true, true, true, true, true], stateAfter false 8 testCalls) ∧
      Len (stateAfter false 8 testCalls) = 0 := by
  refine ⟨by rfl, by rfl⟩

/-- C5: `ToSlice()` must return all added values. After the six calls of the test the
level-0 chain holds 1, 3, 4, 5, 6, 9 and `ToSlice()` returns the empty slice, on the
ascending and on the descending set, because it asks `TopN` for `Len()` = 0 values. -/
theorem ToSlice_empty_after_six_adds :
    TopN (stateAfter false 8 testCalls) 1024 6 = some [1, 3, 4, 5, 6, 9] ∧
      (∀ room : Nat, ToSlice (stateAfter false 8 testCalls) room = some []) ∧
      TopN (stateAfter true 8 testCalls) 1024 6 = some [9, 6, 5, 4, 3, 1] ∧
      (∀ room : Nat, ToSlice (stateAfter true 8 testCalls) room = some []) := by
  have h0 : ∀ room : Nat, ¬ ((0 : Int) < 0 ∨ (min room makeLimit : Nat) < (0 : Int).toNat) := by
    intro room h
    rcases h with h | h
    · exact absurd h (by decide)
    · exact Nat.not_lt_zero _ h
  refine ⟨by rfl, fun room => ?_, by rfl, fun room => ?_⟩
  · show (if (0 : Int) < 0 ∨ (min room makeLimit : Nat) < (0 : Int).toNat then none
      else (getNext (stateAfter false 8 testCalls).heap (stateAfter false 8 testCalls).head 0).bind
        (fun next => topNLoop (stateAfter false 8 testCalls).heap (0 : Int).toNat next)) = some []
    rw [if_neg (h0 room)]
    rfl
  · show (if (0 : Int) < 0 ∨ (min room makeLimit : Nat) < (0 : Int).toNat then none
      else (getNext (stateAfter true 8 testCalls).heap (stateAfter true 8 testCalls).head 0).bind
        (fun next => topNLoop (stateAfter true 8 testCalls).heap (0 : Int).toNat next)) = some []
    rw [if_neg (h0 room)]
    rfl

/-- C6: `Contains(v)` must be true for every added value. On a descending set, after
Add(5) and Add(9) returned true the chain is 9, 5 and `Contains(5)` returns false:
the walk of `Contains` compares with `<` whatever the flag. -/
theorem Contains_misses_on_descending :
    addAll 4 (NewSkipSet true) pairCalls = some ([true, true], stateAfter true 4 pairCalls) ∧
      TopN (stateAfter true 4 pairCalls) 1024 2 = some [9, 5] ∧
      Contains (stateAfter true 4 pairCalls) 4 5 = some false := by
  refine ⟨by rfl, by rfl, by rfl⟩

/-- Absent values under heights within bounds: after a run of `Add` calls with heights
in 1..16 that returned, `Contains(v)` returns false for every value that was not added,
for either flag, as soon as the loop budget reaches the number of calls. -/
theorem Contains_absent (desc : Bool) (fuel : Nat) (calls : List (List Nat × Int))
    (res : List Bool) (s : SkipSet)
    (hret : addAll fuel (NewSkipSet desc) calls = some (res, s)) (hh : heightsOK calls)
    (v : Int) (hv : v ∉ calls.map Prod.snd) (fuel2 : Nat) (hf : calls.length ≤ fuel2) :
    Contains s fuel2 v = some false := by
  obtain ⟨C, inv, _, _, hmem, hlen⟩ := reach_inv hh hret
  unfold Contains
  rw [inv.head_eq]
  apply containsDescend_false inv (Nat.le_trans hlen hf) _ _ _ inv.level_le (Or.inl rfl)
  intro a ha e
  exact hv ((hmem v).1 ⟨a, ha, e⟩)

theorem Contains_absent_witness :
    Contains (stateAfter true 8 testCalls) 6 0 = some false ∧
      Contains (NewSkipSet false) 0 7 = some false :=
  ⟨Contains_absent true 8 testCalls (List.replicate 6 true) (stateAfter true 8 testCalls)
      (by rfl) (by unfold heightsOK; decide) 0 (by decide) 6 (by decide),
   Contains_absent false 0 [] [] (NewSkipSet false) (by rfl) (by unfold heightsOK; decide) 7
      (by decide) 0 (by decide)⟩

/-- C7: `Contains(v)` must return false for a value that was never added. On a fresh
set of either flag, an `Add` whose `randomLevel` draws height 17 (see C13) ends in the
index fault of its first search step for every value and loop budget, having stored 17
in `highestLevel`; on the set it leaves, `Contains(v)` starts at level 16 of the head,
which has the levels 0..15, and faults as well for every `v`, added or not. -/
theorem Contains_faults_after_tall_draw (desc : Bool) :
    (∀ (fuel : Nat) (v : Int), Add (NewSkipSet desc) fuel longDraws v = none) ∧
      afterDraw (NewSkipSet desc) longDraws = some (promote (NewSkipSet desc) 17) ∧
      (promote (NewSkipSet desc) 17).highestLevel = 17 ∧
      (promote (NewSkipSet desc) 17).heap = (NewSkipSet desc).heap ∧
      getNext (promote (NewSkipSet desc) 17).heap (promote (NewSkipSet desc) 17).head 16 = none ∧
      ∀ (fuel : Nat) (v : Int), Contains (promote (NewSkipSet desc) 17) fuel v = none := by
  have hl : drawLevel longDraws 1 = some 17 := by rfl
  refine ⟨fun fuel v => ?_, by cases desc <;> rfl, by cases desc <;> rfl, by cases desc <;> rfl,
    by cases desc <;> rfl, fun fuel v => ?_⟩
  · unfold Add randomLevel
    rw [hl]
    simp only [Option.map_some', Option.some_bind]
    rw [addLoop]
    have hd : addDescend (promote (NewSkipSet desc) 17).heap (promote (NewSkipSet desc) 17).desc
        v fuel (promote (NewSkipSet desc) 17).highestLevel (promote (NewSkipSet desc) 17).head 0
        AddLocals.init = none := by
      show addDescend (promote (NewSkipSet desc) 17).heap (promote (NewSkipSet desc) 17).desc
        v fuel (16 + 1) 0 0 AddLocals.init = none
      rw [addDescend]
      cases desc <;> rfl
    rw [hd]
    rfl
  · unfold Contains
    show containsDescend (promote (NewSkipSet desc) 17).heap v fuel (16 + 1) 0 = none
    rw [containsDescend]
    cases desc <;> rfl

/-- Re-adding under a height within bounds: after a run of `Add` calls with heights in
1..16 that returned, adding a value that was added before, with a height in 1..16 and a
loop budget of at least the number of calls, returns false and leaves `Len()`, the whole
arena (every node's value, forward links, spans) and every `TopN` unchanged. -/
theorem Add_present_unchanged (desc : Bool) (fuel : Nat) (calls : List (List Nat × Int))
    (res : List Bool) (s : SkipSet)
    (hret : addAll fuel (NewSkipSet desc) calls = some (res, s)) (hh : heightsOK calls)
    (v : Int) (hv : v ∈ calls.map Prod.snd) (draws : List Nat) (hd : heightOK draws = true)
    (fuel2 : Nat) (hf : calls.length ≤ fuel2) :
    ∃ s2, Add s fuel2 draws v = some (false, s2) ∧ Len s2 = Len s ∧ s2.heap = s.heap ∧
      ∀ room n, TopN s2 room n = TopN s room n := by
  obtain ⟨C, inv, _, _, hmem, hlen⟩ := reach_inv hh hret
  obtain ⟨s2, hadd, hheap, hhead, hlength⟩ :=
    Add_present inv hd (Nat.le_trans hlen hf) ((hmem v).2 hv)
  refine ⟨s2, hadd, hlength, hheap, fun room n => ?_⟩
  unfold TopN
  rw [hheap, hhead]

theorem Add_present_unchanged_witness :
    ∃ s2, Add (stateAfter false 8 testCalls) 6 (drawsFor 4) 5 = some (false, s2) ∧
      Len s2 = Len (stateAfter false 8 testCalls) ∧
      s2.heap = (stateAfter false 8 testCalls).heap ∧
      ∀ room n, TopN s2 room n = TopN (stateAfter false 8 testCalls) room n :=
  Add_present_unchanged false 8 testCalls (List.replicate 6 true) (stateAfter false 8 testCalls)
    (by rfl) (by unfold heightsOK; decide) 5 (by decide) (drawsFor 4) (by decide) 6 (by decide)

/-- C8: adding a value that is already in the set must return false. After the six
calls of the test the set holds 5 (`Contains(5)` is true), and `Add(5)` with a
`randomLevel` that draws height 17 (see C13) does not return false: for every loop
budget it ends in the index fault of its first search step, at level 16 of the head,
before the value is compared with anything. -/
theorem Add_present_faults_on_tall_draw :
    addAll 8 (NewSkipSet false) testCalls
        = some ([true, true, true, true, true, true], stateAfter false 8 testCalls) ∧
      Contains (stateAfter false 8 testCalls) 6 5 = some true ∧
      drawLevel longDraws 1 = some 17 ∧
      getNext (stateAfter false 8 testCalls).heap (stateAfter false 8 testCalls).head 16 = none ∧
      ∀ fuel : Nat, Add (stateAfter false 8 testCalls) fuel longDraws 5 = none := by
  have hl : drawLevel longDraws 1 = some 17 := by rfl
  refine ⟨by rfl, by rfl, hl, by rfl, fun fuel => ?_⟩
  unfold Add randomLevel
  rw [hl]
  simp only [Option.map_some', Option.some_bind]
  rw [addLoop]
  have hd : addDescend (promote (stateAfter false 8 testCalls) 17).heap
      (promote (stateAfter false 8 testCalls) 17).desc 5 fuel
      (promote (stateAfter false 8 testCalls) 17).highestLevel
      (promote (stateAfter false 8 testCalls) 17).head 0 AddLocals.init = none := by
    show addDescend (promote (stateAfter false 8 testCalls) 17).heap
      (promote (stateAfter false 8 testCalls) 17).desc 5 fuel (16 + 1) 0 0 AddLocals.init = none
    rw [addDescend]
    rfl
  rw [hd]
  rfl

/-- C9: `Remove(v)` must return true exactly when `v` was in the set, and then remove
it. On a fresh set `Remove(7)` returns true although `Contains(7)` is false, and after
Add(5), Add(9) on an ascending set `Remove(9)` returns true and `Contains(9)` is still
true: the body of `Remove` is `return true`. -/
theorem Remove_always_true :
    Contains (NewSkipSet false) 4 7 = some false ∧
      (Remove (NewSkipSet false) 7).1 = true ∧
      Contains (stateAfter false 4 pairCalls) 4 9 = some true ∧
      (Remove (stateAfter false 4 pairCalls) 9).1 = true ∧
      Contains (Remove (stateAfter false 4 pairCalls) 9).2 4 9 = some true := by
  refine ⟨by rfl, by rfl, by rfl, by rfl, by rfl⟩

/-! ## A run that wraps the span counter -/

theorem linkNodes_length (k : Nat) : (linkNodes k).length = k := by
  simp [linkNodes]

theorem shape_get_tail (hd : skipsetNode) (k i : Nat) (tail : List skipsetNode) :
    (hd :: (linkNodes k ++ tail))[k + 1 + i]? = tail[i]? := by
  have e : k + 1 + i = (k + i) + 1 := by omega
  rw [e, List.getElem?_cons_succ, List.getElem?_append_right (by rw [linkNodes_length]; omega),
    linkNodes_length]
  congr 1
  omega

theorem shape_set_tail (hd : skipsetNode) (k i : Nat) (tail : List skipsetNode) (a : skipsetNode) :
    (hd :: (linkNodes k ++ tail)).set (k + 1 + i) a = hd :: (linkNodes k ++ tail.set i a) := by
  have e : k + 1 + i = (k + i) + 1 := by omega
  rw [e, List.set_cons_succ, List.set_append_right _ _ (by rw [linkNodes_length]; omega),
    linkNodes_length]
  congr 3
  omega

theorem shape_get_link (hd : skipsetNode) (k j : Nat) (tail : List skipsetNode) (h : j < k) :
    (hd :: (linkNodes k ++ tail))[j + 1]? = some (linkNode (j + 1)) := by
  rw [List.getElem?_cons_succ, List.getElem?_append_left (by rw [linkNodes_length]; exact h)]
  simp [linkNodes, h]

theorem shape_getValue_tail (hd : skipsetNode) (k i : Nat) (tail : List skipsetNode) :
    getValue (hd :: (linkNodes k ++ tail)) (k + 1 + i) = getValue tail i := by
  unfold getValue
  rw [shape_get_tail]

theorem shape_getNext_tail (hd : skipsetNode) (k i l : Nat) (tail : List skipsetNode) :
    getNext (hd :: (linkNodes k ++ tail)) (k + 1 + i) l = getNext tail i l := by
  unfold getNext
  rw [shape_get_tail]

theorem shape_getNextSpan_tail (hd : skipsetNode) (k i l : Nat) (tail : List skipsetNode) :
    getNextSpan (hd :: (linkNodes k ++ tail)) (k + 1 + i) l = getNextSpan tail i l := by
  unfold getNextSpan
  rw [shape_get_tail]

theorem shape_getValue_link (hd : skipsetNode) (k j : Nat) (tail : List skipsetNode) (h : j < k) :
    getValue (hd :: (linkNodes k ++ tail)) (j + 1) = some ((j + 1 : Nat) : Int) := by
  unfold getValue
  rw [shape_get_link hd k j tail h]
  rfl

theorem shape_getNext_link (hd : skipsetNode) (k j : Nat) (tail : List skipsetNode) (h : j < k) :
    getNext (hd :: (linkNodes k ++ tail)) (j + 1) 0 = some (some (j + 1 + 1)) := by
  unfold getNext
  rw [shape_get_link hd k j tail h]
  rfl

theorem shape_getNextSpan_link (hd : skipsetNode) (k j : Nat) (tail : List skipsetNode)
    (h : j < k) : getNextSpan (hd :: (linkNodes k ++ tail)) (j + 1) 0 = some 1 := by
  unfold getNextSpan
  rw [shape_get_link hd k j tail h]
  rfl

theorem shape_updLevel_tail (hd : skipsetNode) (k i l : Nat) (tail : List skipsetNode)
    (f : levelNode → levelNode) :
    updLevel (hd :: (linkNodes k ++ tail)) (k + 1 + i) l f
      = (updLevel tail i l f).map (fun t => hd :: (linkNodes k ++ t)) := by
  unfold updLevel
  rw [shape_get_tail]
  cases tail[i]? with
  | none => rfl
  | some nd =>
    simp only [Option.some_bind, Option.map_map]
    cases nd.levels[l]? with
    | none => rfl
    | some lv => simp only [Option.map_some', Function.comp, shape_set_tail]

theorem shape_lock_tail (hd : skipsetNode) (k i : Nat) (tail : List skipsetNode) :
    lock (hd :: (linkNodes k ++ tail)) (k + 1 + i)
      = (lock tail i).map (fun t => hd :: (linkNodes k ++ t)) := by
  unfold lock
  rw [shape_get_tail]
  cases tail[i]? with
  | none => rfl
  | some nd =>
    simp only [Option.some_bind]
    cases nd.mutex <;> simp [shape_set_tail]

theorem shape_unlock_tail (hd : skipsetNode) (k i : Nat) (tail : List skipsetNode) :
    unlock (hd :: (linkNodes k ++ tail)) (k + 1 + i)
      = (unlock tail i).map (fun t => hd :: (linkNodes k ++ t)) := by
  unfold unlock
  rw [shape_get_tail]
  cases tail[i]? with
  | none => rfl
  | some nd =>
    simp only [Option.some_bind]
    cases nd.mutex <;> simp [shape_set_tail]

theorem shape_getNext_low {hd : skipsetNode} (k j : Nat) (tail : List skipsetNode)
    (hhd : hd.levels[0]? = some { next := some 1, span := 1 }) (h : j ≤ k) :
    getNext (hd :: (linkNodes k ++ tail)) j 0 = some (some (j + 1)) ∧
      getNextSpan (hd :: (linkNodes k ++ tail)) j 0 = some 1 := by
  cases j with
  | zero =>
    unfold getNext getNextSpan
    simp only [List.getElem?_cons_zero, Option.some_bind, hhd, Option.map_some', and_self]
  | succ j => exact ⟨shape_getNext_link hd k j tail h, shape_getNextSpan_link hd k j tail h⟩

/-- The walk of `Add` at level 0 over the linked nodes: from node `j` to node `k`, the
last one before the tail, adding the `k - j` spans met. -/
theorem shape_addWalk {hd : skipsetNode} (k : Nat) (tail : List skipsetNode) (v : Int)
    (hhd : hd.levels[0]? = some { next := some 1, span := 1 }) (hv : ((k : Nat) : Int) < v) :
    ∀ (d j fuel shift : Nat), j + d = k → d ≤ fuel → shift < u32 →
      addWalk (hd :: (linkNodes k ++ tail)) false v 0 fuel j (some (j + 1)) shift
        = addWalk (hd :: (linkNodes k ++ tail)) false v 0 (fuel - d) k (some (k + 1))
            ((shift + d) % u32)
  | 0, j, fuel, shift, e, _, hs => by
      have : j = k := by omega
      subst this
      rw [Nat.sub_zero]
      show _ = addWalk _ false v 0 fuel j (some (j + 1)) (shift % u32)
      rw [Nat.mod_eq_of_lt hs]
  | d + 1, j, fuel, shift, e, hf, hs => by
      obtain ⟨f, rfl⟩ : ∃ f, fuel = f + 1 := ⟨fuel - 1, by omega⟩
      have hj : j < k := by omega
      have hb : before false (((j + 1 : Nat) : Int)) v = true := by
        have : ((j + 1 : Nat) : Int) < v := by omega
        unfold before
        rw [decide_eq_true this]
        rfl
      rw [addWalk]
      simp only [shape_getValue_link hd k j tail hj, Option.some_bind, hb, if_true,
        (shape_getNext_low k j tail hhd (Nat.le_of_lt hj)).2, shape_getNext_link hd k j tail hj]
      rw [shape_addWalk k tail v hhd hv d (j + 1) f ((shift + 1) % u32) (by omega) (by omega)
        (Nat.mod_lt _ (by decide))]
      have e1 : f + 1 - (d + 1) = f - d := by omega
      have e2 : ((shift + 1) % u32 + d) % u32 = (shift + (d + 1)) % u32 := by
        unfold u32
        omega
      rw [e1, e2]

/-- The level-0 walk of `Add` for a value above all the `k + 1` held: it runs from the
head to the last node and adds up `k + 1` spans. -/
theorem asc_addWalk {hd : skipsetNode} (k : Nat) (rest : List skipsetNode) (v : Int)
    (hhd : hd.levels[0]? = some { next := some 1, span := 1 }) (hv : ((k + 1 : Nat) : Int) < v)
    (fuel : Nat) (hf : k + 1 ≤ fuel) :
    addWalk (hd :: (linkNodes k ++ lastNode (k + 1) :: rest)) false v 0 fuel 0 (some 1) 0
      = some (k + 1, none, (k + 1) % u32) := by
  have hv2 : ((k : Nat) : Int) < v := by omega
  have h := shape_addWalk k (lastNode (k + 1) :: rest) v hhd hv2 k 0 fuel 0 (by omega) (by omega)
    (by decide)
  rw [Nat.zero_add] at h
  rw [h]
  obtain ⟨f, hf2⟩ : ∃ f, fuel - k = f + 1 := ⟨fuel - k - 1, by omega⟩
  have hb : before false (((k + 1 : Nat) : Int)) v = true := by
    unfold before
    rw [decide_eq_true hv]
    rfl
  have hval : getValue (hd :: (linkNodes k ++ lastNode (k + 1) :: rest)) (k + 1)
      = some ((k + 1 : Nat) : Int) :=
    (shape_getValue_tail hd k 0 _).trans (by simp [getValue, lastNode])
  have hnx : getNext (hd :: (linkNodes k ++ lastNode (k + 1) :: rest)) (k + 1) 0 = some none :=
    (shape_getNext_tail hd k 0 0 _).trans (by simp [getNext, lastNode])
  rw [hf2, addWalk]
  simp only [hval, Option.some_bind, hb, if_true,
    (shape_getNext_low k k (lastNode (k + 1) :: rest) hhd (Nat.le_refl k)).2, hnx]
  rw [addWalk]
  have e : (0 + k) % u32 = k % u32 := by rw [Nat.zero_add]
  have e2 : ((0 + k) % u32 + 1) % u32 = (k + 1) % u32 := by
    unfold u32
    omega
  rw [e2]

theorem asc_addDescend {hd : skipsetNode} (k : Nat) (v : Int)
    (hhd : hd.levels[0]? = some { next := some 1, span := 1 }) (hv : ((k + 1 : Nat) : Int) < v)
    (fuel : Nat) (hf : k + 1 ≤ fuel) (loc : AddLocals) :
    addDescend (hd :: (linkNodes k ++ [lastNode (k + 1)])) false v fuel 1 0 0 loc
      = some (some ((k + 1) % u32, ascLocals loc k)) := by
  have hw := asc_addWalk k [] v hhd hv fuel hf
  have h0 : getNext (hd :: (linkNodes k ++ [lastNode (k + 1)])) 0 0 = some (some 1) :=
    (shape_getNext_low k 0 [lastNode (k + 1)] hhd (Nat.zero_le k)).1
  have hsp : getNextSpan (hd :: (linkNodes k ++ [lastNode (k + 1)])) (k + 1) 0 = some 0 :=
    (shape_getNextSpan_tail hd k 0 0 _).trans rfl
  rw [addDescend]
  simp only [h0, Option.some_bind, hw]
  rw [if_pos (by decide), hsp]
  rfl

theorem shape_lock_at (hd : skipsetNode) (k : Nat) (tail : List skipsetNode) :
    lock (hd :: (linkNodes k ++ tail)) (k + 1)
      = (lock tail 0).map (fun t => hd :: (linkNodes k ++ t)) := shape_lock_tail hd k 0 tail

theorem asc_lockPass (k : Nat) :
    lockPass (ascLocals AddLocals.init k) 1 0 (ascHeap k) (-1)
      = some (ascHead :: (linkNodes k ++ [{ lastNode (k + 1) with mutex := true }]), false) := by
  rw [lockPass]
  have e1 : (ascLocals AddLocals.init k).prevNodes[0]? = some (some (k + 1)) := rfl
  have e2 : (ascLocals AddLocals.init k).nextNodes[0]? = some none := rfl
  have e3 : (ascLocals AddLocals.init k).prevNodesShift[0]? = some ((k + 1) % u32) := rfl
  simp only [e1, e2, e3, Option.some_bind]
  have hne : (-1 : Int) ≠ (((k + 1) % u32 : Nat) : Int) := by omega
  rw [if_pos hne]
  unfold ascHeap
  rw [shape_lock_at]
  have e4 : lock [lastNode (k + 1)] 0 = some [{ lastNode (k + 1) with mutex := true }] := rfl
  rw [e4]
  simp only [Option.map_some', Option.some_bind]
  have e5 := shape_getNext_tail ascHead k 0 0 [{ lastNode (k + 1) with mutex := true }]
  rw [Nat.add_zero] at e5
  rw [e5]
  rfl

theorem shape_updLevel_at (hd : skipsetNode) (k : Nat) (tail : List skipsetNode) (l : Nat)
    (f : levelNode → levelNode) :
    updLevel (hd :: (linkNodes k ++ tail)) (k + 1) l f
      = (updLevel tail 0 l f).map (fun t => hd :: (linkNodes k ++ t)) :=
  shape_updLevel_tail hd k 0 l tail f

theorem shape_updLevel_next (hd : skipsetNode) (k : Nat) (tail : List skipsetNode) (l : Nat)
    (f : levelNode → levelNode) :
    updLevel (hd :: (linkNodes k ++ tail)) (k + 2) l f
      = (updLevel tail 1 l f).map (fun t => hd :: (linkNodes k ++ t)) :=
  shape_updLevel_tail hd k 1 l tail f

theorem shape_unlock_at (hd : skipsetNode) (k : Nat) (tail : List skipsetNode) :
    unlock (hd :: (linkNodes k ++ tail)) (k + 1)
      = (unlock tail 0).map (fun t => hd :: (linkNodes k ++ t)) := shape_unlock_tail hd k 0 tail

theorem asc_splice (k : Nat) (v : Int) :
    splice (ascLocals AddLocals.init k) (k + 2) (((k + 1) % u32 + 1) % u32) 1 0
        (ascHead :: (linkNodes k ++
          [{ lastNode (k + 1) with mutex := true }, { newSkipsetNode 1 with value := v }]))
      = some (ascHead :: (linkNodes k ++
          [{ linkNode (k + 1) with mutex := true },
           { value := v, levels := [{ next := none, span := 0 }], mutex := false }])) := by
  have a1 : (((k + 1) % u32 + 0) % u32 + 1 + u32 - ((k + 1) % u32 + 1) % u32) % u32 = 0 := by
    unfold u32
    omega
  have a2 : (((k + 1) % u32 + 1) % u32 + u32 - (k + 1) % u32) % u32 = 1 := by
    unfold u32
    omega
  rw [splice]
  have e1 : (ascLocals AddLocals.init k).prevNodes[0]? = some (some (k + 1)) := rfl
  have e2 : (ascLocals AddLocals.init k).nextNodes[0]? = some none := rfl
  have e3 : (ascLocals AddLocals.init k).prevNodesShift[0]? = some ((k + 1) % u32) := rfl
  have e4 : (ascLocals AddLocals.init k).nextNodesShift[0]? = some (((k + 1) % u32 + 0) % u32) := rfl
  simp only [e1, e2, e3, e4, Option.some_bind]
  rw [a1, a2]
  have h1 : setNext (ascHead :: (linkNodes k ++
          [{ lastNode (k + 1) with mutex := true }, { newSkipsetNode 1 with value := v }]))
        (k + 2) 0 none
      = some (ascHead :: (linkNodes k ++
          [{ lastNode (k + 1) with mutex := true }, { newSkipsetNode 1 with value := v }])) := by
    unfold setNext
    rw [shape_updLevel_next]
    rfl
  have h2 : setNextStep (ascHead :: (linkNodes k ++
          [{ lastNode (k + 1) with mutex := true }, { newSkipsetNode 1 with value := v }]))
        (k + 2) 0 0
      = some (ascHead :: (linkNodes k ++
          [{ lastNode (k + 1) with mutex := true }, { newSkipsetNode 1 with value := v }])) := by
    unfold setNextStep
    rw [shape_updLevel_next]
    rfl
  have h3 : setNextStep (ascHead :: (linkNodes k ++
          [{ lastNode (k + 1) with mutex := true }, { newSkipsetNode 1 with value := v }]))
        (k + 1) 0 1
      = some (ascHead :: (linkNodes k ++
          [{ value := ((k + 1 : Nat) : Int), levels := [{ next := none, span := 1 }],
             mutex := true }, { newSkipsetNode 1 with value := v }])) := by
    unfold setNextStep
    rw [shape_updLevel_at]
    rfl
  have h4 : setNext (ascHead :: (linkNodes k ++
          [{ value := ((k + 1 : Nat) : Int), levels := [{ next := none, span := 1 }],
             mutex := true }, { newSkipsetNode 1 with value := v }]))
        (k + 1) 0 (some (k + 2))
      = some (ascHead :: (linkNodes k ++
          [{ linkNode (k + 1) with mutex := true },
           { value := v, levels := [{ next := none, span := 0 }], mutex := false }])) := by
    unfold setNext
    rw [shape_updLevel_at]
    rfl
  rw [h1]
  simp only [Option.some_bind]
  rw [h2]
  simp only [Option.some_bind]
  rw [h3]
  simp only [Option.some_bind]
  rw [h4]
  simp only [Option.some_bind]
  rw [splice]

theorem asc_unlockPass (k : Nat) (v : Int) :
    unlockPass (ascLocals AddLocals.init k) 1
        (ascHead :: (linkNodes k ++
          [{ linkNode (k + 1) with mutex := true },
           { value := v, levels := [{ next := none, span := 0 }], mutex := false }])) (-1)
      = some (ascHead :: (linkNodes k ++
          [linkNode (k + 1),
           { value := v, levels := [{ next := none, span := 0 }], mutex := false }])) := by
  rw [unlockPass]
  have e1 : (ascLocals AddLocals.init k).prevNodes[0]? = some (some (k + 1)) := rfl
  have e3 : (ascLocals AddLocals.init k).prevNodesShift[0]? = some ((k + 1) % u32) := rfl
  simp only [e1, e3, Option.some_bind]
  have hne : (-1 : Int) ≠ (((k + 1) % u32 : Nat) : Int) := by omega
  rw [if_pos hne, shape_unlock_at]
  rfl

theorem linkNodes_succ (k : Nat) : linkNodes (k + 1) = linkNodes k ++ [linkNode (k + 1)] := by
  unfold linkNodes
  rw [List.range_succ, List.map_append]
  rfl

/-- Adding `k + 2` with height 1 to the set holding 1, ..., k + 1 appends one node. -/
theorem asc_Add (k fuel : Nat) (hf : k + 1 ≤ fuel) :
    Add (ascState k) fuel (drawsFor 1) ((k + 2 : Nat) : Int) = some (true, ascState (k + 1)) := by
  have hl : drawLevel (drawsFor 1) 1 = some 1 := by rfl
  have hp : promote (ascState k) 1 = ascState k := rfl
  have hv : ((k + 1 : Nat) : Int) < ((k + 2 : Nat) : Int) := by omega
  unfold Add randomLevel
  rw [hl]
  simp only [Option.map_some', Option.some_bind]
  rw [hp, addLoop]
  have hd : addDescend (ascState k).heap (ascState k).desc ((k + 2 : Nat) : Int) fuel
      (ascState k).highestLevel (ascState k).head 0 AddLocals.init
      = some (some ((k + 1) % u32, ascLocals AddLocals.init k)) :=
    @asc_addDescend ascHead k _ rfl hv fuel hf AddLocals.init
  have hlk : lockPass (ascLocals AddLocals.init k) 1 0 (ascState k).heap (-1)
      = some (ascHead :: (linkNodes k ++ [{ lastNode (k + 1) with mutex := true }]), false) :=
    asc_lockPass k
  simp only [hd, Option.some_bind, hlk]
  have hlen : (ascHead :: (linkNodes k ++ [{ lastNode (k + 1) with mutex := true }])).length
      = k + 2 := by
    simp [linkNodes_length]
  have happ : (ascHead :: (linkNodes k ++ [{ lastNode (k + 1) with mutex := true }]))
        ++ [{ newSkipsetNode 1 with value := ((k + 2 : Nat) : Int) }]
      = ascHead :: (linkNodes k ++
          [{ lastNode (k + 1) with mutex := true },
           { newSkipsetNode 1 with value := ((k + 2 : Nat) : Int) }]) := by
    simp
  simp only [Bool.false_eq_true, if_false, hlen, happ, asc_splice, Option.some_bind]
  have hin : incrAbove (ascLocals AddLocals.init k) 1 ((ascState k).highestLevel - 1) 1
      (ascHead :: (linkNodes k ++
          [{ linkNode (k + 1) with mutex := true },
           { value := ((k + 2 : Nat) : Int), levels := [{ next := none, span := 0 }],
             mutex := false }]))
      = some (ascHead :: (linkNodes k ++
          [{ linkNode (k + 1) with mutex := true },
           { value := ((k + 2 : Nat) : Int), levels := [{ next := none, span := 0 }],
             mutex := false }])) := rfl
  rw [hin]
  simp only [Option.some_bind, asc_unlockPass]
  have hfin : ascHead :: (linkNodes k ++
          [linkNode (k + 1),
           { value := ((k + 2 : Nat) : Int), levels := [{ next := none, span := 0 }],
             mutex := false }]) = ascHeap (k + 1) := by
    unfold ascHeap
    rw [linkNodes_succ, List.append_assoc]
    rfl
  rw [hfin]
  rfl

theorem addAll_append (fuel : Nat) :
    ∀ (cs ds : List (List Nat × Int)) (s : SkipSet),
      addAll fuel s (cs ++ ds)
        = (addAll fuel s cs).bind (fun r =>
            (addAll fuel r.2 ds).map (fun r2 => (r.1 ++ r2.1, r2.2)))
  | [], ds, s => by
      have e : ∀ x : Option (List Bool × SkipSet),
          x = x.map (fun r2 => (([] : List Bool) ++ r2.1, r2.2)) := by
        intro x
        cases x <;> rfl
      exact e _
  | c :: cs, ds, s => by
      have e1 : ∀ l, addAll fuel s (c :: l)
          = (Add s fuel c.1 c.2).bind (fun r =>
              (addAll fuel r.2 l).map (fun rs => (r.1 :: rs.1, rs.2))) := fun _ => rfl
      rw [List.cons_append, e1, e1]
      cases hA : Add s fuel c.1 c.2 with
      | none => rfl
      | some r =>
        simp only [Option.some_bind]
        rw [addAll_append fuel cs ds r.2]
        cases addAll fuel r.2 cs with
        | none => rfl
        | some r1 =>
          simp only [Option.some_bind, Option.map_some']
          cases addAll fuel r1.2 ds with
          | none => rfl
          | some r2 => rfl

theorem ascCalls_succ (k : Nat) :
    ascCalls (k + 1) = ascCalls k ++ [(drawsFor 1, ((k + 1 : Nat) : Int))] := by
  unfold ascCalls
  rw [List.range_succ, List.map_append]
  rfl

/-- The calls adding 1, ..., k + 1 with height 1 all return true and build the chain
of `k + 1` linked nodes, for every loop budget of at least `k + 1`. -/
theorem asc_run (fuel : Nat) :
    ∀ k, k + 1 ≤ fuel →
      addAll fuel (NewSkipSet false) (ascCalls (k + 1))
        = some (List.replicate (k + 1) true, ascState k)
  | 0, _ => addAll_mono (Nat.zero_le fuel) (ascCalls 1) (NewSkipSet false) _ (by rfl)
  | k + 1, hf => by
      rw [ascCalls_succ (k + 1), addAll_append, asc_run fuel k (by omega)]
      simp only [Option.some_bind]
      have e : addAll fuel (ascState k) [(drawsFor 1, ((k + 1 + 1 : Nat) : Int))]
          = some ([true], ascState (k + 1)) := by
        have e1 : addAll fuel (ascState k) [(drawsFor 1, ((k + 1 + 1 : Nat) : Int))]
            = (Add (ascState k) fuel (drawsFor 1) ((k + 2 : Nat) : Int)).bind (fun r =>
                (addAll fuel r.2 []).map (fun rs => (r.1 :: rs.1, rs.2))) := rfl
        rw [e1, asc_Add k fuel (by omega)]
        rfl
      rw [e]
      simp only [Option.map_some']
      rw [List.replicate_succ' (k + 1)]

theorem wrap_addDescend (k : Nat) (v : Int) (hv : ((k + 1 : Nat) : Int) < v)
    (fuel : Nat) (hf : k + 1 ≤ fuel) :
    addDescend (ascHeap k) false v fuel 2 0 0 AddLocals.init
      = some (some ((k + 1) % u32, wrapLocals k)) := by
  have h1 : getNext (ascHeap k) 0 1 = some none := by
    simp [getNext, ascHeap, ascHead]
  have h2 : getNextSpan (ascHeap k) 0 1 = some 0 := by
    simp [getNextSpan, ascHeap, ascHead]
  have hw : addWalk (ascHeap k) false v 1 fuel 0 none 0 = some (0, none, 0) := by
    cases fuel <;> rfl
  rw [addDescend]
  simp only [h1, Option.some_bind, hw]
  rw [if_pos (by decide), h2]
  simp only [Option.some_bind]
  exact @asc_addDescend ascHead k v rfl hv fuel hf _

theorem head_lock (hd : skipsetNode) (rest : List skipsetNode) (h : hd.mutex = false) :
    lock (hd :: rest) 0 = some ({ hd with mutex := true } :: rest) := by
  simp [lock, h]

theorem head_unlock (hd : skipsetNode) (rest : List skipsetNode) (h : hd.mutex = true) :
    unlock (hd :: rest) 0 = some ({ hd with mutex := false } :: rest) := by
  simp [unlock, h]

theorem head_updLevel (hd : skipsetNode) (rest : List skipsetNode) (l : Nat)
    (f : levelNode → levelNode) :
    updLevel (hd :: rest) 0 l f
      = (hd.levels[l]?).map (fun lv => { hd with levels := hd.levels.set l (f lv) } :: rest) := by
  simp [updLevel]

theorem wrap_lockPass (k : Nat) (hk : k + 2 = u32) :
    lockPass (wrapLocals k) 2 0 (ascHeap k) (-1)
      = some ({ ascHead with mutex := true } ::
          (linkNodes k ++ [{ lastNode (k + 1) with mutex := true }]), false) := by
  rw [lockPass]
  have e1 : (wrapLocals k).prevNodes[0]? = some (some (k + 1)) := rfl
  have e2 : (wrapLocals k).nextNodes[0]? = some none := rfl
  have e3 : (wrapLocals k).prevNodesShift[0]? = some ((k + 1) % u32) := rfl
  simp only [e1, e2, e3, Option.some_bind]
  have hne : (-1 : Int) ≠ (((k + 1) % u32 : Nat) : Int) := by omega
  rw [if_pos hne]
  unfold ascHeap
  rw [shape_lock_at]
  have e4 : lock [lastNode (k + 1)] 0 = some [{ lastNode (k + 1) with mutex := true }] := rfl
  rw [e4]
  simp only [Option.map_some', Option.some_bind]
  have e5 := shape_getNext_tail ascHead k 0 0 [{ lastNode (k + 1) with mutex := true }]
  rw [Nat.add_zero] at e5
  rw [e5]
  have e6 : getNext [{ lastNode (k + 1) with mutex := true }] 0 0 = some none := rfl
  rw [e6]
  simp only [Option.some_bind, ne_eq, not_true_eq_false, if_false]
  rw [lockPass]
  have f1 : (wrapLocals k).prevNodes[0 + 1]? = some (some 0) := rfl
  have f2 : (wrapLocals k).nextNodes[0 + 1]? = some none := rfl
  have f3 : (wrapLocals k).prevNodesShift[0 + 1]? = some 0 := rfl
  simp only [f1, f2, f3, Option.some_bind]
  have hne2 : (((k + 1) % u32 : Nat) : Int) ≠ ((0 : Nat) : Int) := by
    have : (k + 1) % u32 = u32 - 1 := by
      unfold u32 at hk ⊢
      omega
    rw [this]
    unfold u32
    decide
  rw [if_pos hne2, head_lock _ _ rfl]
  simp only [Option.some_bind]
  have e7 : getNext ({ ascHead with mutex := true } ::
      (linkNodes k ++ [{ lastNode (k + 1) with mutex := true }])) 0 1 = some none := by
    simp [getNext, ascHead]
  rw [e7]
  simp only [ne_eq, not_true_eq_false, if_false]
  rfl

theorem wrap_splice (k : Nat) (hk : k + 2 = u32) :
    splice (wrapLocals k) (k + 2) (((k + 1) % u32 + 1) % u32) 2 0
        ({ ascHead with mutex := true } :: (linkNodes k ++
          [{ lastNode (k + 1) with mutex := true },
           { newSkipsetNode 2 with value := ((k + 2 : Nat) : Int) }]))
      = some ({ wrapHead k with mutex := true } :: (linkNodes k ++
          [{ linkNode (k + 1) with mutex := true }, wrapNode k])) := by
  have a1 : (((k + 1) % u32 + 0) % u32 + 1 + u32 - ((k + 1) % u32 + 1) % u32) % u32 = 0 := by
    unfold u32
    omega
  have a2 : (((k + 1) % u32 + 1) % u32 + u32 - (k + 1) % u32) % u32 = 1 := by
    unfold u32
    omega
  have a3 : ((0 + 0) % u32 + 1 + u32 - ((k + 1) % u32 + 1) % u32) % u32 = 1 := by
    unfold u32 at hk ⊢
    omega
  have a4 : (((k + 1) % u32 + 1) % u32 + u32 - 0) % u32 = 0 := by
    unfold u32 at hk ⊢
    omega
  rw [splice]
  have e1 : (wrapLocals k).prevNodes[0]? = some (some (k + 1)) := rfl
  have e2 : (wrapLocals k).nextNodes[0]? = some none := rfl
  have e3 : (wrapLocals k).prevNodesShift[0]? = some ((k + 1) % u32) := rfl
  have e4 : (wrapLocals k).nextNodesShift[0]? = some (((k + 1) % u32 + 0) % u32) := rfl
  simp only [e1, e2, e3, e4, Option.some_bind]
  rw [a1, a2]
  have h1 : setNext ({ ascHead with mutex := true } :: (linkNodes k ++
          [{ lastNode (k + 1) with mutex := true },
           { newSkipsetNode 2 with value := ((k + 2 : Nat) : Int) }]))
        (k + 2) 0 none
      = some ({ ascHead with mutex := true } :: (linkNodes k ++
          [{ lastNode (k + 1) with mutex := true },
           { newSkipsetNode 2 with value := ((k + 2 : Nat) : Int) }])) := by
    unfold setNext
    rw [shape_updLevel_next]
    rfl
  have h2 : setNextStep ({ ascHead with mutex := true } :: (linkNodes k ++
          [{ lastNode (k + 1) with mutex := true },
           { newSkipsetNode 2 with value := ((k + 2 : Nat) : Int) }]))
        (k + 2) 0 0
      = some ({ ascHead with mutex := true } :: (linkNodes k ++
          [{ lastNode (k + 1) with mutex := true },
           { newSkipsetNode 2 with value := ((k + 2 : Nat) : Int) }])) := by
    unfold setNextStep
    rw [shape_updLevel_next]
    rfl
  have h3 : setNextStep ({ ascHead with mutex := true } :: (linkNodes k ++
          [{ lastNode (k + 1) with mutex := true },
           { newSkipsetNode 2 with value := ((k + 2 : Nat) : Int) }]))
        (k + 1) 0 1
      = some ({ ascHead with mutex := true } :: (linkNodes k ++
          [{ value := ((k + 1 : Nat) : Int), levels := [{ next := none, span := 1 }],
             mutex := true }, { newSkipsetNode 2 with value := ((k + 2 : Nat) : Int) }])) := by
    unfold setNextStep
    rw [shape_updLevel_at]
    rfl
  have h4 : setNext ({ ascHead with mutex := true } :: (linkNodes k ++
          [{ value := ((k + 1 : Nat) : Int), levels := [{ next := none, span := 1 }],
             mutex := true }, { newSkipsetNode 2 with value := ((k + 2 : Nat) : Int) }]))
        (k + 1) 0 (some (k + 2))
      = some ({ ascHead with mutex := true } :: (linkNodes k ++
          [{ linkNode (k + 1) with mutex := true },
           { newSkipsetNode 2 with value := ((k + 2 : Nat) : Int) }])) := by
    unfold setNext
    rw [shape_updLevel_at]
    rfl
  rw [h1, Option.some_bind, h2, Option.some_bind, h3, Option.some_bind, h4, Option.some_bind,
    splice]
  have f1 : (wrapLocals k).prevNodes[0 + 1]? = some (some 0) := rfl
  have f2 : (wrapLocals k).nextNodes[0 + 1]? = some none := rfl
  have f3 : (wrapLocals k).prevNodesShift[0 + 1]? = some 0 := rfl
  have f4 : (wrapLocals k).nextNodesShift[0 + 1]? = some ((0 + 0) % u32) := rfl
  rw [f1, Option.some_bind, f2, Option.some_bind, f3, Option.some_bind, f4, Option.some_bind,
    Option.some_bind, a3, a4]
  have g1 : setNext ({ ascHead with mutex := true } :: (linkNodes k ++
          [{ linkNode (k + 1) with mutex := true },
           { newSkipsetNode 2 with value := ((k + 2 : Nat) : Int) }]))
        (k + 2) (0 + 1) none
      = some ({ ascHead with mutex := true } :: (linkNodes k ++
          [{ linkNode (k + 1) with mutex := true },
           { newSkipsetNode 2 with value := ((k + 2 : Nat) : Int) }])) := by
    unfold setNext
    rw [shape_updLevel_next]
    rfl
  have g2 : setNextStep ({ ascHead with mutex := true } :: (linkNodes k ++
          [{ linkNode (k + 1) with mutex := true },
           { newSkipsetNode 2 with value := ((k + 2 : Nat) : Int) }]))
        (k + 2) (0 + 1) 1
      = some ({ ascHead with mutex := true } :: (linkNodes k ++
          [{ linkNode (k + 1) with mutex := true }, wrapNode k])) := by
    unfold setNextStep
    rw [shape_updLevel_next]
    rfl
  have g3 : setNextStep ({ ascHead with mutex := true } :: (linkNodes k ++
          [{ linkNode (k + 1) with mutex := true }, wrapNode k])) 0 (0 + 1) 0
      = some ({ ascHead with mutex := true } :: (linkNodes k ++
          [{ linkNode (k + 1) with mutex := true }, wrapNode k])) := by
    unfold setNextStep
    rw [head_updLevel]
    rfl
  have g4 : setNext ({ ascHead with mutex := true } :: (linkNodes k ++
          [{ linkNode (k + 1) with mutex := true }, wrapNode k])) 0 (0 + 1) (some (k + 2))
      = some ({ wrapHead k with mutex := true } :: (linkNodes k ++
          [{ linkNode (k + 1) with mutex := true }, wrapNode k])) := by
    unfold setNext
    rw [head_updLevel]
    rfl
  rw [g1, Option.some_bind, g2, Option.some_bind, g3, Option.some_bind, g4, Option.some_bind,
    splice]

theorem wrap_unlockPass (k : Nat) (hk : k + 2 = u32) :
    unlockPass (wrapLocals k) 2
        ({ wrapHead k with mutex := true } :: (linkNodes k ++
          [{ linkNode (k + 1) with mutex := true }, wrapNode k])) (-1)
      = some (wrapHeap k) := by
  rw [unlockPass]
  have f1 : (wrapLocals k).prevNodes[1]? = some (some 0) := rfl
  have f3 : (wrapLocals k).prevNodesShift[1]? = some 0 := rfl
  simp only [f1, f3, Option.some_bind]
  have hne : (-1 : Int) ≠ ((0 : Nat) : Int) := by decide
  rw [if_pos hne, head_unlock _ _ rfl]
  simp only [Option.some_bind]
  rw [unlockPass]
  have e1 : (wrapLocals k).prevNodes[0]? = some (some (k + 1)) := rfl
  have e3 : (wrapLocals k).prevNodesShift[0]? = some ((k + 1) % u32) := rfl
  simp only [e1, e3, Option.some_bind]
  have hne2 : ((0 : Nat) : Int) ≠ (((k + 1) % u32 : Nat) : Int) := by
    have : (k + 1) % u32 = u32 - 1 := by
      unfold u32 at hk ⊢
      omega
    rw [this]
    unfold u32
    decide
  rw [if_pos hne2, shape_unlock_at]
  rfl

/-- Adding `k + 2 = 2 ^ 32` with height 2 to the chain holding 1, ..., k + 1: the
search adds up `2 ^ 32 - 1` spans, `shift += 1` wraps to 0, and the head gets the stored
span `shift - prevNodesShift[1] = 0` at level 1. -/
theorem wrap_Add (k fuel : Nat) (hk : k + 2 = u32) (hf : k + 1 ≤ fuel) :
    Add (ascState k) fuel (drawsFor 2) ((k + 2 : Nat) : Int)
      = some (true, { heap := wrapHeap k, head := 0, length := 0, highestLevel := 2,
                      desc := false }) := by
  have hl : drawLevel (drawsFor 2) 1 = some 2 := by rfl
  have hp : promote (ascState k) 2
      = { heap := ascHeap k, head := 0, length := 0, highestLevel := 2, desc := false } := rfl
  have hv : ((k + 1 : Nat) : Int) < ((k + 2 : Nat) : Int) := by omega
  unfold Add randomLevel
  rw [hl]
  simp only [Option.map_some', Option.some_bind]
  rw [hp, addLoop]
  simp only [wrap_addDescend k _ hv fuel hf, Option.some_bind, wrap_lockPass k hk]
  have hlen : ({ ascHead with mutex := true } ::
      (linkNodes k ++ [{ lastNode (k + 1) with mutex := true }])).length = k + 2 := by
    simp [linkNodes_length]
  have happ : ({ ascHead with mutex := true } ::
        (linkNodes k ++ [{ lastNode (k + 1) with mutex := true }]))
        ++ [{ newSkipsetNode 2 with value := ((k + 2 : Nat) : Int) }]
      = { ascHead with mutex := true } :: (linkNodes k ++
          [{ lastNode (k + 1) with mutex := true },
           { newSkipsetNode 2 with value := ((k + 2 : Nat) : Int) }]) := by
    simp
  simp only [Bool.false_eq_true, if_false, hlen, happ, wrap_splice k hk, Option.some_bind]
  have hin : ∀ h : List skipsetNode, incrAbove (wrapLocals k) 2 (2 - 2) 2 h = some h :=
    fun _ => rfl
  rw [hin]
  simp only [Option.some_bind, wrap_unlockPass k hk]

theorem wrap_Index (k fuel : Nat) :
    Index { heap := wrapHeap k, head := 0, length := 0, highestLevel := 2, desc := false }
      (fuel + 1) (-1) = some ((k + 2 : Nat) : Int) := by
  have h1 : getNext (wrapHeap k) 0 1 = some (some (k + 2)) := by
    simp [getNext, wrapHeap, wrapHead]
  have h2 : getNextSpan (wrapHeap k) 0 1 = some 0 := by
    simp [getNextSpan, wrapHeap, wrapHead]
  have h3 : getNext (wrapHeap k) (k + 2) 1 = some none :=
    (shape_getNext_tail (wrapHead k) k 1 1 _).trans rfl
  have h4 : getValue (wrapHeap k) (k + 2) = some ((k + 2 : Nat) : Int) :=
    (shape_getValue_tail (wrapHead k) k 1 _).trans rfl
  unfold Index
  show (indexDescend (wrapHeap k) (-1) (fuel + 1) 2 (-1) 0).bind _ = _
  rw [indexDescend]
  simp only [h1, Option.some_bind]
  rw [indexWalk]
  simp only [h2, Option.some_bind, h3]
  have hn : ¬ (((0 : Nat) : Int) + -1 > -1) := by decide
  rw [if_neg hn]
  have hw : indexWalk (wrapHeap k) (-1) 1 fuel (-1 + ((0 : Nat) : Int)) (k + 2) none
      = some (-1, k + 2) := by
    cases fuel <;> rfl
  rw [hw]
  simp only [Option.some_bind, if_true, h4]

theorem indexWalk_stay {heap : List skipsetNode} {i fuel node : Nat} {next : Option Nat}
    {sp : Nat} (hsp : getNextSpan heap node i = some sp) (h : next = none ∨ sp ≠ 0) :
    indexWalk heap (-1) i fuel (-1) node next = some (-1, node) := by
  cases next with
  | none => cases fuel <;> rfl
  | some nx =>
    have hgt : (sp : Int) + -1 > -1 := by
      rcases h with h | h
      · cases h
      · omega
    cases fuel with
    | zero => simp only [indexWalk, hsp, Option.some_bind, if_pos hgt]
    | succ fuel => simp only [indexWalk, hsp, Option.some_bind, if_pos hgt]

/-- Rank -1: `Index(-1)` returns the value of the head when the head has no successor at
the tallest level in use, or a stored span other than 0 there. -/
theorem Index_minus_one {s : SkipSet} {C : Nat → List (Nat × Int)} (inv : Inv s C)
    (h : getNext s.heap s.head (s.highestLevel - 1) = some none ∨
      getNextSpan s.heap s.head (s.highestLevel - 1) ≠ some 0) (fuel : Nat) :
    Index s fuel (-1) = some 0 := by
  unfold Index
  rw [inv.head_eq] at h ⊢
  cases hk : s.highestLevel with
  | zero =>
    rw [indexDescend]
    exact inv.head_value
  | succ k =>
    rw [hk] at h
    have hk2 : k < maxLevel := by
      have := inv.level_le
      omega
    have hy := chainFrom_getNext (inv.chain k hk2)
    obtain ⟨sp, hsp⟩ := getNextSpan_of_getNext hy
    rw [Nat.add_sub_cancel] at h
    have hc : headId (C k) = none ∨ sp ≠ 0 := by
      rcases h with h | h
      · rw [hy] at h
        left
        simpa using h
      · right
        intro e
        rw [hsp, e] at h
        exact h rfl
    rw [indexDescend]
    simp only [hy, Option.some_bind, indexWalk_stay hsp hc, if_true]
    exact inv.head_value

theorem wrap_head_link (k : Nat) :
    getNext (wrapHeap k) 0 1 = some (some (k + 2)) ∧ getNextSpan (wrapHeap k) 0 1 = some 0 := by
  constructor
  · simp [getNext, wrapHeap, wrapHead]
  · simp [getNextSpan, wrapHeap, wrapHead]

/-! ## Rank -1: the span sums stay between 1 and 16 times the number of calls -/

theorem landF_lt (ht : Nat → Nat) (sp : Nat → Nat → Nat) :
    ∀ (rev : List Nat) (g : Nat), landF ht sp rev g < u32
  | [], g => Nat.mod_lt _ (by decide)
  | b :: rest, g => by
      rw [landF]
      by_cases c : g ≤ ht b
      · rw [if_pos c]
        exact Nat.mod_lt _ (by decide)
      · rw [if_neg c]
        exact landF_lt ht sp rest g

theorem landF_eq (ht : Nat → Nat) (sp : Nat → Nat → Nat) :
    ∀ (rev : List Nat) (g : Nat),
      landF ht sp rev g = (posF ht sp rev g + sp (lastF ht rev g) (g - 1)) % u32
  | [], g => by
      rw [landF, posF, lastF, Nat.zero_add]
  | b :: rest, g => by
      rw [landF, posF, lastF]
      by_cases c : g ≤ ht b
      · rw [if_pos c, if_pos c, if_pos c]
      · rw [if_neg c, if_neg c, if_neg c]
        exact landF_eq ht sp rest g

theorem lastF_cases (ht : Nat → Nat) :
    ∀ (rev : List Nat) (g : Nat),
      (lastF ht rev g = 0 ∧ ∀ c ∈ rev, ht c < g) ∨
        (lastF ht rev g ∈ rev ∧ g ≤ ht (lastF ht rev g))
  | [], g => Or.inl ⟨rfl, by simp⟩
  | b :: rest, g => by
      rw [lastF]
      by_cases c : g ≤ ht b
      · rw [if_pos c]
        exact Or.inr ⟨List.mem_cons_self _ _, c⟩
      · rw [if_neg c]
        rcases lastF_cases ht rest g with ⟨e, hall⟩ | ⟨hm, hg⟩
        · left
          refine ⟨e, ?_⟩
          intro x hx
          rcases List.mem_cons.1 hx with e2 | e2
          · subst e2
            omega
          · exact hall x e2
        · exact Or.inr ⟨List.mem_cons_of_mem _ hm, hg⟩

theorem lastF_append_skip (ht : Nat → Nat) (g : Nat) :
    ∀ (pre rest : List Nat), (∀ c ∈ pre, ht c < g) →
      lastF ht (pre ++ rest) g = lastF ht rest g
  | [], rest, _ => rfl
  | b :: pre, rest, h => by
      have hb : ¬ g ≤ ht b := by
        have := h b (List.mem_cons_self _ _)
        omega
      rw [List.cons_append, lastF, if_neg hb]
      exact lastF_append_skip ht g pre rest (fun c hc => h c (List.mem_cons_of_mem _ hc))

theorem posF_append_skip (ht : Nat → Nat) (sp : Nat → Nat → Nat) (g : Nat) :
    ∀ (pre rest : List Nat), (∀ c ∈ pre, ht c < g) →
      posF ht sp (pre ++ rest) g = posF ht sp rest g
  | [], rest, _ => rfl
  | b :: pre, rest, h => by
      have hb : ¬ g ≤ ht b := by
        have := h b (List.mem_cons_self _ _)
        omega
      rw [List.cons_append, posF, if_neg hb]
      exact posF_append_skip ht sp g pre rest (fun c hc => h c (List.mem_cons_of_mem _ hc))

theorem landF_append_skip (ht : Nat → Nat) (sp : Nat → Nat → Nat) (g : Nat) :
    ∀ (pre rest : List Nat), (∀ c ∈ pre, ht c < g) →
      landF ht sp (pre ++ rest) g = landF ht sp rest g
  | [], rest, _ => rfl
  | b :: pre, rest, h => by
      have hb : ¬ g ≤ ht b := by
        have := h b (List.mem_cons_self _ _)
        omega
      rw [List.cons_append, landF, if_neg hb]
      exact landF_append_skip ht sp g pre rest (fun c hc => h c (List.mem_cons_of_mem _ hc))

theorem lastF_mem_pre (ht : Nat → Nat) (g : Nat) :
    ∀ (pre rest : List Nat), (∃ c ∈ pre, g ≤ ht c) → lastF ht (pre ++ rest) g ∈ pre
  | [], _, h => by
      obtain ⟨c, hc, _⟩ := h
      simp at hc
  | b :: pre, rest, h => by
      rw [List.cons_append, lastF]
      by_cases c : g ≤ ht b
      · rw [if_pos c]
        exact List.mem_cons_self _ _
      · rw [if_neg c]
        apply List.mem_cons_of_mem
        apply lastF_mem_pre ht g pre rest
        obtain ⟨x, hx, hg⟩ := h
        rcases List.mem_cons.1 hx with e | e
        · subst e
          exact absurd hg c
        · exact ⟨x, e, hg⟩

theorem SpanRel.lower {ht : Nat → Nat} {sp sq : Nat → Nat → Nat} {n h M shift2 : Nat}
    {rlo : List Nat} (R : SpanRel ht sp sq n h M shift2 rlo) :
    ∀ (rest pre : List Nat), rlo = pre ++ rest → ∀ g, 1 ≤ g →
      (h < g ∨ ∃ c ∈ pre, g ≤ ht c) →
      ∃ D, landF ht sq rest g = (landF ht sp rest g + D) % u32 ∧ (h + 1 < g → D = 0) ∧
        ((∃ c ∈ pre, g ≤ ht c) → D ≤ M) ∧ D ≤ M + 1
  | [], pre, e, g, hg, hc => by
      rw [List.append_nil] at e
      have hun : ¬ (g - 1 < h ∧ 0 = lastF ht rlo (g - 1 + 1)) := by
        rintro ⟨h1, h2⟩
        rcases hc with hc | ⟨c, hcm, hcg⟩
        · omega
        · have e1 : g - 1 + 1 = g := by omega
          rw [e1] at h2
          rcases lastF_cases ht rlo g with ⟨_, hall⟩ | ⟨hm, _⟩
          · have := hall c (by rw [e]; exact hcm)
            omega
          · rw [← h2] at hm
            exact R.zero hm
      have hn0 : (0 : Nat) ≠ n := fun e2 => R.new0 e2.symm
      obtain ⟨c, hs, hcM, hc0, _⟩ := R.same 0 (g - 1) hn0 hun
      refine ⟨c, ?_, ?_, fun _ => hcM, by omega⟩
      · rw [landF, landF]
        unfold u32 at hs ⊢
        omega
      · intro hgt
        by_contra hne
        have := (hc0 hne).1
        omega
  | b :: rest, pre, e, g, hg, hc => by
      have hbmem : b ∈ rlo := by
        rw [e]
        exact List.mem_append_right _ (List.mem_cons_self _ _)
      have hbn : b ≠ n := fun e2 => R.fresh (e2 ▸ hbmem)
      have hb0 : b ≠ 0 := fun e2 => R.zero (e2 ▸ hbmem)
      have hbpre : b ∉ pre := by
        intro hb
        have hnd := R.nodup
        rw [e] at hnd
        have := (List.nodup_append.1 hnd).2.2
        exact this hb (List.mem_cons_self _ _)
      have e2 : rlo = (pre ++ [b]) ++ rest := by
        rw [e]
        simp
      rw [landF, landF]
      by_cases c : g ≤ ht b
      · rw [if_pos c, if_pos c]
        obtain ⟨D1, hD1, hz1, hM1, _⟩ := R.lower rest (pre ++ [b]) e2 (ht b) (by omega)
          (Or.inr ⟨b, by simp, Nat.le_refl _⟩)
        have hD1M : D1 ≤ M := hM1 ⟨b, by simp, Nat.le_refl _⟩
        have hun : ¬ (g - 1 < h ∧ b = lastF ht rlo (g - 1 + 1)) := by
          rintro ⟨h1, h2⟩
          rcases hc with hc | hc
          · omega
          · have e1 : g - 1 + 1 = g := by omega
            rw [e1, e] at h2
            have := lastF_mem_pre ht g pre (b :: rest) hc
            rw [← h2] at this
            exact hbpre this
        obtain ⟨cb, hs, hcM, hc0, hc1⟩ := R.same b (g - 1) hbn hun
        have hlast : ∀ i, b = lastF ht rlo (i + 1) → i + 1 ≤ ht b := by
          intro i hi
          rcases lastF_cases ht rlo (i + 1) with ⟨e0, _⟩ | ⟨_, hle⟩
          · rw [← hi] at e0
            exact absurd e0 hb0
          · rw [← hi] at hle
            exact hle
        refine ⟨D1 + cb, ?_, ?_, ?_, ?_⟩
        · rw [hD1]
          unfold u32 at hs ⊢
          omega
        · intro hgt
          have h1 : D1 = 0 := hz1 (by omega)
          have h2 : cb = 0 := by
            by_contra hne
            have := (hc0 hne).1
            omega
          omega
        · intro hK
          by_cases hcb : cb = 0
          · omega
          · obtain ⟨ht1, i, hi, hbi⟩ := hc0 hcb
            have hne : i ≠ h := by
              intro e3
              subst e3
              have e1 : g = i + 1 := by omega
              rw [e, ← e1] at hbi
              have := lastF_mem_pre ht g pre (b :: rest) hK
              rw [← hbi] at this
              exact hbpre this
            have := hlast i hbi
            have h1 : D1 = 0 := hz1 (by omega)
            omega
        · by_cases hh : h + 1 < ht b
          · have h1 : D1 = 0 := hz1 hh
            omega
          · have hcb : cb ≤ 1 := by
              by_contra hgt
              obtain ⟨i, hi, hbi⟩ := hc1 (by omega)
              have := hlast i hbi
              omega
            omega
      · rw [if_neg c, if_neg c]
        have hc2 : h < g ∨ ∃ c ∈ pre ++ [b], g ≤ ht c := by
          rcases hc with hc | ⟨x, hx, hxg⟩
          · exact Or.inl hc
          · exact Or.inr ⟨x, List.mem_append_left _ hx, hxg⟩
        obtain ⟨D, hD, hz, hM, hM1⟩ := R.lower rest (pre ++ [b]) e2 g hg hc2
        refine ⟨D, hD, hz, ?_, hM1⟩
        rintro ⟨x, hx, hxg⟩
        exact hM ⟨x, List.mem_append_left _ hx, hxg⟩

theorem SpanRel.touched {ht : Nat → Nat} {sp sq : Nat → Nat → Nat} {n h M shift2 : Nat}
    {rlo : List Nat} (R : SpanRel ht sp sq n h M shift2 rlo) :
    ∀ (rest pre : List Nat), rlo = pre ++ rest → ∀ g, 1 ≤ g → g ≤ h →
      (∀ c ∈ pre, ht c < g) →
      ∃ D, landF ht sq rest g = (shift2 + D) % u32 ∧ D ≤ M
  | [], pre, e, g, hg, hgh, hall => by
      rw [List.append_nil] at e
      have e1 : g - 1 + 1 = g := by omega
      have hp := R.prev (g - 1) (by omega)
      rw [e1] at hp
      have h1 : lastF ht rlo g = 0 := by
        have := lastF_append_skip ht g pre [] hall
        rw [List.append_nil, ← e] at this
        rw [this]
        rfl
      have h2 : posF ht sp rlo g = 0 := by
        have := posF_append_skip ht sp g pre [] hall
        rw [List.append_nil, ← e] at this
        rw [this]
        rfl
      rw [h1, h2] at hp
      refine ⟨0, ?_, Nat.zero_le _⟩
      rw [landF]
      unfold u32 at hp ⊢
      omega
  | b :: rest, pre, e, g, hg, hgh, hall => by
      have e2 : rlo = (pre ++ [b]) ++ rest := by
        rw [e]
        simp
      rw [landF]
      by_cases c : g ≤ ht b
      · rw [if_pos c]
        have e1 : g - 1 + 1 = g := by omega
        have hp := R.prev (g - 1) (by omega)
        rw [e1] at hp
        have h1 : lastF ht rlo g = b := by
          rw [e, lastF_append_skip ht g pre _ hall, lastF, if_pos c]
        have h2 : posF ht sp rlo g = landF ht sp rest (ht b) := by
          rw [e, posF_append_skip ht sp g pre _ hall, posF, if_pos c]
        rw [h1, h2] at hp
        obtain ⟨D1, hD1, _, hM1, _⟩ := R.lower rest (pre ++ [b]) e2 (ht b) (by omega)
          (Or.inr ⟨b, by simp, Nat.le_refl _⟩)
        have hD1M : D1 ≤ M := hM1 ⟨b, by simp, Nat.le_refl _⟩
        have hlt := landF_lt ht sp rest (ht b)
        refine ⟨D1, ?_, hD1M⟩
        rw [hD1]
        unfold u32 at hlt hp ⊢
        omega
      · rw [if_neg c]
        apply R.touched rest (pre ++ [b]) e2 g hg hgh
        intro x hx
        rcases List.mem_append.1 hx with h1 | h1
        · exact hall x h1
        · have : x = b := by simpa using h1
          subst this
          omega

theorem SpanRel.upper {ht : Nat → Nat} {sp sq : Nat → Nat → Nat} {n h M shift2 : Nat}
    {rlo : List Nat} (R : SpanRel ht sp sq n h M shift2 rlo) (hh : 1 ≤ h) {rup : List Nat}
    (hup : ∀ y ∈ rup, y ≠ n ∧ y ∉ rlo ∧ y ≠ 0) :
    ∀ (rest pre : List Nat), rup = pre ++ rest → ∀ g, 1 ≤ g →
      ∃ D, landF ht sq (rest ++ n :: rlo) g = (landF ht sp (rest ++ rlo) g + D) % u32 ∧
        D ≤ M + 1
  | [], pre, _, g, hg => by
      rw [List.nil_append, List.nil_append, landF, R.htn]
      by_cases c : g ≤ h
      · rw [if_pos c]
        obtain ⟨Dn, hDn, hDnM⟩ := R.touched rlo [] rfl h hh (Nat.le_refl _) (by simp)
        have e1 : g - 1 + 1 = g := by omega
        have hs := R.newSpan (g - 1) (by omega)
        rw [e1] at hs
        have hlt := R.shiftLt
        refine ⟨Dn + 1, ?_, by omega⟩
        rw [hDn]
        unfold u32 at hlt hs ⊢
        omega
      · rw [if_neg c]
        obtain ⟨D, hD, _, _, hM1⟩ := R.lower rlo [] rfl g hg (Or.inl (by omega))
        exact ⟨D, hD, hM1⟩
  | y :: rest, pre, e, g, hg => by
      have e2 : rup = (pre ++ [y]) ++ rest := by
        rw [e]
        simp
      have hy := hup y (by rw [e]; exact List.mem_append_right _ (List.mem_cons_self _ _))
      rw [List.cons_append, List.cons_append, landF, landF]
      by_cases c : g ≤ ht y
      · rw [if_pos c, if_pos c]
        obtain ⟨D, hD, hDM⟩ := R.upper hh hup rest (pre ++ [y]) e2 (ht y) (by omega)
        have hnot : ∀ i, y ≠ lastF ht rlo (i + 1) := by
          intro i hi
          rcases lastF_cases ht rlo (i + 1) with ⟨e0, _⟩ | ⟨hm, _⟩
          · rw [← hi] at e0
            exact hy.2.2 e0
          · rw [← hi] at hm
            exact hy.2.1 hm
        obtain ⟨cy, hs, _, hc0, _⟩ := R.same y (g - 1) hy.1 (fun hc => hnot _ hc.2)
        have hcy : cy = 0 := by
          by_contra hne
          obtain ⟨_, i, _, hi⟩ := hc0 hne
          exact hnot i hi
        subst hcy
        refine ⟨D, ?_, hDM⟩
        rw [hD]
        unfold u32 at hs ⊢
        omega
      · rw [if_neg c, if_neg c]
        exact R.upper hh hup rest (pre ++ [y]) e2 g hg

theorem posF_cases (ht : Nat → Nat) (sp : Nat → Nat → Nat) :
    ∀ (rev : List Nat) (g : Nat),
      posF ht sp rev g = 0 ∨
        ∃ pre b rest, rev = pre ++ b :: rest ∧ posF ht sp rev g = landF ht sp rest (ht b)
  | [], g => Or.inl rfl
  | b :: rest, g => by
      rw [posF]
      by_cases c : g ≤ ht b
      · rw [if_pos c]
        exact Or.inr ⟨[], b, rest, rfl, rfl⟩
      · rw [if_neg c]
        rcases posF_cases ht sp rest g with e | ⟨pre, b2, rest2, e1, e2⟩
        · exact Or.inl e
        · exact Or.inr ⟨b :: pre, b2, rest2, by rw [e1]; rfl, e2⟩

/-- The positions of all nodes stay between 1 and the bound, which grows by at most
`M + 1` with an insertion. -/
theorem SpanRel.bound {ht : Nat → Nat} {sp sq : Nat → Nat → Nat} {n h M shift2 : Nat}
    {rlo : List Nat} (R : SpanRel ht sp sq n h M shift2 rlo) (hh : 1 ≤ h) {rup : List Nat}
    (hup : ∀ y ∈ rup, y ≠ n ∧ y ∉ rlo ∧ y ≠ 0) (hpos : ∀ y ∈ rup ++ rlo, 1 ≤ ht y)
    (hshift : shift2 = (posF ht sp rlo 1 + 1) % u32) {B : Nat} (hB : B + M + 1 < u32)
    (old : ∀ pre a rest, rup ++ rlo = pre ++ a :: rest →
      1 ≤ landF ht sp rest (ht a) ∧ landF ht sp rest (ht a) ≤ B) :
    ∀ pre a rest, rup ++ n :: rlo = pre ++ a :: rest →
      1 ≤ landF ht sq rest (ht a) ∧ landF ht sq rest (ht a) ≤ B + M + 1 := by
  intro pre a rest e
  rcases List.append_eq_append_iff.1 e with ⟨as, e1, e2⟩ | ⟨bs, e1, e2⟩
  · -- pre = rup ++ as, n :: rlo = as ++ a :: rest
    cases as with
    | nil =>
      simp only [List.nil_append, List.cons.injEq] at e2
      obtain ⟨e3, e4⟩ := e2
      subst e3
      subst e4
      rw [R.htn]
      obtain ⟨Dn, hDn, hDnM⟩ := R.touched rlo [] rfl h hh (Nat.le_refl _) (by simp)
      have hp : posF ht sp rlo 1 ≤ B := by
        rcases posF_cases ht sp rlo 1 with e0 | ⟨p2, b2, r2, e5, e6⟩
        · omega
        · rw [e6]
          exact (old (rup ++ p2) b2 r2 (by rw [e5]; simp)).2
      rw [hDn, hshift]
      unfold u32 at hB ⊢
      omega
    | cons x as =>
      simp only [List.cons_append, List.cons.injEq] at e2
      obtain ⟨_, e4⟩ := e2
      have e5 : rlo = (as ++ [a]) ++ rest := by
        rw [e4]
        simp
      have ha : 1 ≤ ht a := hpos a (by rw [e4]; simp)
      obtain ⟨D, hD, _, hM, _⟩ := R.lower rest (as ++ [a]) e5 (ht a) ha
        (Or.inr ⟨a, by simp, Nat.le_refl _⟩)
      have hDM : D ≤ M := hM ⟨a, by simp, Nat.le_refl _⟩
      have ho := old (rup ++ as) a rest (by rw [e4]; simp)
      rw [hD]
      unfold u32 at hB ⊢
      omega
  · -- rup = pre ++ bs, a :: rest = bs ++ n :: rlo
    cases bs with
    | nil =>
      simp only [List.nil_append, List.cons.injEq] at e2
      obtain ⟨e3, e4⟩ := e2
      rw [e3, e4, R.htn]
      obtain ⟨Dn, hDn, hDnM⟩ := R.touched rlo [] rfl h hh (Nat.le_refl _) (by simp)
      have hp : posF ht sp rlo 1 ≤ B := by
        rcases posF_cases ht sp rlo 1 with e0 | ⟨p2, b2, r2, e5, e6⟩
        · omega
        · rw [e6]
          exact (old (rup ++ p2) b2 r2 (by rw [e5]; simp)).2
      rw [hDn, hshift]
      unfold u32 at hB ⊢
      omega
    | cons x bs =>
      simp only [List.cons_append, List.cons.injEq] at e2
      obtain ⟨e3, e4⟩ := e2
      subst e3
      have e5 : rup = (pre ++ [a]) ++ bs := by
        rw [e1]
        simp
      have ha : 1 ≤ ht a := hpos a (by rw [e1]; simp)
      obtain ⟨D, hD, hDM⟩ := R.upper hh hup bs (pre ++ [a]) e5 (ht a) ha
      have ho := old pre a (bs ++ rlo) (by rw [e1]; simp)
      rw [e4, hD]
      unfold u32 at hB ⊢
      omega

theorem updLevel_getNextSpan {heap heap2 : List skipsetNode} {n l : Nat} {f : levelNode → levelNode}
    (h : updLevel heap n l f = some heap2) (m k : Nat) :
    getNextSpan heap2 m k =
      if m = n ∧ k = l then (getNextSpan heap n l).map (fun _ =>
        ((heap[n]?).bind (fun nd => (nd.levels[l]?).map (fun lv => (f lv).span))).getD 0)
      else getNextSpan heap m k := by
  unfold updLevel at h
  cases hn : heap[n]? with
  | none => simp [hn] at h
  | some nd =>
    simp only [hn, Option.some_bind] at h
    cases hl : nd.levels[l]? with
    | none => simp [hl] at h
    | some lv =>
      simp only [hl, Option.map_some', Option.some.injEq] at h
      subst h
      have hlt : n < heap.length := by
        rcases List.getElem?_eq_some.1 hn with ⟨hlt, _⟩
        exact hlt
      have hllt : l < nd.levels.length := by
        rcases List.getElem?_eq_some.1 hl with ⟨hlt, _⟩
        exact hlt
      unfold getNextSpan
      rw [List.getElem?_set]
      by_cases hm : n = m
      · subst hm
        simp only [hlt, if_true, Option.some_bind, true_and, hn, hl, Option.map_some',
          Option.getD_some]
        rw [List.getElem?_set]
        by_cases hk : l = k
        · subst hk
          simp [hllt]
        · have hk2 : ¬ k = l := fun e => hk e.symm
          simp [hk, hk2]
      · have hm2 : ¬ m = n := fun e => hm e.symm
        simp [hm, hm2]

theorem setNext_getNextSpan {heap heap2 : List skipsetNode} {n l : Nat} {nx : Option Nat}
    (h : setNext heap n l nx = some heap2) (m k : Nat) :
    getNextSpan heap2 m k = getNextSpan heap m k := by
  unfold setNext at h
  rw [updLevel_getNextSpan h]
  by_cases c : m = n ∧ k = l
  · rw [if_pos c, c.1, c.2]
    unfold updLevel at h
    unfold getNextSpan
    cases hn : heap[n]? with
    | none => simp [hn] at h
    | some nd =>
      simp only [hn, Option.some_bind] at h ⊢
      cases hl : nd.levels[l]? with
      | none => simp [hl] at h
      | some lv => simp
  · rw [if_neg c]

theorem setNextStep_getNextSpan {heap heap2 : List skipsetNode} {n l st : Nat}
    (h : setNextStep heap n l st = some heap2) (m k : Nat) :
    getNextSpan heap2 m k = if m = n ∧ k = l then some st else getNextSpan heap m k := by
  unfold setNextStep at h
  rw [updLevel_getNextSpan h]
  by_cases c : m = n ∧ k = l
  · rw [if_pos c, if_pos c]
    unfold updLevel at h
    unfold getNextSpan
    cases hn : heap[n]? with
    | none => simp [hn] at h
    | some nd =>
      simp only [hn, Option.some_bind] at h ⊢
      cases hl : nd.levels[l]? with
      | none => simp [hl] at h
      | some lv => simp
  · rw [if_neg c, if_neg c]

theorem incrNextStep_getNextSpan {heap heap2 : List skipsetNode} {n l : Nat}
    (h : incrNextStep heap n l = some heap2) (m k : Nat) :
    getNextSpan heap2 m k =
      if m = n ∧ k = l then (getNextSpan heap m k).map (fun sp => (sp + 1) % u32)
      else getNextSpan heap m k := by
  unfold incrNextStep at h
  rw [updLevel_getNextSpan h]
  by_cases c : m = n ∧ k = l
  · rw [if_pos c, if_pos c, c.1, c.2]
    unfold updLevel at h
    unfold getNextSpan
    cases hn : heap[n]? with
    | none => simp [hn] at h
    | some nd =>
      simp only [hn, Option.some_bind] at h ⊢
      cases hl : nd.levels[l]? with
      | none => simp [hl] at h
      | some lv => simp
  · rw [if_neg c, if_neg c]

theorem lock_getNextSpan {heap heap2 : List skipsetNode} {n : Nat}
    (h : lock heap n = some heap2) (m k : Nat) :
    getNextSpan heap2 m k = getNextSpan heap m k := by
  unfold lock at h
  cases hn : heap[n]? with
  | none => simp [hn] at h
  | some nd =>
    simp only [hn, Option.some_bind] at h
    by_cases c : nd.mutex = true
    · simp [c] at h
    · simp only [c, Bool.false_eq_true, if_false, Option.some.injEq] at h
      subst h
      unfold getNextSpan
      rw [List.getElem?_set]
      by_cases hm : n = m
      · subst hm
        have hlt : n < heap.length := by
          rcases List.getElem?_eq_some.1 hn with ⟨hlt, _⟩
          exact hlt
        simp [hlt, hn]
      · simp [hm]

theorem unlock_getNextSpan {heap heap2 : List skipsetNode} {n : Nat}
    (h : unlock heap n = some heap2) (m k : Nat) :
    getNextSpan heap2 m k = getNextSpan heap m k := by
  unfold unlock at h
  cases hn : heap[n]? with
  | none => simp [hn] at h
  | some nd =>
    simp only [hn, Option.some_bind] at h
    by_cases c : nd.mutex = true
    · simp only [c, if_true, Option.some.injEq] at h
      subst h
      unfold getNextSpan
      rw [List.getElem?_set]
      by_cases hm : n = m
      · subst hm
        have hlt : n < heap.length := by
          rcases List.getElem?_eq_some.1 hn with ⟨hlt, _⟩
          exact hlt
        simp [hlt, hn]
      · simp [hm]
    · simp [c] at h

theorem lockPass_span (loc : AddLocals) :
    ∀ (r i : Nat) (heap : List skipsetNode) (last : Int) (res : List skipsetNode × Bool),
      lockPass loc r i heap last = some res →
      ∀ m k, getNextSpan res.1 m k = getNextSpan heap m k
  | 0, _, heap, _, res, h => by
      simp only [lockPass, Option.some.injEq] at h
      subst h
      exact fun _ _ => rfl
  | r + 1, i, heap, last, res, h => by
      simp only [lockPass, Option.bind_eq_some] at h
      obtain ⟨prev, _, next, _, ps, _, p, _, heap2, hlock, cur, _, hres⟩ := h
      have s1 : ∀ m k, getNextSpan heap2 m k = getNextSpan heap m k := by
        by_cases c : last = (ps : Int)
        · simp only [c, ne_eq, not_true_eq_false, if_false, Option.some.injEq] at hlock
          subst hlock
          exact fun _ _ => rfl
        · simp only [ne_eq, c, not_false_eq_true, if_true] at hlock
          exact lock_getNextSpan hlock
      by_cases c2 : cur = next
      · simp only [c2, ne_eq, not_true_eq_false, if_false] at hres
        intro m k
        rw [lockPass_span loc r (i + 1) heap2 _ res hres, s1]
      · simp only [ne_eq, c2, not_false_eq_true, if_true, Option.some.injEq] at hres
        subst hres
        exact s1

theorem unlockPass_span (loc : AddLocals) :
    ∀ (k : Nat) (heap : List skipsetNode) (last : Int) (res : List skipsetNode),
      unlockPass loc k heap last = some res →
      ∀ m j, getNextSpan res m j = getNextSpan heap m j
  | 0, heap, _, res, h => by
      simp only [unlockPass, Option.some.injEq] at h
      subst h
      exact fun _ _ => rfl
  | i + 1, heap, last, res, h => by
      simp only [unlockPass, Option.bind_eq_some] at h
      obtain ⟨ps, _, hres⟩ := h
      by_cases c : last = (ps : Int)
      · simp only [c, ne_eq, not_true_eq_false, if_false] at hres
        exact unlockPass_span loc i heap _ res hres
      · simp only [ne_eq, c, not_false_eq_true, if_true, Option.bind_eq_some] at hres
        obtain ⟨prev, _, p, _, heap2, hu, hrest⟩ := hres
        intro m j
        rw [unlockPass_span loc i heap2 _ res hrest, unlock_getNextSpan hu]

theorem getNextSpan_append (h : List skipsetNode) (nd : skipsetNode) (n l : Nat) :
    getNextSpan (h ++ [nd]) n l =
      if n < h.length then getNextSpan h n l
      else if n = h.length then (nd.levels[l]?).map (fun lv => lv.span) else none := by
  unfold getNextSpan
  rw [List.getElem?_append]
  by_cases c : n < h.length
  · simp [c]
  · by_cases c2 : n = h.length
    · subst c2
      simp
    · have e : ([nd] : List skipsetNode)[n - h.length]? = none := by
        apply List.getElem?_eq_none
        simp
        omega
      simp [c, c2, e]

theorem splice_step_span {heap h1 h2 h3 h4 : List skipsetNode} {new p i a b : Nat}
    {next : Option Nat}
    (e1 : setNext heap new i next = some h1) (e2 : setNextStep h1 new i a = some h2)
    (e3 : setNextStep h2 p i b = some h3) (e4 : setNext h3 p i (some new) = some h4) :
    ∀ n l, getNextSpan h4 n l =
      if n = p ∧ l = i then some b
      else if n = new ∧ l = i then some a else getNextSpan heap n l := by
  intro n l
  rw [setNext_getNextSpan e4, setNextStep_getNextSpan e3, setNextStep_getNextSpan e2,
    setNext_getNextSpan e1]

/-- Effect of the splice loop on the stored spans. -/
theorem splice_span (loc : AddLocals) (new shift : Nat) :
    ∀ (r i : Nat) (heap res : List skipsetNode),
      splice loc new shift r i heap = some res →
      ∀ n l, getNextSpan res n l =
        if i ≤ l ∧ l < i + r then
          (if loc.prevNodes[l]? = some (some n) then
             some ((shift + u32 - (loc.prevNodesShift[l]?).getD 0) % u32)
           else if n = new then
             some (((loc.nextNodesShift[l]?).getD 0 + 1 + u32 - shift) % u32)
           else getNextSpan heap n l)
        else getNextSpan heap n l
  | 0, i, heap, res, h => by
      simp only [splice, Option.some.injEq] at h
      subst h
      intro n l
      have c : ¬ (i ≤ l ∧ l < i + 0) := by omega
      rw [if_neg c]
  | r + 1, i, heap, res, h => by
      simp only [splice, Option.bind_eq_some] at h
      obtain ⟨prev, hp, next, hn, ps, hps, ns, hns, p, hpp, h1, e1, h2, e2, h3, e3, h4, e4,
        hrest⟩ := h
      subst hpp
      have n4 := splice_step_span e1 e2 e3 e4
      have nr := splice_span loc new shift r (i + 1) h4 res hrest
      intro n l
      rw [nr n l, n4 n l]
      by_cases c1 : i + 1 ≤ l ∧ l < i + 1 + r
      · have c2 : i ≤ l ∧ l < i + (r + 1) := by omega
        have c3 : ¬ l = i := by omega
        simp [c1, c2, c3]
      · by_cases c4 : l = i
        · subst c4
          have c2 : l ≤ l ∧ l < l + (r + 1) := by omega
          simp only [c1, if_false, c2, and_self, if_true, and_true, hp, hps, hns,
            Option.getD_some, Option.some.injEq]
          by_cases c5 : n = p
          · subst c5
            simp
          · have c6 : ¬ p = n := fun e => c5 e.symm
            simp [c5, c6]
        · have c2 : ¬ (i ≤ l ∧ l < i + (r + 1)) := by omega
          simp [c1, c2, c4]

theorem incrCount_le (loc : AddLocals) :
    ∀ (r i x : Nat), incrCount loc r i x ≤ r
  | 0, _, _ => Nat.le_refl _
  | r + 1, i, x => by
      rw [incrCount]
      have := incrCount_le loc r (i + 1) x
      split
      · split <;> omega
      · omega

theorem incrCount_pos (loc : AddLocals) :
    ∀ (r i x : Nat), incrCount loc r i x ≠ 0 →
      ∃ j, i ≤ j ∧ j < i + r ∧ loc.prevNodes[j]? = some (some x)
  | 0, _, _, h => absurd rfl h
  | r + 1, i, x, h => by
      rw [incrCount] at h
      split at h
      · by_cases c : loc.prevNodes[i]? = some (some x)
        · exact ⟨i, Nat.le_refl _, by omega, c⟩
        · rw [if_neg c, Nat.zero_add] at h
          obtain ⟨j, h1, h2, h3⟩ := incrCount_pos loc r (i + 1) x h
          exact ⟨j, by omega, by omega, h3⟩
      · exact absurd rfl h

theorem incrCount_two (loc : AddLocals) :
    ∀ (r i x : Nat), 1 < incrCount loc r i x →
      ∃ j, i < j ∧ j < i + r ∧ loc.prevNodes[j]? = some (some x)
  | 0, _, _, h => by
      rw [incrCount] at h
      omega
  | r + 1, i, x, h => by
      rw [incrCount] at h
      split at h
      · have hne : incrCount loc r (i + 1) x ≠ 0 := by
          intro e
          rw [e] at h
          split at h <;> omega
        obtain ⟨j, h1, h2, h3⟩ := incrCount_pos loc r (i + 1) x hne
        exact ⟨j, by omega, by omega, h3⟩
      · omega

theorem incrNextStep_spanAt {heap heap2 : List skipsetNode} {n l : Nat}
    (h : incrNextStep heap n l = some heap2) (m k : Nat) :
    spanAt heap2 m k =
      if m = n ∧ k = l then (spanAt heap m k + 1) % u32 else spanAt heap m k := by
  have hex : ∃ sp, getNextSpan heap n l = some sp := by
    unfold incrNextStep updLevel at h
    unfold getNextSpan
    cases hn : heap[n]? with
    | none => simp [hn] at h
    | some nd =>
      simp only [hn, Option.some_bind] at h ⊢
      cases hl : nd.levels[l]? with
      | none => simp [hl] at h
      | some lv => exact ⟨lv.span, rfl⟩
  obtain ⟨sp, hsp⟩ := hex
  unfold spanAt
  rw [incrNextStep_getNextSpan h]
  by_cases c : m = n ∧ k = l
  · rw [if_pos c, if_pos c, c.1, c.2, hsp]
    rfl
  · rw [if_neg c, if_neg c]

/-- Effect of the span loop on the stored spans. -/
theorem incrAbove_span (loc : AddLocals) (newLevel : Nat) :
    ∀ (r i : Nat) (heap res : List skipsetNode),
      incrAbove loc newLevel r i heap = some res →
      ∀ n l, spanAt res n l % u32 =
        (spanAt heap n l + (if l = newLevel then incrCount loc r i n else 0)) % u32
  | 0, i, heap, res, h => by
      simp only [incrAbove, Option.some.injEq] at h
      subst h
      intro n l
      rw [incrCount]
      split <;> rfl
  | r + 1, i, heap, res, h => by
      simp only [incrAbove, Option.bind_eq_some] at h
      obtain ⟨prev, hp, next, hn, hres⟩ := h
      intro n l
      rw [incrCount, hn]
      cases next with
      | none =>
        simp only [Option.some.injEq] at hres
        subst hres
        split <;> rfl
      | some nx =>
        simp only [Option.bind_eq_some] at hres
        obtain ⟨p, hpp, h1, hi, hrest⟩ := hres
        subst hpp
        have ih := incrAbove_span loc newLevel r (i + 1) h1 res hrest n l
        have e1 := incrNextStep_spanAt hi n l
        rw [ih, e1, hp]
        by_cases c1 : l = newLevel
        · subst c1
          by_cases c2 : n = p
          · subst c2
            simp only [and_self, if_true]
            unfold u32
            omega
          · have c3 : ¬ (some (some p) = some (some n)) := by
              intro e
              simp only [Option.some.injEq] at e
              exact c2 e.symm
            have c4 : ¬ (n = p ∧ l = l) := fun e => c2 e.1
            rw [if_neg c4, if_neg c3]
            simp only [if_true, Nat.zero_add]
        · have c4 : ¬ (n = p ∧ l = newLevel) := fun e => c1 e.2
          rw [if_neg c4, if_neg c1, if_neg c1]

theorem updLevel_height {heap heap2 : List skipsetNode} {n l : Nat} {f : levelNode → levelNode}
    (h : updLevel heap n l f = some heap2) (m : Nat) : height heap2 m = height heap m := by
  unfold updLevel at h
  cases hn : heap[n]? with
  | none => simp [hn] at h
  | some nd =>
    simp only [hn, Option.some_bind] at h
    cases hl : nd.levels[l]? with
    | none => simp [hl] at h
    | some lv =>
      simp only [hl, Option.map_some', Option.some.injEq] at h
      subst h
      have hlt : n < heap.length := by
        rcases List.getElem?_eq_some.1 hn with ⟨hlt, _⟩
        exact hlt
      unfold height
      rw [List.getElem?_set]
      by_cases hm : n = m
      · subst hm
        simp [hlt, hn]
      · simp [hm]

theorem lock_height {heap heap2 : List skipsetNode} {n : Nat}
    (h : lock heap n = some heap2) (m : Nat) : height heap2 m = height heap m := by
  unfold lock at h
  cases hn : heap[n]? with
  | none => simp [hn] at h
  | some nd =>
    simp only [hn, Option.some_bind] at h
    by_cases c : nd.mutex = true
    · simp [c] at h
    · simp only [c, Bool.false_eq_true, if_false, Option.some.injEq] at h
      subst h
      unfold height
      rw [List.getElem?_set]
      by_cases hm : n = m
      · subst hm
        have hlt : n < heap.length := by
          rcases List.getElem?_eq_some.1 hn with ⟨hlt, _⟩
          exact hlt
        simp [hlt, hn]
      · simp [hm]

theorem unlock_height {heap heap2 : List skipsetNode} {n : Nat}
    (h : unlock heap n = some heap2) (m : Nat) : height heap2 m = height heap m := by
  unfold unlock at h
  cases hn : heap[n]? with
  | none => simp [hn] at h
  | some nd =>
    simp only [hn, Option.some_bind] at h
    by_cases c : nd.mutex = true
    · simp only [c, if_true, Option.some.injEq] at h
      subst h
      unfold height
      rw [List.getElem?_set]
      by_cases hm : n = m
      · subst hm
        have hlt : n < heap.length := by
          rcases List.getElem?_eq_some.1 hn with ⟨hlt, _⟩
          exact hlt
        simp [hlt, hn]
      · simp [hm]
    · simp [c] at h

theorem lockPass_height (loc : AddLocals) :
    ∀ (r i : Nat) (heap : List skipsetNode) (last : Int) (res : List skipsetNode × Bool),
      lockPass loc r i heap last = some res → ∀ m, height res.1 m = height heap m
  | 0, _, heap, _, res, h => by
      simp only [lockPass, Option.some.injEq] at h
      subst h
      exact fun _ => rfl
  | r + 1, i, heap, last, res, h => by
      simp only [lockPass, Option.bind_eq_some] at h
      obtain ⟨prev, _, next, _, ps, _, p, _, heap2, hlock, cur, _, hres⟩ := h
      have s1 : ∀ m, height heap2 m = height heap m := by
        by_cases c : last = (ps : Int)
        · simp only [c, ne_eq, not_true_eq_false, if_false, Option.some.injEq] at hlock
          subst hlock
          exact fun _ => rfl
        · simp only [ne_eq, c, not_false_eq_true, if_true] at hlock
          exact lock_height hlock
      by_cases c2 : cur = next
      · simp only [c2, ne_eq, not_true_eq_false, if_false] at hres
        intro m
        rw [lockPass_height loc r (i + 1) heap2 _ res hres, s1]
      · simp only [ne_eq, c2, not_false_eq_true, if_true, Option.some.injEq] at hres
        subst hres
        exact s1

theorem unlockPass_height (loc : AddLocals) :
    ∀ (k : Nat) (heap : List skipsetNode) (last : Int) (res : List skipsetNode),
      unlockPass loc k heap last = some res → ∀ m, height res m = height heap m
  | 0, heap, _, res, h => by
      simp only [unlockPass, Option.some.injEq] at h
      subst h
      exact fun _ => rfl
  | i + 1, heap, last, res, h => by
      simp only [unlockPass, Option.bind_eq_some] at h
      obtain ⟨ps, _, hres⟩ := h
      by_cases c : last = (ps : Int)
      · simp only [c, ne_eq, not_true_eq_false, if_false] at hres
        exact unlockPass_height loc i heap _ res hres
      · simp only [ne_eq, c, not_false_eq_true, if_true, Option.bind_eq_some] at hres
        obtain ⟨prev, _, p, _, heap2, hu, hrest⟩ := hres
        intro m
        rw [unlockPass_height loc i heap2 _ res hrest, unlock_height hu]

theorem splice_height (loc : AddLocals) (new shift : Nat) :
    ∀ (r i : Nat) (heap res : List skipsetNode),
      splice loc new shift r i heap = some res → ∀ m, height res m = height heap m
  | 0, i, heap, res, h => by
      simp only [splice, Option.some.injEq] at h
      subst h
      exact fun _ => rfl
  | r + 1, i, heap, res, h => by
      simp only [splice, Option.bind_eq_some] at h
      obtain ⟨prev, hp, next, hn, ps, hps, ns, hns, p, hpp, h1, e1, h2, e2, h3, e3, h4, e4,
        hrest⟩ := h
      intro m
      unfold setNext at e1 e4
      unfold setNextStep at e2 e3
      rw [splice_height loc new shift r (i + 1) h4 res hrest, updLevel_height e4,
        updLevel_height e3, updLevel_height e2, updLevel_height e1]

theorem incrAbove_height (loc : AddLocals) (newLevel : Nat) :
    ∀ (r i : Nat) (heap res : List skipsetNode),
      incrAbove loc newLevel r i heap = some res → ∀ m, height res m = height heap m
  | 0, _, heap, res, h => by
      simp only [incrAbove, Option.some.injEq] at h
      subst h
      exact fun _ => rfl
  | r + 1, i, heap, res, h => by
      simp only [incrAbove, Option.bind_eq_some] at h
      obtain ⟨prev, _, next, _, hres⟩ := h
      cases next with
      | none =>
        simp only [Option.some.injEq] at hres
        subst hres
        exact fun _ => rfl
      | some nx =>
        simp only [Option.bind_eq_some] at hres
        obtain ⟨p, _, h1, hi, hrest⟩ := hres
        intro m
        unfold incrNextStep at hi
        rw [incrAbove_height loc newLevel r (i + 1) h1 res hrest, updLevel_height hi]

theorem height_append (h : List skipsetNode) (nd : skipsetNode) (n : Nat) :
    height (h ++ [nd]) n =
      if n < h.length then height h n else if n = h.length then nd.levels.length else 0 := by
  unfold height
  rw [List.getElem?_append]
  by_cases c : n < h.length
  · simp [c]
  · by_cases c2 : n = h.length
    · subst c2
      simp
    · have e : ([nd] : List skipsetNode)[n - h.length]? = none := by
        apply List.getElem?_eq_none
        simp
        omega
      simp [c, c2, e]

theorem getNext_some_iff (heap : List skipsetNode) (x l : Nat) :
    (∃ y, getNext heap x l = some y) ↔ l < height heap x := by
  unfold getNext height
  cases hn : heap[x]? with
  | none => simp
  | some nd =>
    simp only [Option.some_bind, Option.map_eq_some']
    constructor
    · rintro ⟨y, lv, hl, _⟩
      rcases List.getElem?_eq_some.1 hl with ⟨hlt, _⟩
      exact hlt
    · intro hlt
      exact ⟨_, nd.levels[l], List.getElem?_eq_getElem hlt, rfl⟩

theorem spanAt_of_some {heap : List skipsetNode} {x l sp : Nat}
    (h : getNextSpan heap x l = some sp) : spanAt heap x l = sp := by
  unfold spanAt
  rw [h]
  rfl

/-- The level-`t` walk of `Add` over the nodes of `E` (all placed before `v`, none taller
than `t + 1`): it stops at the last of them that has level `t`, with the shift of that
node. -/
theorem addWalk_pos {heap : List skipsetNode} {desc : Bool} {v : Int} {t : Nat}
    (U : List (Nat × Int)) (hU : ∀ a, U.head? = some a → before desc a.2 v = false) :
    ∀ (E : List (Nat × Int)) (rev : List Nat) (fuel : Nat),
      (∀ b ∈ E, height heap b.1 ≤ t + 1) → (∀ b ∈ E, before desc b.2 v = true) →
      chainFrom heap t (lastF (height heap) rev (t + 1))
        (E.filter (fun a => decide (t < height heap a.1)) ++ U) →
      E.length ≤ fuel →
      addWalk heap desc v t fuel (lastF (height heap) rev (t + 1))
          (headId (E.filter (fun a => decide (t < height heap a.1)) ++ U))
          (posF (height heap) (spanAt heap) rev (t + 1))
        = some (lastF (height heap) ((E.map Prod.fst).reverse ++ rev) (t + 1), headId U,
            posF (height heap) (spanAt heap) ((E.map Prod.fst).reverse ++ rev) (t + 1))
  | [], rev, fuel, _, _, hc, _ => by
      simp only [List.filter_nil, List.nil_append, List.map_nil, List.reverse_nil] at hc ⊢
      cases U with
      | nil => cases fuel <;> rfl
      | cons a U2 =>
        have hb := hU a rfl
        have hval : getValue heap a.1 = some a.2 := hc.2.1
        cases fuel <;> simp [addWalk, headId, hval, hb]
  | b :: E, rev, fuel, hht, hbe, hc, hf => by
      have hbb : before desc b.2 v = true := hbe b (List.mem_cons_self _ _)
      have hbh : height heap b.1 ≤ t + 1 := hht b (List.mem_cons_self _ _)
      have hht2 : ∀ c ∈ E, height heap c.1 ≤ t + 1 := fun c hc2 =>
        hht c (List.mem_cons_of_mem _ hc2)
      have hbe2 : ∀ c ∈ E, before desc c.2 v = true := fun c hc2 =>
        hbe c (List.mem_cons_of_mem _ hc2)
      have erev : ((b :: E).map Prod.fst).reverse ++ rev
          = (E.map Prod.fst).reverse ++ (b.1 :: rev) := by
        simp
      rw [erev]
      by_cases c : t < height heap b.1
      · have hfil : (b :: E).filter (fun a => decide (t < height heap a.1))
            = b :: E.filter (fun a => decide (t < height heap a.1)) := by
          simp [c]
        rw [hfil] at hc ⊢
        rw [List.cons_append] at hc ⊢
        have hval : getValue heap b.1 = some b.2 := hc.2.1
        obtain ⟨sp0, hsp⟩ := getNextSpan_of_getNext hc.1
        have hnx := chainFrom_getNext hc.2.2
        have hl : lastF (height heap) (b.1 :: rev) (t + 1) = b.1 := by
          rw [lastF, if_pos (by omega)]
        have hp : posF (height heap) (spanAt heap) (b.1 :: rev) (t + 1)
            = (posF (height heap) (spanAt heap) rev (t + 1) + sp0) % u32 := by
          have e1 : height heap b.1 = t + 1 := by omega
          rw [posF, if_pos (by omega), e1, landF_eq, Nat.add_sub_cancel, spanAt_of_some hsp]
        cases fuel with
        | zero => simp at hf
        | succ fuel =>
          have ih := addWalk_pos U hU E (b.1 :: rev) fuel hht2 hbe2
            (by rw [hl]; exact hc.2.2) (by simpa using hf)
          rw [hl, hp] at ih
          simp only [headId, addWalk, hval, Option.some_bind, hbb, if_true, hsp, hnx]
          exact ih
      · have hfil : (b :: E).filter (fun a => decide (t < height heap a.1))
            = E.filter (fun a => decide (t < height heap a.1)) := by
          simp [c]
        rw [hfil] at hc ⊢
        have hl : lastF (height heap) (b.1 :: rev) (t + 1)
            = lastF (height heap) rev (t + 1) := by
          rw [lastF, if_neg (by omega)]
        have hp : posF (height heap) (spanAt heap) (b.1 :: rev) (t + 1)
            = posF (height heap) (spanAt heap) rev (t + 1) := by
          rw [posF, if_neg (by omega)]
        have ih := addWalk_pos U hU E (b.1 :: rev) fuel hht2 hbe2
          (by rw [hl]; exact hc) (by simp at hf; omega)
        rw [hl, hp] at ih
        exact ih

theorem split_tall (ht : Nat → Nat) (g : Nat) :
    ∀ (E : List (Nat × Int)), ∃ E1 E2, E = E1 ++ E2 ∧ (∀ b ∈ E2, ht b.1 < g) ∧
      (E1 = [] ∨ ∃ E0 a, E1 = E0 ++ [a] ∧ g ≤ ht a.1)
  | [] => ⟨[], [], rfl, by simp, Or.inl rfl⟩
  | b :: E => by
      obtain ⟨E1, E2, e, h2, h1⟩ := split_tall ht g E
      rcases h1 with h1 | ⟨E0, a, h1, ha⟩
      · subst h1
        by_cases c : g ≤ ht b.1
        · exact ⟨[b], E, rfl, by rw [e]; exact h2, Or.inr ⟨[], b, rfl, c⟩⟩
        · refine ⟨[], b :: E, rfl, ?_, Or.inl rfl⟩
          intro x hx
          rcases List.mem_cons.1 hx with e2 | e2
          · subst e2
            omega
          · rw [e] at e2
            exact h2 x e2
      · exact ⟨b :: E1, E2, by rw [e]; rfl, h2, Or.inr ⟨b :: E0, a, by rw [h1]; rfl, ha⟩⟩

theorem chainFrom_drop {heap : List skipsetNode} {l : Nat} :
    ∀ {x : Nat} (A : List (Nat × Int)) {B : List (Nat × Int)},
      chainFrom heap l x (A ++ B) → chainFrom heap l (lastId x A) B
  | _, [], _, h => h
  | _, a :: A, _, h => chainFrom_drop (x := a.1) A h.2.2

theorem lastF_lastId (ht : Nat → Nat) (t : Nat) :
    ∀ (L : List (Nat × Int)) (rev : List Nat),
      lastF ht ((L.map Prod.fst).reverse ++ rev) (t + 1)
        = lastId (lastF ht rev (t + 1)) (L.filter (fun a => decide (t < ht a.1)))
  | [], rev => rfl
  | b :: L, rev => by
      have erev : ((b :: L).map Prod.fst).reverse ++ rev
          = (L.map Prod.fst).reverse ++ (b.1 :: rev) := by
        simp
      rw [erev, lastF_lastId ht t L (b.1 :: rev), lastF]
      by_cases c : t < ht b.1
      · have hfil : (b :: L).filter (fun a => decide (t < ht a.1))
            = b :: L.filter (fun a => decide (t < ht a.1)) := by
          simp [c]
        rw [hfil, if_pos (by omega)]
        rfl
      · have hfil : (b :: L).filter (fun a => decide (t < ht a.1))
            = L.filter (fun a => decide (t < ht a.1)) := by
          simp [c]
        rw [hfil, if_neg (by omega)]

/-- The descent of `Add` records, at every level, the shift of the captured predecessor
and the shift with which the search would arrive at its successor. -/
theorem addDescend_pos {s : SkipSet} {C : Nat → List (Nat × Int)} {v : Int} {fuel : Nat}
    (inv : Inv s C)
    (hht : ∀ t, C t = (C 0).filter (fun a => decide (t < height s.heap a.1)))
    (hf : (C 0).length ≤ fuel) (rlo : List Nat)
    (hrlo : rlo = ((lower s.desc v (C 0)).map Prod.fst).reverse) :
    ∀ (k : Nat) (loc : AddLocals) (sh : Nat) (loc2 : AddLocals), k ≤ maxLevel →
      loc.prevNodesShift.length = maxLevel → loc.nextNodesShift.length = maxLevel →
      addDescend s.heap s.desc v fuel k (lastF (height s.heap) rlo (k + 1))
          (posF (height s.heap) (spanAt s.heap) rlo (k + 1)) loc = some (some (sh, loc2)) →
      sh = posF (height s.heap) (spanAt s.heap) rlo 1 ∧
      (∀ t, t < k →
        loc2.prevNodesShift[t]? = some (posF (height s.heap) (spanAt s.heap) rlo (t + 1)) ∧
        loc2.nextNodesShift[t]? = some (landF (height s.heap) (spanAt s.heap) rlo (t + 1))) ∧
      (∀ t, k ≤ t → loc2.prevNodesShift[t]? = loc.prevNodesShift[t]? ∧
        loc2.nextNodesShift[t]? = loc.nextNodesShift[t]?)
  | 0, loc, sh, loc2, _, _, _, h => by
      simp only [addDescend, Option.some.injEq, Prod.mk.injEq] at h
      obtain ⟨e1, e2⟩ := h
      subst e2
      exact ⟨e1.symm, fun t ht => absurd ht (Nat.not_lt_zero t), fun t _ => ⟨rfl, rfl⟩⟩
  | i + 1, loc, sh, loc2, hk, hl1, hl2, h => by
      have hi : i < maxLevel := hk
      have hsplit : lower s.desc v (C 0) ++ upper s.desc v (C 0) = C 0 :=
        lower_append_upper inv.sorted
      obtain ⟨E1, E2, hE, hE2, hE1⟩ := split_tall (height s.heap) (i + 2) (lower s.desc v (C 0))
      have hrl : rlo = (E2.map Prod.fst).reverse ++ (E1.map Prod.fst).reverse := by
        rw [hrlo, hE]
        simp
      have hskip : ∀ c ∈ (E2.map Prod.fst).reverse, height s.heap c < i + 2 := by
        intro c hc
        rw [List.mem_reverse, List.mem_map] at hc
        obtain ⟨b, hb, e⟩ := hc
        rw [← e]
        exact hE2 b hb
      have hnode : lastF (height s.heap) rlo (i + 1 + 1)
          = lastF (height s.heap) ((E1.map Prod.fst).reverse) (i + 1) ∧
          posF (height s.heap) (spanAt s.heap) rlo (i + 1 + 1)
          = posF (height s.heap) (spanAt s.heap) ((E1.map Prod.fst).reverse) (i + 1) := by
        rw [hrl, lastF_append_skip _ _ _ _ hskip, posF_append_skip _ _ _ _ _ hskip]
        rcases hE1 with e | ⟨E0, a, e, ha⟩
        · subst e
          exact ⟨rfl, rfl⟩
        · subst e
          have er : ((E0 ++ [a]).map Prod.fst).reverse = a.1 :: (E0.map Prod.fst).reverse := by
            simp
          rw [er, lastF, lastF, posF, posF, if_pos ha, if_pos (by omega), if_pos ha,
            if_pos (by omega)]
          exact ⟨rfl, rfl⟩
      have hCi : C i = E1.filter (fun a => decide (i < height s.heap a.1)) ++
          (E2.filter (fun a => decide (i < height s.heap a.1)) ++
            (upper s.desc v (C 0)).filter (fun a => decide (i < height s.heap a.1))) := by
        rw [hht i]
        nth_rewrite 1 [← hsplit]
        rw [hE, List.filter_append, List.filter_append, List.append_assoc]
      have hch := inv.chain i hi
      rw [hCi] at hch
      have hch2 := chainFrom_drop _ hch
      have hl0 := lastF_lastId (height s.heap) i E1 []
      rw [List.append_nil] at hl0
      have hl00 : lastF (height s.heap) [] (i + 1) = 0 := rfl
      rw [hl00] at hl0
      rw [← hl0] at hch2
      have hU : ∀ a, ((upper s.desc v (C 0)).filter
          (fun a => decide (i < height s.heap a.1))).head? = some a →
          before s.desc a.2 v = false := by
        intro a ha
        have hm : a ∈ (upper s.desc v (C 0)).filter
            (fun a => decide (i < height s.heap a.1)) := List.mem_of_mem_head? ha
        exact (mem_upper.1 (List.mem_filter.1 hm).1).2
      have hlen : E2.length ≤ fuel := by
        have h1 : (lower s.desc v (C 0)).length ≤ (C 0).length := by
          unfold lower
          exact List.length_filter_le _ _
        rw [hE, List.length_append] at h1
        omega
      have hw := @addWalk_pos _ s.desc v _ _ hU E2 ((E1.map Prod.fst).reverse) fuel
        (fun b hb => by have := hE2 b hb; omega)
        (fun b hb => (mem_lower.1 (by rw [hE]; exact List.mem_append_right _ hb)).2)
        hch2 hlen
      rw [← hrl] at hw
      have hnx := chainFrom_getNext hch2
      rw [addDescend, hnode.1, hnode.2] at h
      simp only [hnx, Option.some_bind, hw, hi, if_true, Option.bind_eq_some] at h
      obtain ⟨sp0, hsp0, hrest⟩ := h
      have hland : (posF (height s.heap) (spanAt s.heap) rlo (i + 1) + sp0) % u32
          = landF (height s.heap) (spanAt s.heap) rlo (i + 1) := by
        rw [landF_eq, Nat.add_sub_cancel, spanAt_of_some hsp0]
      have fin : ∀ (loc1 : AddLocals),
          loc1 = { prevNodes := loc.prevNodes.set i
                      (some (lastF (height s.heap) rlo (i + 1))),
                   nextNodes := loc.nextNodes.set i (headId ((upper s.desc v (C 0)).filter
                      (fun a => decide (i < height s.heap a.1)))),
                   prevNodesShift := loc.prevNodesShift.set i
                      (posF (height s.heap) (spanAt s.heap) rlo (i + 1)),
                   nextNodesShift := loc.nextNodesShift.set i
                      ((posF (height s.heap) (spanAt s.heap) rlo (i + 1) + sp0) % u32) } →
          addDescend s.heap s.desc v fuel i (lastF (height s.heap) rlo (i + 1))
            (posF (height s.heap) (spanAt s.heap) rlo (i + 1)) loc1 = some (some (sh, loc2)) →
          sh = posF (height s.heap) (spanAt s.heap) rlo 1 ∧
          (∀ t, t < i + 1 →
            loc2.prevNodesShift[t]? = some (posF (height s.heap) (spanAt s.heap) rlo (t + 1)) ∧
            loc2.nextNodesShift[t]?
              = some (landF (height s.heap) (spanAt s.heap) rlo (t + 1))) ∧
          (∀ t, i + 1 ≤ t → loc2.prevNodesShift[t]? = loc.prevNodesShift[t]? ∧
            loc2.nextNodesShift[t]? = loc.nextNodesShift[t]?) := by
        intro loc1 e1 hd
        have hip : i < loc.prevNodesShift.length := by rw [hl1]; exact hi
        have hin : i < loc.nextNodesShift.length := by rw [hl2]; exact hi
        obtain ⟨hsh, hlow, hhigh⟩ := addDescend_pos inv hht hf rlo hrlo i loc1 sh loc2
          (Nat.le_of_lt hi) (by rw [e1]; simp [hl1]) (by rw [e1]; simp [hl2]) hd
        refine ⟨hsh, ?_, ?_⟩
        · intro t ht
          by_cases c : t < i
          · exact hlow t c
          · have e2 : t = i := by omega
            subst e2
            obtain ⟨fp, fn⟩ := hhigh t (Nat.le_refl t)
            refine ⟨?_, ?_⟩
            · rw [fp, e1]
              simp [List.getElem?_set, hip]
            · rw [fn, e1, ← hland]
              simp [List.getElem?_set, hin]
        · intro t ht
          obtain ⟨fp, fn⟩ := hhigh t (by omega)
          have c : ¬ i = t := by omega
          refine ⟨?_, ?_⟩
          · rw [fp, e1]
            simp [List.getElem?_set, c]
          · rw [fn, e1]
            simp [List.getElem?_set, c]
      cases hup : (upper s.desc v (C 0)).filter (fun a => decide (i < height s.heap a.1)) with
      | nil =>
        rw [hup] at hrest
        simp only [headId_nil] at hrest
        exact fin _ (by rw [hup]; rfl) hrest
      | cons a U =>
        rw [hup] at hrest
        simp only [headId_cons, Option.bind_eq_some] at hrest
        obtain ⟨nv, _, hr2⟩ := hrest
        by_cases c : nv = v
        · simp [c] at hr2
        · simp only [c, if_false] at hr2
          exact fin _ (by rw [hup]; rfl) hr2

theorem lastF_congr {ht1 ht2 : Nat → Nat} :
    ∀ (rev : List Nat) (g : Nat), (∀ x ∈ rev, ht1 x = ht2 x) → lastF ht1 rev g = lastF ht2 rev g
  | [], _, _ => rfl
  | b :: rest, g, h => by
      rw [lastF, lastF, h b (List.mem_cons_self _ _),
        lastF_congr rest g (fun x hx => h x (List.mem_cons_of_mem _ hx))]

theorem landF_congr {ht1 ht2 : Nat → Nat} {sp1 sp2 : Nat → Nat → Nat}
    (h0 : ∀ l, sp1 0 l = sp2 0 l) :
    ∀ (rev : List Nat) (g : Nat), (∀ x ∈ rev, ht1 x = ht2 x ∧ ∀ l, sp1 x l = sp2 x l) →
      landF ht1 sp1 rev g = landF ht2 sp2 rev g
  | [], g, _ => by rw [landF, landF, h0]
  | b :: rest, g, h => by
      have hb := h b (List.mem_cons_self _ _)
      have hr : ∀ x ∈ rest, ht1 x = ht2 x ∧ ∀ l, sp1 x l = sp2 x l :=
        fun x hx => h x (List.mem_cons_of_mem _ hx)
      rw [landF, landF, hb.1, hb.2, landF_congr h0 rest g hr, landF_congr h0 rest (ht2 b) hr]

theorem posF_congr {ht1 ht2 : Nat → Nat} {sp1 sp2 : Nat → Nat → Nat}
    (h0 : ∀ l, sp1 0 l = sp2 0 l) :
    ∀ (rev : List Nat) (g : Nat), (∀ x ∈ rev, ht1 x = ht2 x ∧ ∀ l, sp1 x l = sp2 x l) →
      posF ht1 sp1 rev g = posF ht2 sp2 rev g
  | [], _, _ => rfl
  | b :: rest, g, h => by
      have hb := h b (List.mem_cons_self _ _)
      have hr : ∀ x ∈ rest, ht1 x = ht2 x ∧ ∀ l, sp1 x l = sp2 x l :=
        fun x hx => h x (List.mem_cons_of_mem _ hx)
      rw [posF, posF, hb.1, posF_congr h0 rest g hr, landF_congr h0 rest (ht2 b) hr]

theorem lower_filter (desc : Bool) (v : Int) (p : Nat × Int → Bool) (S : List (Nat × Int)) :
    lower desc v (S.filter p) = (lower desc v S).filter p := by
  unfold lower
  rw [List.filter_filter, List.filter_filter]
  congr 1
  funext a
  exact Bool.and_comm _ _

theorem upper_filter (desc : Bool) (v : Int) (p : Nat × Int → Bool) (S : List (Nat × Int)) :
    upper desc v (S.filter p) = (upper desc v S).filter p := by
  unfold upper
  rw [List.filter_filter, List.filter_filter]
  congr 1
  funext a
  exact Bool.and_comm _ _

/-- The predecessor captured at level `t` is the last node before `v` of height above
`t`. -/
theorem Pos.prev_eq {s : SkipSet} {C : Nat → List (Nat × Int)} {B : Nat} (P : Pos s C B)
    (v : Int) (t : Nat) :
    lastId 0 (lower s.desc v (C t))
      = lastF (height s.heap) (((lower s.desc v (C 0)).map Prod.fst).reverse) (t + 1) := by
  have h := lastF_lastId (height s.heap) t (lower s.desc v (C 0)) []
  rw [List.append_nil] at h
  rw [h, P.ht t, lower_filter]
  rfl

/-- Heights of the nodes after the insertion. -/
theorem add_heights {heap lkh h1 h2 h3 : List skipsetNode} {loc2 : AddLocals}
    {newLevel shift2 H : Nat} {v : Int}
    (hlock : lockPass loc2 newLevel 0 heap (-1) = some (lkh, false))
    (hs1 : splice loc2 lkh.length shift2 newLevel 0
      (lkh ++ [{ newSkipsetNode newLevel with value := v }]) = some h1)
    (hs2 : incrAbove loc2 newLevel (H - newLevel) newLevel h1 = some h2)
    (hs3 : unlockPass loc2 newLevel h2 (-1) = some h3) (x : Nat) :
    height h3 x =
      if x < heap.length then height heap x else if x = heap.length then newLevel else 0 := by
  have hlen : lkh.length = heap.length :=
    (lockPass_sameLinks loc2 newLevel 0 heap (-1) _ hlock).1
  rw [unlockPass_height loc2 newLevel h2 (-1) h3 hs3, incrAbove_height loc2 newLevel _ _ h1 h2 hs2,
    splice_height loc2 _ _ newLevel 0 _ h1 hs1, height_append, hlen,
    lockPass_height loc2 newLevel 0 heap (-1) _ hlock]
  simp [newSkipsetNode]

theorem spanAt_congr {h1 h2 : List skipsetNode} {x l : Nat}
    (h : getNextSpan h1 x l = getNextSpan h2 x l) : spanAt h1 x l = spanAt h2 x l := by
  unfold spanAt
  rw [h]

/-- Stored spans after the insertion, in terms of the arrays captured by the search. -/
theorem add_spans {heap lkh h1 h2 h3 : List skipsetNode} {loc2 : AddLocals}
    {newLevel shift2 H : Nat} {v : Int}
    (hlock : lockPass loc2 newLevel 0 heap (-1) = some (lkh, false))
    (hs1 : splice loc2 lkh.length shift2 newLevel 0
      (lkh ++ [{ newSkipsetNode newLevel with value := v }]) = some h1)
    (hs2 : incrAbove loc2 newLevel (H - newLevel) newLevel h1 = some h2)
    (hs3 : unlockPass loc2 newLevel h2 (-1) = some h3) (x t : Nat) :
    spanAt h3 x t % u32 =
      ((if t < newLevel then
          (if loc2.prevNodes[t]? = some (some x) then
             (shift2 + u32 - (loc2.prevNodesShift[t]?).getD 0) % u32
           else if x = heap.length then
             ((loc2.nextNodesShift[t]?).getD 0 + 1 + u32 - shift2) % u32
           else spanAt heap x t)
        else if x = heap.length then 0 else spanAt heap x t)
       + (if t = newLevel then incrCount loc2 (H - newLevel) newLevel x else 0)) % u32 := by
  have hlen : lkh.length = heap.length :=
    (lockPass_sameLinks loc2 newLevel 0 heap (-1) _ hlock).1
  have e3 : spanAt h3 x t = spanAt h2 x t :=
    spanAt_congr (unlockPass_span loc2 newLevel h2 (-1) h3 hs3 x t)
  have e2 := incrAbove_span loc2 newLevel _ _ h1 h2 hs2 x t
  have e1 := splice_span loc2 lkh.length shift2 newLevel 0 _ h1 hs1 x t
  have e0 : spanAt (lkh ++ [{ newSkipsetNode newLevel with value := v }]) x t
      = if x = heap.length then 0 else spanAt heap x t := by
    unfold spanAt
    rw [getNextSpan_append, hlen]
    by_cases c : x < heap.length
    · have c2 : ¬ x = heap.length := by omega
      rw [if_pos c, if_neg c2, lockPass_span loc2 newLevel 0 heap (-1) _ hlock]
    · rw [if_neg c]
      by_cases c2 : x = heap.length
      · rw [if_pos c2, if_pos c2]
        simp only [newSkipsetNode, List.getElem?_replicate]
        by_cases c3 : t < newLevel <;> simp [c3]
      · rw [if_neg c2, if_neg c2]
        have : getNextSpan heap x t = none := by
          unfold getNextSpan
          rw [List.getElem?_eq_none (by omega)]
          rfl
        rw [this]
  rw [e3, e2]
  congr 2
  unfold spanAt at e0 ⊢
  rw [e1, hlen]
  by_cases c : t < newLevel
  · have c2 : 0 ≤ t ∧ t < 0 + newLevel := by omega
    rw [if_pos c2, if_pos c]
    by_cases c3 : loc2.prevNodes[t]? = some (some x)
    · rw [if_pos c3, if_pos c3]
      rfl
    · rw [if_neg c3, if_neg c3]
      by_cases c4 : x = heap.length
      · rw [if_pos c4, if_pos c4]
        rfl
      · rw [if_neg c4, if_neg c4, e0, if_neg c4]
  · have c2 : ¬ (0 ≤ t ∧ t < 0 + newLevel) := by omega
    rw [if_neg c2, if_neg c, e0]

theorem lastF_all_skip (ht : Nat → Nat) (g : Nat) (rev : List Nat)
    (h : ∀ c ∈ rev, ht c < g) : lastF ht rev g = 0 := by
  have := lastF_append_skip ht g rev [] h
  rw [List.append_nil] at this
  rw [this]
  rfl

theorem posF_all_skip (ht : Nat → Nat) (sp : Nat → Nat → Nat) (g : Nat) (rev : List Nat)
    (h : ∀ c ∈ rev, ht c < g) : posF ht sp rev g = 0 := by
  have := posF_append_skip ht sp g rev [] h
  rw [List.append_nil] at this
  rw [this]
  rfl

theorem Pos.height_bounds {s : SkipSet} {C : Nat → List (Nat × Int)} {B : Nat} (inv : Inv s C)
    (P : Pos s C B) : ∀ a ∈ C 0, 1 ≤ height s.heap a.1 ∧ height s.heap a.1 ≤ s.highestLevel := by
  intro a ha
  constructor
  · have h0 := P.ht 0
    have hm : a ∈ (C 0).filter (fun a => decide (0 < height s.heap a.1)) := by
      rw [← h0]
      exact ha
    have := (List.mem_filter.1 hm).2
    simpa using this
  · have hH := P.ht s.highestLevel
    rw [inv.top s.highestLevel (Nat.le_refl _)] at hH
    have := List.filter_eq_nil_iff.1 hH.symm a ha
    simpa using this

/-- An insertion keeps the positions of all nodes between 1 and a bound that grows by
at most 16. -/
theorem pos_insert {s : SkipSet} {C : Nat → List (Nat × Int)} {v : Int}
    {newLevel shift fuel B : Nat} {loc loc2 : AddLocals} {lkh h1 h2 h3 : List skipsetNode}
    (inv : Inv s C) (P : Pos s C B) (hnl : 1 ≤ newLevel) (hle : newLevel ≤ s.highestLevel)
    (hcap : Captured s.desc v C s.highestLevel loc2) (hf : (C 0).length ≤ fuel)
    (hl1 : loc.prevNodesShift.length = maxLevel) (hl2 : loc.nextNodesShift.length = maxLevel)
    (hdesc : addDescend s.heap s.desc v fuel s.highestLevel 0 0 loc = some (some (shift, loc2)))
    (hlock : lockPass loc2 newLevel 0 s.heap (-1) = some (lkh, false))
    (hs1 : splice loc2 lkh.length ((shift + 1) % u32) newLevel 0
      (lkh ++ [{ newSkipsetNode newLevel with value := v }]) = some h1)
    (hs2 : incrAbove loc2 newLevel (s.highestLevel - newLevel) newLevel h1 = some h2)
    (hs3 : unlockPass loc2 newLevel h2 (-1) = some h3) (hB : B + 16 < u32) :
    Pos { s with heap := h3 }
      (fun l => if l < newLevel then ins s.desc s.heap.length v (C l) else C l) (B + 16) := by
  have hb := P.height_bounds inv
  have hids : ∀ a ∈ C 0, 0 < a.1 ∧ a.1 < s.heap.length := inv.pos
  have hlo : ∀ x ∈ ((lower s.desc v (C 0)).map Prod.fst).reverse,
      ∃ a ∈ C 0, a.1 = x ∧ before s.desc a.2 v = true := by
    intro x hx
    rw [List.mem_reverse, List.mem_map] at hx
    obtain ⟨a, ha, e⟩ := hx
    exact ⟨a, (mem_lower.1 ha).1, e, (mem_lower.1 ha).2⟩
  have hup : ∀ x ∈ ((upper s.desc v (C 0)).map Prod.fst).reverse,
      ∃ a ∈ C 0, a.1 = x ∧ before s.desc a.2 v = false := by
    intro x hx
    rw [List.mem_reverse, List.mem_map] at hx
    obtain ⟨a, ha, e⟩ := hx
    exact ⟨a, (mem_upper.1 ha).1, e, (mem_upper.1 ha).2⟩
  -- the search
  have hskip : ∀ c ∈ ((lower s.desc v (C 0)).map Prod.fst).reverse,
      height s.heap c < s.highestLevel + 1 := by
    intro c hc
    obtain ⟨a, ha, e, _⟩ := hlo c hc
    have := (hb a ha).2
    rw [e] at this
    omega
  have hd := addDescend_pos inv P.ht hf _ rfl s.highestLevel loc shift loc2 inv.level_le hl1 hl2
    (by rw [lastF_all_skip _ _ _ hskip, posF_all_skip _ _ _ _ hskip]; exact hdesc)
  obtain ⟨hsh, harr, _⟩ := hd
  -- heights
  have Hh := add_heights hlock hs1 hs2 hs3
  have Hs := add_spans hlock hs1 hs2 hs3
  have hpos0 : 0 < s.heap.length := getValue_lt inv.head_value
  have hold : ∀ x, x < s.heap.length → height h3 x = height s.heap x := by
    intro x hx
    rw [Hh x, if_pos hx]
  have hnewh : height h3 s.heap.length = newLevel := by
    rw [Hh, if_neg (Nat.lt_irrefl _), if_pos rfl]
  have hH16 : s.highestLevel ≤ 16 := inv.level_le
  have hlolt : ∀ x ∈ ((lower s.desc v (C 0)).map Prod.fst).reverse,
      0 < x ∧ x < s.heap.length := by
    intro x hx
    obtain ⟨a, ha, e, _⟩ := hlo x hx
    rw [← e]
    exact hids a ha
  have huplt : ∀ x ∈ ((upper s.desc v (C 0)).map Prod.fst).reverse,
      0 < x ∧ x < s.heap.length := by
    intro x hx
    obtain ⟨a, ha, e, _⟩ := hup x hx
    rw [← e]
    exact hids a ha
  have cg : ∀ (rest : List Nat) (g : Nat), (∀ x ∈ rest, x < s.heap.length) →
      landF (height h3) (spanAt s.heap) rest g = landF (height s.heap) (spanAt s.heap) rest g :=
    fun rest g h => landF_congr (fun _ => rfl) rest g (fun x hx => ⟨hold x (h x hx), fun _ => rfl⟩)
  have eL : ∀ g, lastF (height h3) (((lower s.desc v (C 0)).map Prod.fst).reverse) g
      = lastF (height s.heap) (((lower s.desc v (C 0)).map Prod.fst).reverse) g :=
    fun g => lastF_congr _ g (fun x hx => hold x (hlolt x hx).2)
  have eP : ∀ g, posF (height h3) (spanAt s.heap) (((lower s.desc v (C 0)).map Prod.fst).reverse) g
      = posF (height s.heap) (spanAt s.heap) (((lower s.desc v (C 0)).map Prod.fst).reverse) g :=
    fun g => posF_congr (fun _ => rfl) _ g (fun x hx => ⟨hold x (hlolt x hx).2, fun _ => rfl⟩)
  have eLa := fun g => cg (((lower s.desc v (C 0)).map Prod.fst).reverse) g
    (fun x hx => (hlolt x hx).2)
  have hprev : ∀ t, t < s.highestLevel → loc2.prevNodes[t]?
      = some (some (lastF (height h3) (((lower s.desc v (C 0)).map Prod.fst).reverse) (t + 1))) := by
    intro t ht
    rw [(hcap t ht).1, P.prev_eq v t, eL]
  have hlastlt : ∀ g, lastF (height h3) (((lower s.desc v (C 0)).map Prod.fst).reverse) g
      < s.heap.length := by
    intro g
    rcases lastF_cases (height h3) (((lower s.desc v (C 0)).map Prod.fst).reverse) g with
      ⟨e, _⟩ | ⟨hm, _⟩
    · rw [e]
      exact hpos0
    · exact (hlolt _ hm).2
  have R : SpanRel (height h3) (spanAt s.heap) (spanAt h3) s.heap.length newLevel 15
      ((shift + 1) % u32) (((lower s.desc v (C 0)).map Prod.fst).reverse) := by
    refine ⟨?_, ?_, ?_, ?_, hnewh, Nat.mod_lt _ (by decide), ?_, ?_, ?_⟩
    · rw [List.nodup_reverse]
      have hnd := (List.nodup_cons.1 (inv.ids_nodup 0)).2
      exact List.Nodup.sublist (List.Sublist.map _ (List.filter_sublist _)) hnd
    · intro h0
      have := (hlolt 0 h0).1
      omega
    · intro h0
      have := (hlolt _ h0).2
      omega
    · omega
    · intro x t hx hun
      have hs := Hs x t
      refine ⟨if t = newLevel then incrCount loc2 (s.highestLevel - newLevel) newLevel x else 0,
        ?_, ?_, ?_, ?_⟩
      · rw [hs]
        by_cases c : t < newLevel
        · have hne : ¬ loc2.prevNodes[t]? = some (some x) := by
            rw [hprev t (by omega)]
            intro e
            simp only [Option.some.injEq] at e
            exact hun ⟨c, e.symm⟩
          rw [if_pos c, if_neg hne, if_neg hx]
        · rw [if_neg c, if_neg hx]
      · split
        · have := incrCount_le loc2 (s.highestLevel - newLevel) newLevel x
          omega
        · omega
      · intro hc
        by_cases c : t = newLevel
        · rw [if_pos c] at hc
          obtain ⟨j, h1, h2, h3⟩ := incrCount_pos loc2 _ _ _ hc
          refine ⟨c, j, h1, ?_⟩
          rw [hprev j (by omega)] at h3
          simp only [Option.some.injEq] at h3
          exact h3.symm
        · rw [if_neg c] at hc
          exact absurd rfl hc
      · intro hc
        by_cases c : t = newLevel
        · rw [if_pos c] at hc
          obtain ⟨j, h1, h2, h3⟩ := incrCount_two loc2 _ _ _ hc
          refine ⟨j, h1, ?_⟩
          rw [hprev j (by omega)] at h3
          simp only [Option.some.injEq] at h3
          exact h3.symm
        · rw [if_neg c] at hc
          omega
    · intro t ht
      have hs := Hs (lastF (height h3) (((lower s.desc v (C 0)).map Prod.fst).reverse) (t + 1)) t
      have hne : ¬ t = newLevel := by omega
      rw [if_pos ht, if_pos (hprev t (by omega)), if_neg hne, (harr t (by omega)).1] at hs
      rw [hs, eP]
      simp only [Option.getD_some, Nat.add_zero, Nat.mod_mod]
    · intro t ht
      have hs := Hs s.heap.length t
      have hne : ¬ t = newLevel := by omega
      have hnp : ¬ loc2.prevNodes[t]? = some (some s.heap.length) := by
        rw [hprev t (by omega)]
        intro e
        simp only [Option.some.injEq] at e
        have := hlastlt (t + 1)
        omega
      rw [if_pos ht, if_neg hnp, if_pos rfl, if_neg hne, (harr t (by omega)).2] at hs
      rw [hs, eLa]
      simp only [Option.getD_some, Nat.add_zero, Nat.mod_mod]
  have hsplit : lower s.desc v (C 0) ++ upper s.desc v (C 0) = C 0 :=
    lower_append_upper inv.sorted
  have hfc : ∀ (t : Nat) (L : List (Nat × Int)), (∀ a ∈ L, a ∈ C 0) →
      L.filter (fun a => decide (t < height h3 a.1))
        = L.filter (fun a => decide (t < height s.heap a.1)) := by
    intro t L hL
    apply List.filter_congr
    intro a ha
    rw [hold a.1 (hids a (hL a ha)).2]
  have hC0 : (if 0 < newLevel then ins s.desc s.heap.length v (C 0) else C 0)
      = lower s.desc v (C 0) ++ (s.heap.length, v) :: upper s.desc v (C 0) := by
    have h0 : 0 < newLevel := hnl
    rw [if_pos h0]
    rfl
  refine ⟨?_, ?_⟩
  · intro t
    show (if t < newLevel then ins s.desc s.heap.length v (C t) else C t)
      = (if 0 < newLevel then ins s.desc s.heap.length v (C 0) else C 0).filter
          (fun a => decide (t < height h3 a.1))
    rw [hC0]
    rw [List.filter_append, List.filter_cons,
      hfc t _ (fun a ha => (mem_lower.1 ha).1), hfc t _ (fun a ha => (mem_upper.1 ha).1)]
    show _ = _ ++ (if decide (t < height h3 s.heap.length) = true then _ else _)
    rw [hnewh]
    by_cases c : t < newLevel
    · rw [if_pos c, if_pos (by simpa using c)]
      unfold ins
      rw [P.ht t, lower_filter, upper_filter]
    · rw [if_neg c, if_neg (by simpa using c), ← List.filter_append, hsplit]
      exact P.ht t
  · intro pre a rest e
    have erev : ((lower s.desc v (C 0) ++ (s.heap.length, v) :: upper s.desc v (C 0)).map
        Prod.fst).reverse
        = ((upper s.desc v (C 0)).map Prod.fst).reverse ++
          s.heap.length :: ((lower s.desc v (C 0)).map Prod.fst).reverse := by
      simp
    have eold : ((C 0).map Prod.fst).reverse
        = ((upper s.desc v (C 0)).map Prod.fst).reverse ++
          ((lower s.desc v (C 0)).map Prod.fst).reverse := by
      nth_rewrite 1 [← hsplit]
      simp
    have e : ((if 0 < newLevel then ins s.desc s.heap.length v (C 0) else C 0).map
        Prod.fst).reverse = pre ++ a :: rest := e
    rw [hC0, erev] at e
    show 1 ≤ landF (height h3) (spanAt h3) rest (height h3 a) ∧
      landF (height h3) (spanAt h3) rest (height h3 a) ≤ B + 16
    have hupp : ∀ y ∈ ((upper s.desc v (C 0)).map Prod.fst).reverse,
        y ≠ s.heap.length ∧ y ∉ ((lower s.desc v (C 0)).map Prod.fst).reverse ∧ y ≠ 0 := by
      intro y hy
      have hlt := huplt y hy
      refine ⟨by omega, ?_, by omega⟩
      intro hy2
      obtain ⟨a1, ha1, e1, hb1⟩ := hup y hy
      obtain ⟨a2, ha2, e2, hb2⟩ := hlo y hy2
      have v1 := inv.value_of_mem (l := 0) ha1
      have v2 := inv.value_of_mem (l := 0) ha2
      rw [e1] at v1
      rw [e2, v1] at v2
      have e3 : a1.2 = a2.2 := by simpa using v2
      rw [e3, hb2] at hb1
      exact Bool.noConfusion hb1
    have hposs : ∀ y ∈ ((upper s.desc v (C 0)).map Prod.fst).reverse ++
        ((lower s.desc v (C 0)).map Prod.fst).reverse, 1 ≤ height h3 y := by
      intro y hy
      rcases List.mem_append.1 hy with h | h
      · obtain ⟨a1, ha1, e1, _⟩ := hup y h
        rw [hold y (huplt y h).2, ← e1]
        exact (hb a1 ha1).1
      · obtain ⟨a1, ha1, e1, _⟩ := hlo y h
        rw [hold y (hlolt y h).2, ← e1]
        exact (hb a1 ha1).1
    have hallLt : ∀ y ∈ ((upper s.desc v (C 0)).map Prod.fst).reverse ++
        ((lower s.desc v (C 0)).map Prod.fst).reverse, y < s.heap.length := by
      intro y hy
      rcases List.mem_append.1 hy with h | h
      · exact (huplt y h).2
      · exact (hlolt y h).2
    have hold2 : ∀ pre a rest, ((upper s.desc v (C 0)).map Prod.fst).reverse ++
        ((lower s.desc v (C 0)).map Prod.fst).reverse = pre ++ a :: rest →
        1 ≤ landF (height h3) (spanAt s.heap) rest (height h3 a) ∧
          landF (height h3) (spanAt s.heap) rest (height h3 a) ≤ B := by
      intro pre a rest e2
      have ha : a < s.heap.length := hallLt a (by rw [e2]; simp)
      have hr : ∀ x ∈ rest, x < s.heap.length :=
        fun x hx => hallLt x (by rw [e2]; simp [hx])
      rw [cg rest _ hr, hold a ha]
      exact P.bound pre a rest (by rw [eold]; exact e2)
    have hshift : (shift + 1) % u32
        = (posF (height h3) (spanAt s.heap) (((lower s.desc v (C 0)).map Prod.fst).reverse) 1
            + 1) % u32 := by
      rw [eP, hsh]
    exact R.bound hnl hupp hposs hshift (by omega) hold2 pre a rest e

theorem Pos.of_same {s : SkipSet} {C : Nat → List (Nat × Int)} {B : Nat} (P : Pos s C B)
    {h2 : List skipsetNode} (hs : ∀ m k, getNextSpan h2 m k = getNextSpan s.heap m k)
    (hh : ∀ m, height h2 m = height s.heap m) : Pos { s with heap := h2 } C B := by
  have e1 : height h2 = height s.heap := funext hh
  have e2 : spanAt h2 = spanAt s.heap :=
    funext (fun m => funext (fun k => spanAt_congr (hs m k)))
  refine ⟨?_, ?_⟩
  · intro t
    show C t = (C 0).filter (fun a => decide (t < height h2 a.1))
    rw [e1]
    exact P.ht t
  · intro pre a rest e
    show 1 ≤ landF (height h2) (spanAt h2) rest (height h2 a) ∧
      landF (height h2) (spanAt h2) rest (height h2 a) ≤ B
    rw [e1, e2]
    exact P.bound pre a rest e

theorem Pos.mono {s : SkipSet} {C : Nat → List (Nat × Int)} {B B2 : Nat} (P : Pos s C B)
    (h : B ≤ B2) : Pos s C B2 :=
  ⟨P.ht, fun pre a rest e => ⟨(P.bound pre a rest e).1, Nat.le_trans (P.bound pre a rest e).2 h⟩⟩

theorem Pos.of_promote {s : SkipSet} {C : Nat → List (Nat × Int)} {B : Nat} (P : Pos s C B)
    (h : Nat) : Pos (promote s h) C B := by
  unfold skipset.promote
  by_cases c : s.highestLevel ≥ h
  · rw [if_pos c]
    exact P
  · rw [if_neg c]
    exact ⟨P.ht, P.bound⟩

theorem pos_new (desc : Bool) : Pos (NewSkipSet desc) (fun _ => []) 0 := by
  refine ⟨fun _ => rfl, ?_⟩
  intro pre a rest e
  simp at e

theorem addDescend_shift_len {heap : List skipsetNode} {desc : Bool} {v : Int} {fuel : Nat} :
    ∀ (k node shift : Nat) (loc : AddLocals) (sh : Nat) (loc2 : AddLocals),
      addDescend heap desc v fuel k node shift loc = some (some (sh, loc2)) →
      loc2.prevNodesShift.length = loc.prevNodesShift.length ∧
        loc2.nextNodesShift.length = loc.nextNodesShift.length
  | 0, _, _, loc, sh, loc2, h => by
      simp only [addDescend, Option.some.injEq, Prod.mk.injEq] at h
      obtain ⟨_, e⟩ := h
      subst e
      exact ⟨rfl, rfl⟩
  | i + 1, node, shift, loc, sh, loc2, h => by
      rw [addDescend] at h
      simp only [Option.bind_eq_some] at h
      obtain ⟨next0, _, r, _, hrest⟩ := h
      by_cases c : i < maxLevel
      · simp only [c, if_true, Option.bind_eq_some] at hrest
        obtain ⟨sp, _, hrest⟩ := hrest
        have fin : ∀ loc1 : AddLocals,
            loc1.prevNodesShift.length = loc.prevNodesShift.length →
            loc1.nextNodesShift.length = loc.nextNodesShift.length →
            addDescend heap desc v fuel i r.1 r.2.2 loc1 = some (some (sh, loc2)) →
            loc2.prevNodesShift.length = loc.prevNodesShift.length ∧
              loc2.nextNodesShift.length = loc.nextNodesShift.length := by
          intro loc1 e1 e2 hd
          obtain ⟨f1, f2⟩ := addDescend_shift_len i r.1 r.2.2 loc1 sh loc2 hd
          exact ⟨f1.trans e1, f2.trans e2⟩
        cases hnx : r.2.1 with
        | none =>
          rw [hnx] at hrest
          exact fin _ (by simp) (by simp) hrest
        | some nx =>
          rw [hnx] at hrest
          simp only [Option.bind_eq_some] at hrest
          obtain ⟨nv, _, hr2⟩ := hrest
          by_cases c2 : nv = v
          · simp [c2] at hr2
          · simp only [c2, if_false] at hr2
            exact fin _ (by simp) (by simp) hr2
      · simp [c] at hrest

/-- The retry loop of `Add`, when it inserts, keeps the positions of all nodes between 1
and a bound that grows by at most 16. -/
theorem addLoop_pos {C : Nat → List (Nat × Int)} {v : Int} {newLevel fuel B : Nat}
    (hnl : 1 ≤ newLevel) (hB : B + 16 < u32) :
    ∀ (tries : Nat) (s : SkipSet) (loc : AddLocals), Inv s C → Pos s C B →
      newLevel ≤ s.highestLevel → LocLen loc →
      loc.prevNodesShift.length = maxLevel → loc.nextNodesShift.length = maxLevel →
      ∀ (s2 : SkipSet), addLoop v newLevel fuel tries s loc = some (true, s2) →
      Pos s2 (fun l => if l < newLevel then ins s.desc s.heap.length v (C l) else C l) (B + 16)
  | 0, _, _, _, _, _, _, _, _, _, h => by simp [addLoop] at h
  | tries + 1, s, loc, inv, P, hle, hlen, hl1, hl2, s2, h => by
      rw [addLoop] at h
      simp only [Option.bind_eq_some] at h
      obtain ⟨d, hd, hrest⟩ := h
      obtain ⟨r, hr, _, hsome⟩ :=
        addDescend_total (v := v) inv (Nat.le_max_right fuel (C 0).length) s.highestLevel 0 0 loc
          inv.level_le hlen (Or.inl rfl)
      rw [inv.head_eq] at hd
      have hd2 := addDescend_mono (Nat.le_max_left fuel (C 0).length) _ _ _ _ _ hd
      have hdr : r = d := by
        rw [hr] at hd2
        simpa using hd2
      subst hdr
      cases r with
      | none =>
        simp only [Option.some.injEq, Prod.mk.injEq] at hrest
        exact absurd hrest.1 (by decide)
      | some p =>
        obtain ⟨shift, loc2⟩ := p
        obtain ⟨hlen2, hcap, _⟩ := hsome shift loc2 rfl
        obtain ⟨hl3, hl4⟩ := addDescend_shift_len _ _ _ _ _ _ hd
        simp only [Option.bind_eq_some] at hrest
        obtain ⟨lk, hlk, hbr⟩ := hrest
        have slk := lockPass_sameLinks loc2 newLevel 0 s.heap (-1) lk hlk
        by_cases c : lk.2 = true
        · simp only [c, if_true, Option.bind_eq_some] at hbr
          obtain ⟨hu, hun, hrec⟩ := hbr
          have su := unlockPass_sameLinks loc2 newLevel lk.1 (-1) hu hun
          have sl := slk.trans su
          have P2 : Pos { s with heap := hu } C B :=
            P.of_same
              (fun m k => by
                rw [unlockPass_span loc2 newLevel lk.1 (-1) hu hun,
                  lockPass_span loc2 newLevel 0 s.heap (-1) lk hlk])
              (fun m => by
                rw [unlockPass_height loc2 newLevel lk.1 (-1) hu hun,
                  lockPass_height loc2 newLevel 0 s.heap (-1) lk hlk])
          have ih := addLoop_pos hnl hB tries { s with heap := hu } loc2 (inv.sameLinks sl) P2 hle
            hlen2 (hl3.trans hl1) (hl4.trans hl2) s2 hrec
          have e : ({ s with heap := hu } : SkipSet).heap.length = s.heap.length := sl.1
          rw [e] at ih
          exact ih
        · simp only [c, Bool.false_eq_true, if_false, Option.bind_eq_some, Option.some.injEq,
            Prod.mk.injEq] at hbr
          obtain ⟨h1, hs1, h2, hs2, h3, hs3, _, hres⟩ := hbr
          subst hres
          have hlk2 : lockPass loc2 newLevel 0 s.heap (-1) = some (lk.1, false) := by
            rw [hlk]
            have : lk.2 = false := by simpa using c
            rw [← this]
          exact pos_insert inv P hnl hle hcap (Nat.le_max_right fuel (C 0).length) hl1 hl2 hd2
            hlk2 hs1 hs2 hs3 hB

/-- Every `Add` that returns keeps the positions of all nodes between 1 and a bound that
grows by at most 16. -/
theorem Add_pos {s s2 : SkipSet} {C : Nat → List (Nat × Int)} {v : Int} {fuel B : Nat}
    {draws : List Nat} {b : Bool} (inv : Inv s C) (P : Pos s C B)
    (hh : ∃ h, drawLevel draws 1 = some h ∧ 1 ≤ h ∧ h ≤ maxLevel) (hB : B + 16 < u32)
    (h : Add s fuel draws v = some (b, s2)) :
    ∃ C2, Inv s2 C2 ∧ Pos s2 C2 (B + 16) := by
  obtain ⟨lvl, hl, h1, h16⟩ := hh
  unfold Add randomLevel at h
  rw [hl] at h
  simp only [Option.map_some', Option.some_bind] at h
  rcases addLoop_spec h1 (fuel + 1) (promote s lvl) AddLocals.init (inv.promote h16)
      (promote_level s lvl) locLen_init b s2 h with
    ⟨_, hs, _⟩ | ⟨hb, _, hinv, _⟩
  · subst hs
    exact ⟨C, inv.promote h16, (P.of_promote lvl).mono (Nat.le_add_right _ _)⟩
  · subst hb
    exact ⟨_, hinv, addLoop_pos h1 hB (fuel + 1) (promote s lvl) AddLocals.init
      (inv.promote h16) (P.of_promote lvl) (promote_level s lvl) locLen_init rfl rfl s2 h⟩

/-- Every state produced by a run of `Add` calls keeps the positions of all nodes between
1 and 16 times the number of calls. -/
theorem addAll_pos {fuel : Nat} :
    ∀ (calls : List (List Nat × Int)) (s : SkipSet) (C : Nat → List (Nat × Int))
      (res : List Bool) (s2 : SkipSet) (B : Nat), Inv s C → Pos s C B → heightsOK calls →
      B + 16 * calls.length < u32 → addAll fuel s calls = some (res, s2) →
      ∃ C2, Inv s2 C2 ∧ Pos s2 C2 (B + 16 * calls.length)
  | [], s, C, res, s2, B, inv, P, _, _, h => by
      simp only [addAll, Option.some.injEq, Prod.mk.injEq] at h
      obtain ⟨_, e⟩ := h
      subst e
      exact ⟨C, inv, P.mono (Nat.le_add_right _ _)⟩
  | c :: cs, s, C, res, s2, B, inv, P, hh, hB, h => by
      simp only [addAll, Option.bind_eq_some, Option.map_eq_some'] at h
      obtain ⟨r, hr, rs, hrs, e⟩ := h
      have hc := heightOK_iff (hh c (List.mem_cons_self _ _))
      have hh2 : heightsOK cs := fun c2 h2 => hh c2 (List.mem_cons_of_mem _ h2)
      obtain ⟨b, s1⟩ := r
      obtain ⟨res2, s3⟩ := rs
      simp only [Prod.mk.injEq] at e
      obtain ⟨_, e2⟩ := e
      subst e2
      rw [List.length_cons] at hB ⊢
      obtain ⟨C1, inv1, P1⟩ := Add_pos inv P hc (by omega) hr
      obtain ⟨C2, inv2, P2⟩ := addAll_pos cs s1 C1 res2 s3 (B + 16) inv1 P1 hh2 (by omega) hrs
      exact ⟨C2, inv2, P2.mono (by omega)⟩

/-- With positions of at least 1, the link of the head at the tallest level in use has
no successor or a stored span other than 0. -/
theorem Pos.head_span {s : SkipSet} {C : Nat → List (Nat × Int)} {B : Nat} (inv : Inv s C)
    (P : Pos s C B) :
    getNext s.heap s.head (s.highestLevel - 1) = some none ∨
      getNextSpan s.heap s.head (s.highestLevel - 1) ≠ some 0 := by
  rw [inv.head_eq]
  cases hk : s.highestLevel with
  | zero =>
    left
    have h0 := chainFrom_getNext (inv.chain 0 (by decide))
    rw [inv.top 0 (by omega)] at h0
    exact h0
  | succ k =>
    rw [Nat.add_sub_cancel]
    have hk2 : k < maxLevel := by
      have := inv.level_le
      omega
    have hy := chainFrom_getNext (inv.chain k hk2)
    cases hC : C k with
    | nil =>
      left
      rw [hC] at hy
      exact hy
    | cons y rest =>
      right
      have hfil := P.ht k
      rw [hC] at hfil
      obtain ⟨L, R, e0, hL, hy2, _⟩ := List.filter_eq_cons_iff.1 hfil.symm
      have hyC : y ∈ C 0 := by rw [e0]; simp
      have hht : height s.heap y.1 = k + 1 := by
        have h1 := (P.height_bounds inv y hyC).2
        have h2 : k < height s.heap y.1 := by simpa using hy2
        omega
      have hb := (P.bound ((R.map Prod.fst).reverse) y.1 ((L.map Prod.fst).reverse)
        (by rw [e0]; simp)).1
      have hskip : ∀ c ∈ (L.map Prod.fst).reverse, height s.heap c < k + 1 := by
        intro c hc
        rw [List.mem_reverse, List.mem_map] at hc
        obtain ⟨a, ha, e⟩ := hc
        have := hL a ha
        rw [← e]
        simp only [decide_eq_true_eq] at this
        omega
      have hl := landF_append_skip (height s.heap) (spanAt s.heap) (k + 1) _ [] hskip
      rw [List.append_nil] at hl
      rw [hht, hl, landF, Nat.add_sub_cancel] at hb
      intro e
      rw [spanAt_of_some e] at hb
      exact absurd hb (by decide)

/-- C10, as stated, fails on both sides of the range. Above: after Add(1) and Add(3) on
an ascending set, `Index(5)` (rank 5 is outside `[0, 2)`) returns 3, the value of the last
node. Below: after adding 1, 2, ..., 2 ^ 32 - 1 in this order with height 1 and then
2 ^ 32 with height 2 (all calls return true), the search of the last call has added up
2 ^ 32 - 1 spans, `shift += 1` wraps the `uint32` to 0, the head gets the stored span 0
at level 1, and `Index(-1)` steps over that link and returns 2 ^ 32. -/
theorem Index_outside_range_counterexample :
    addAll 4 (NewSkipSet false) smallCalls = some ([true, true], stateAfter false 4 smallCalls) ∧
      Index (stateAfter false 4 smallCalls) 4 5 = some 3 ∧
      ¬ (Index (stateAfter false 4 smallCalls) 4 5 = some 0) ∧
      heightsOK (ascCalls (2 ^ 32 - 1) ++ [(drawsFor 2, 2 ^ 32)]) ∧
      addAll (2 ^ 32) (NewSkipSet false) (ascCalls (2 ^ 32 - 1) ++ [(drawsFor 2, 2 ^ 32)])
        = some (List.replicate (2 ^ 32 - 1) true ++ [true], wrapState) ∧
      getNext wrapState.heap wrapState.head 1 = some (some (2 ^ 32)) ∧
      getNextSpan wrapState.heap wrapState.head 1 = some 0 ∧
      (∀ fuel : Nat, Index wrapState (fuel + 1) (-1) = some (2 ^ 32)) ∧
      ¬ (Index wrapState 1 (-1) = some 0) := by
  have hc : (2 ^ 32 - 1 : Nat) = wrapCount + 1 := by
    unfold wrapCount
    norm_num
  have hv : (2 ^ 32 : Int) = ((wrapCount + 2 : Nat) : Int) := by
    unfold wrapCount
    norm_num
  have hk : wrapCount + 2 = u32 := by
    unfold wrapCount u32
    norm_num
  have hf : wrapCount + 1 ≤ 2 ^ 32 := by
    unfold wrapCount
    norm_num
  have hn : (2 ^ 32 : Nat) = wrapCount + 2 := by
    unfold wrapCount
    norm_num
  have hI : ∀ fuel : Nat, Index wrapState (fuel + 1) (-1) = some (2 ^ 32) := by
    intro fuel
    rw [hv]
    exact wrap_Index wrapCount fuel
  refine ⟨by rfl, by rfl, by decide, ?_, ?_, ?_, (wrap_head_link wrapCount).2, hI, ?_⟩
  · intro c hc2
    rw [List.mem_append] at hc2
    rcases hc2 with h | h
    · unfold ascCalls at h
      rw [List.mem_map] at h
      obtain ⟨j, _, e⟩ := h
      rw [← e]
      rfl
    · rw [List.mem_singleton] at h
      rw [h]
      rfl
  · rw [hc, hv, addAll_append, asc_run (2 ^ 32) wrapCount hf, Option.some_bind]
    have e1 : addAll (2 ^ 32) (ascState wrapCount) [(drawsFor 2, ((wrapCount + 2 : Nat) : Int))]
        = (Add (ascState wrapCount) (2 ^ 32) (drawsFor 2) ((wrapCount + 2 : Nat) : Int)).bind
            (fun r => (addAll (2 ^ 32) r.2 []).map (fun rs => (r.1 :: rs.1, rs.2))) := rfl
    rw [e1, wrap_Add wrapCount (2 ^ 32) hk hf]
    simp only [Option.some_bind, addAll, Option.map_some']
    rfl
  · rw [hn]
    exact (wrap_head_link wrapCount).1
  · rw [hI 0]
    intro h
    have h2 := Option.some.inj h
    norm_num at h2

/-- C10, amended: after a run of `Add` calls with heights in 1..16 that returned,
`Index(i)` returns the zero value of the head sentinel for every rank `i ≤ -2`, for
every rank when no call was made, and for rank -1 when fewer than 2 ^ 28 calls were made
or the link of the head at the tallest level in use has no successor or a stored span
other than 0, whatever the loop budget. -/
theorem Index_below_range (desc : Bool) (fuel : Nat) (calls : List (List Nat × Int))
    (res : List Bool) (s : SkipSet)
    (hret : addAll fuel (NewSkipSet desc) calls = some (res, s)) (hh : heightsOK calls)
    (i : Int)
    (hi : i ≤ -2 ∨ calls = [] ∨
      (i = -1 ∧ (calls.length < 2 ^ 28 ∨
        getNext s.heap s.head (s.highestLevel - 1) = some none ∨
        getNextSpan s.heap s.head (s.highestLevel - 1) ≠ some 0)))
    (fuel2 : Nat) : Index s fuel2 i = some 0 := by
  rcases hi with hi | hi | ⟨hi, hlen | hs⟩
  · obtain ⟨C, inv, _⟩ := reach_inv hh hret
    exact Index_neg inv hi fuel2
  · subst hi
    simp only [addAll, Option.some.injEq, Prod.mk.injEq] at hret
    obtain ⟨_, e⟩ := hret
    subst e
    rfl
  · have hB : 0 + 16 * calls.length < u32 := by
      unfold u32
      omega
    obtain ⟨C, inv, P⟩ := addAll_pos calls (NewSkipSet desc) (fun _ => []) res s 0
      (inv_new desc) (pos_new desc) hh hB hret
    rw [hi]
    exact Index_minus_one inv (P.head_span inv) fuel2
  · obtain ⟨C, inv, _⟩ := reach_inv hh hret
    rw [hi]
    exact Index_minus_one inv hs fuel2

theorem Index_below_range_witness :
    Index (stateAfter false 8 testCalls) 0 (-2) = some 0 ∧
      Index (NewSkipSet true) 0 3 = some 0 ∧
      Index (stateAfter false 8 testCalls) 0 (-1) = some 0 ∧
      Index (stateAfter true 8 testCalls) 3 (-1) = some 0 :=
  ⟨Index_below_range false 8 testCalls (List.replicate 6 true) (stateAfter false 8 testCalls)
      (by rfl) (by unfold heightsOK; decide) (-2) (Or.inl (by decide)) 0,
   Index_below_range true 0 [] [] (NewSkipSet true) (by rfl) (by unfold heightsOK; decide) 3
      (Or.inr (Or.inl rfl)) 0,
   Index_below_range false 8 testCalls (List.replicate 6 true) (stateAfter false 8 testCalls)
      (by rfl) (by unfold heightsOK; decide) (-1)
      (Or.inr (Or.inr ⟨rfl, Or.inl (by decide)⟩)) 0,
   Index_below_range true 8 testCalls (List.replicate 6 true) (stateAfter true 8 testCalls)
      (by rfl) (by unfold heightsOK; decide) (-1)
      (Or.inr (Or.inr ⟨rfl, Or.inr (Or.inr (by decide))⟩)) 3⟩

/-- C13: the height returned by `randomLevel` must stay within 1..16. Sixteen draws
below the threshold followed by one at the threshold make it return 17, and the call of
`Add` that drew it does not return for any loop budget: it indexes level 16 of the head
sentinel, which has the 16 levels 0..15. -/
theorem randomLevel_exceeds_maxLevel :
    drawLevel longDraws 1 = some 17 ∧
      (randomLevel (NewSkipSet false) longDraws).map Prod.fst = some 17 ∧
      getNext (NewSkipSet false).heap 0 16 = none ∧
      ∀ (fuel : Nat) (v : Int), Add (NewSkipSet false) fuel longDraws v = none := by
  refine ⟨by rfl, by rfl, by rfl, fun fuel v => ?_⟩
  have hl : drawLevel longDraws 1 = some 17 := by rfl
  unfold Add randomLevel
  rw [hl]
  simp only [Option.map_some', Option.some_bind]
  rw [addLoop]
  have hd : addDescend (promote (NewSkipSet false) 17).heap (promote (NewSkipSet false) 17).desc
      v fuel (promote (NewSkipSet false) 17).highestLevel (promote (NewSkipSet false) 17).head 0
      AddLocals.init = none := by
    show addDescend (promote (NewSkipSet false) 17).heap (promote (NewSkipSet false) 17).desc
      v fuel (16 + 1) 0 0 AddLocals.init = none
    rw [addDescend]
    rfl
  rw [hd]
  rfl

/-- C14: the stored span of a link must be at least 1 and equal the number of level-0
steps it skips. After Add(10) with height 3 and Add(5) with height 1 the head points to
the node holding 10 (node 1) at levels 1 and 2, two level-0 steps away, with stored
spans 3 and 1; after Add(1), Add(4), Add(2), Add(3) with heights 1, 3, 1, 4 the node
holding 3 (node 4) points to the node holding 4 (node 2) at level 2 with stored span 0. -/
theorem span_differs_from_distance :
    steps0 (stateAfter false 4 rankCalls).heap 1 4 0 = some 2 ∧
      getNext (stateAfter false 4 rankCalls).heap 0 1 = some (some 1) ∧
      getNextSpan (stateAfter false 4 rankCalls).heap 0 1 = some 3 ∧
      getNext (stateAfter false 4 rankCalls).heap 0 2 = some (some 1) ∧
      getNextSpan (stateAfter false 4 rankCalls).heap 0 2 = some 1 ∧
      steps0 (stateAfter false 8 faultCalls).heap 2 4 4 = some 1 ∧
      getNext (stateAfter false 8 faultCalls).heap 4 2 = some (some 2) ∧
      getNextSpan (stateAfter false 8 faultCalls).heap 4 2 = some 0 := by
  refine ⟨by rfl, by rfl, by rfl, by rfl, by rfl, by rfl, by rfl, by rfl⟩

/-- C15: inserting a node of height `h` must add exactly one to the span of the captured
predecessor at every level `i` with `h ≤ i < H` that has a successor. With the set
holding 10 at height 3 (`H` = 3), Add(5) with height 1 has the head as predecessor at
levels 1 and 2, both with the node holding 10 as successor and span 1 before the call;
after the call the level-1 span is 3 and the level-2 span is still 1. -/
theorem span_above_new_node :
    getNextSpan (stateAfter false 4 tenCall).heap 0 1 = some 1 ∧
      getNextSpan (stateAfter false 4 tenCall).heap 0 2 = some 1 ∧
      getNext (stateAfter false 4 tenCall).heap 0 1 = some (some 1) ∧
      getNext (stateAfter false 4 tenCall).heap 0 2 = some (some 1) ∧
      Add (stateAfter false 4 tenCall) 4 (drawsFor 1) 5
        = some (true, stateAfter false 4 rankCalls) ∧
      getNextSpan (stateAfter false 4 rankCalls).heap 0 1 = some 3 ∧
      getNextSpan (stateAfter false 4 rankCalls).heap 0 2 = some 1 := by
  refine ⟨by rfl, by rfl, by rfl, by rfl, by rfl, by rfl, by rfl⟩

/-- C17: an `Add` that inserts must lock every distinct predecessor, modify only nodes it
holds and unlock only nodes it holds. In the state reached by `faultCalls`, Add(5) with
height 4 captures node 2 as predecessor of levels 0..2 and node 4 as predecessor of
level 3; its lock pass holds the mutex of node 2 only, its splice loop redirects the
level-3 pointer of node 4 to the new node 5, and its unlock pass starts with `Unlock` on
node 4, which faults. -/
theorem fifth_call_breaks_lock_discipline :
    (addDescend (promote (stateAfter false 8 faultCalls) 4).heap false 5 8 4 0 0
        AddLocals.init).bind (fun d => d.bind (fun p =>
          (lockPass p.2 4 0 (promote (stateAfter false 8 faultCalls) 4).heap (-1)).bind
            (fun lk =>
              (splice p.2 lk.1.length ((p.1 + 1) % u32) 4 0
                (lk.1 ++ [{ newSkipsetNode 4 with value := 5 }])).map (fun h1 =>
                  (p.2.prevNodes.take 4, lk.2, lk.1.map (fun nd => nd.mutex),
                    getNext lk.1 4 3, getNext h1 4 3, unlock lk.1 4,
                    unlockPass p.2 4 h1 (-1))))))
      = some ([some 2, some 2, some 2, some 4], false, [false, false, true, false, false],
          some none, some (some 5), none, none) := by
  rfl

/-- C18: when re-validation fails, the release pass must unlock exactly the nodes locked
so far. A first caller of Add(5) with height 2 on the set holding 1 captures node 1 as
predecessor of level 0 and the head as predecessor of level 1; a second caller then
completes Add(3). The lock pass of the first caller locks node 1, sees its successor
changed at level 0 and stops; the release pass runs from level 1 down and starts with
`Unlock` on the head, which was never locked: it faults. -/
theorem retry_release_unlocks_head :
    retryCaptured.prevNodes.take 2 = [some 1, some 0] ∧
      retryCaptured.nextNodes.take 2 = [none, none] ∧
      getNext retryHeap 1 0 = some (some 2) ∧
      (lockPass retryCaptured 2 0 retryHeap (-1)).map
          (fun lk => (lk.2, lk.1.map (fun nd => nd.mutex), unlock lk.1 0,
            unlockPass retryCaptured 2 lk.1 (-1)))
        = some (true, [false, true, false], none, none) := by
  refine ⟨by rfl, by rfl, by rfl, by rfl⟩

/-! ## The chains seen from the head -/

theorem levelChain_of_chain {heap : List skipsetNode} {l : Nat} :
    ∀ (S : List (Nat × Int)) (fuel x : Nat), chainFrom heap l x S → S.length ≤ fuel →
      levelChain heap l fuel (headId S) = some S
  | [], fuel, _, _, _ => by cases fuel <;> rfl
  | a :: S, 0, _, _, hf => by simp at hf
  | a :: S, fuel + 1, x, hc, hf => by
      have ih := levelChain_of_chain S fuel a.1 hc.2.2 (by simpa using hf)
      simp only [headId_cons, levelChain, hc.2.1, Option.some_bind, chainFrom_getNext hc.2.2, ih,
        Option.map_some']

theorem reachableAt_of_inv {s : SkipSet} {C : Nat → List (Nat × Int)} (inv : Inv s C)
    {fuel l : Nat} (hl : l < maxLevel) (hf : (C 0).length ≤ fuel) :
    reachableAt s fuel l = some (C l) := by
  unfold reachableAt
  rw [inv.head_eq, chainFrom_getNext (inv.chain l hl)]
  simp only [Option.some_bind]
  exact levelChain_of_chain (C l) fuel 0 (inv.chain l hl)
    (Nat.le_trans (inv.sub_zero l).length_le hf)

theorem Inv.sub_le {s : SkipSet} {C : Nat → List (Nat × Int)} (inv : Inv s C) (k : Nat) :
    ∀ d, (C (k + d)).Sublist (C k)
  | 0 => List.Sublist.refl _
  | d + 1 => (inv.sub (k + d)).trans (Inv.sub_le inv k d)

theorem Inv.values_nodup {s : SkipSet} {C : Nat → List (Nat × Int)} (inv : Inv s C) (l : Nat) :
    ((C l).map Prod.snd).Nodup := by
  unfold List.Nodup
  rw [List.pairwise_map]
  apply List.Pairwise.imp _ (inv.sorted_level l)
  intro a b hab e
  unfold ordered at hab
  rw [e, before_irrefl] at hab
  exact Bool.noConfusion hab

/-! ## The recorded tallest level -/

theorem addLoop_level {v : Int} {newLevel fuel : Nat} :
    ∀ (tries : Nat) (s : SkipSet) (loc : AddLocals) (b : Bool) (s2 : SkipSet),
      addLoop v newLevel fuel tries s loc = some (b, s2) →
      newLevel ≤ s.highestLevel →
      (∀ n l, 0 < n → s.highestLevel ≤ l → getNext s.heap n l = none) →
      s2.highestLevel = s.highestLevel ∧
        ∀ n l, 0 < n → s2.highestLevel ≤ l → getNext s2.heap n l = none
  | 0, _, _, _, _, h, _, _ => by simp [addLoop] at h
  | tries + 1, s, loc, b, s2, h, hle, hh => by
      rw [addLoop] at h
      simp only [Option.bind_eq_some] at h
      obtain ⟨d, _, hrest⟩ := h
      cases d with
      | none =>
        simp only [Option.some.injEq, Prod.mk.injEq] at hrest
        obtain ⟨_, e⟩ := hrest
        subst e
        exact ⟨rfl, hh⟩
      | some p =>
        obtain ⟨shift, loc2⟩ := p
        simp only [Option.bind_eq_some] at hrest
        obtain ⟨lk, hlk, hbr⟩ := hrest
        have slk := lockPass_sameLinks loc2 newLevel 0 s.heap (-1) lk hlk
        by_cases c : lk.2 = true
        · simp only [c, if_true, Option.bind_eq_some] at hbr
          obtain ⟨hu, hun, hrec⟩ := hbr
          have su := unlockPass_sameLinks loc2 newLevel lk.1 (-1) hu hun
          have sl := slk.trans su
          exact addLoop_level tries { s with heap := hu } loc2 b s2 hrec hle
            (fun n l hn hl => by
              show getNext hu n l = none
              rw [sl.2.2]
              exact hh n l hn hl)
        · simp only [c, Bool.false_eq_true, if_false, Option.bind_eq_some, Option.some.injEq,
            Prod.mk.injEq] at hbr
          obtain ⟨h1, hs1, h2, hs2, h3, hs3, _, hres⟩ := hbr
          have s13 : SameLinks h1 h3 :=
            (incrAbove_sameLinks loc2 newLevel _ _ h1 h2 hs2).trans
              (unlockPass_sameLinks loc2 newLevel h2 (-1) h3 hs3)
          obtain ⟨_, _, nx1⟩ := splice_spec loc2 lk.1.length _ newLevel 0 _ h1 hs1
          subst hres
          refine ⟨rfl, fun n l hn hl => ?_⟩
          have hl2 : s.highestLevel ≤ l := hl
          show getNext h3 n l = none
          rw [s13.2.2, nx1]
          have c1 : ¬ (0 ≤ l ∧ l < 0 + newLevel) := by omega
          rw [if_neg c1, getNext_append]
          by_cases c2 : n < lk.1.length
          · rw [if_pos c2, slk.2.2]
            exact hh n l hn hl2
          · rw [if_neg c2]
            by_cases c3 : n = lk.1.length
            · rw [if_pos c3, newNode_level, if_neg (by omega)]
            · rw [if_neg c3]

theorem promote_eq_max (s : SkipSet) (h : Nat) :
    (promote s h).highestLevel = max s.highestLevel h := by
  unfold promote
  by_cases c : s.highestLevel ≥ h
  · rw [if_pos c]
    exact (Nat.max_eq_left c).symm
  · rw [if_neg c]
    show h = max s.highestLevel h
    exact (Nat.max_eq_right (by omega)).symm

/-- Every `Add` that returns leaves `highestLevel` at the maximum of its old value and
the height drawn, and no node other than the head has more levels than that. -/
theorem Add_level {s s2 : SkipSet} {fuel : Nat} {draws : List Nat} {v : Int} {b : Bool}
    (h : Add s fuel draws v = some (b, s2))
    (hh : ∀ n l, 0 < n → s.highestLevel ≤ l → getNext s.heap n l = none) :
    (∃ lvl, drawLevel draws 1 = some lvl ∧ s2.highestLevel = max s.highestLevel lvl) ∧
      ∀ n l, 0 < n → s2.highestLevel ≤ l → getNext s2.heap n l = none := by
  unfold Add randomLevel at h
  cases hd : drawLevel draws 1 with
  | none => simp [hd] at h
  | some lvl =>
    rw [hd] at h
    simp only [Option.map_some', Option.some_bind] at h
    obtain ⟨pf1, _, _, _⟩ := promote_fields s lvl
    have hmax := promote_eq_max s lvl
    obtain ⟨e1, e2⟩ := addLoop_level (fuel + 1) (promote s lvl) AddLocals.init b s2 h
      (promote_level s lvl) (fun n l hn hl => by
        rw [pf1]
        apply hh n l hn
        rw [hmax] at hl
        exact Nat.le_trans (Nat.le_max_left _ _) hl)
    exact ⟨⟨lvl, rfl, e1.trans hmax⟩, e2⟩

theorem foldl_max_cons (a : Nat) (hs : List Nat) (h : Nat) :
    List.foldl max (max a h) hs = List.foldl max a (h :: hs) := rfl

theorem addAll_level {fuel : Nat} :
    ∀ (calls : List (List Nat × Int)) (s : SkipSet) (res : List Bool) (s2 : SkipSet),
      addAll fuel s calls = some (res, s2) →
      (∀ n l, 0 < n → s.highestLevel ≤ l → getNext s.heap n l = none) →
      s2.highestLevel = (drawnHeights calls).foldl max s.highestLevel ∧
        ∀ n l, 0 < n → s2.highestLevel ≤ l → getNext s2.heap n l = none
  | [], s, res, s2, h, hh => by
      simp only [addAll, Option.some.injEq, Prod.mk.injEq] at h
      obtain ⟨_, e⟩ := h
      subst e
      exact ⟨rfl, hh⟩
  | c :: cs, s, res, s2, h, hh => by
      simp only [addAll, Option.bind_eq_some, Option.map_eq_some'] at h
      obtain ⟨r, hr, rs, hrs, e⟩ := h
      obtain ⟨b, s1⟩ := r
      obtain ⟨res2, s3⟩ := rs
      simp only [Prod.mk.injEq] at e
      obtain ⟨_, e2⟩ := e
      subst e2
      obtain ⟨⟨lvl, hl, hm⟩, hh1⟩ := Add_level hr hh
      obtain ⟨e3, hh3⟩ := addAll_level cs s1 res2 s3 hrs hh1
      refine ⟨?_, hh3⟩
      rw [e3, hm]
      unfold drawnHeights
      simp only [List.filterMap_cons, hl, List.foldl_cons]

theorem levels_le_of_getNext {heap : List skipsetNode} {n l : Nat} {nd : skipsetNode}
    (hn : heap[n]? = some nd) (h : getNext heap n l = none) : nd.levels.length ≤ l := by
  unfold getNext at h
  rw [hn] at h
  simp only [Option.some_bind, Option.map_eq_none'] at h
  by_contra hc
  have hlt : l < nd.levels.length := by omega
  rw [List.getElem?_eq_getElem hlt] at h
  exact Option.noConfusion h

theorem new_heights (desc : Bool) :
    ∀ n l, 0 < n → (NewSkipSet desc).highestLevel ≤ l →
      getNext (NewSkipSet desc).heap n l = none := by
  intro n l hn _
  unfold getNext NewSkipSet
  have : ([newSkipsetNode maxLevel] : List skipsetNode)[n]? = none := by
    apply List.getElem?_eq_none
    simp
    omega
  rw [this]
  rfl

/-! ## The threshold of the height draw -/

theorem threshold_eq : threshold = 2 ^ 29 - 1 := by
  unfold threshold
  norm_num

theorem continuing_eq : continuing = Finset.range threshold := by
  unfold continuing
  ext d
  simp only [Finset.mem_filter, Finset.mem_range]
  constructor
  · exact fun h => h.2
  · intro h
    refine ⟨?_, h⟩
    rw [threshold_eq] at h
    omega

/-- C16: after a run of `Add` calls (either flag, heights in 1..16) that returned, at
every level of the head the nodes reachable from the head are strictly ordered per the
flag, hold pairwise different values, and form a sub-sequence of the chain of every
level below, the level-0 chain included. -/
theorem chains_ordered (desc : Bool) (fuel : Nat) (calls : List (List Nat × Int))
    (res : List Bool) (s : SkipSet)
    (hret : addAll fuel (NewSkipSet desc) calls = some (res, s)) (hh : heightsOK calls)
    (fuel2 : Nat) (hf : calls.length ≤ fuel2) (l : Nat) (hl : l < maxLevel) :
    ∃ c, reachableAt s fuel2 l = some c ∧
      c.Pairwise (fun a b => before desc a.2 b.2 = true) ∧
      (c.map Prod.snd).Nodup ∧ (c.map Prod.fst).Nodup ∧
      ∀ k, k ≤ l → ∃ ck, reachableAt s fuel2 k = some ck ∧ c.Sublist ck := by
  obtain ⟨C, inv, hdesc, _, _, hlen⟩ := reach_inv hh hret
  have hf2 : (C 0).length ≤ fuel2 := Nat.le_trans hlen hf
  refine ⟨C l, reachableAt_of_inv inv hl hf2, ?_, inv.values_nodup l, ?_, ?_⟩
  · have := inv.sorted_level l
    rw [hdesc] at this
    exact this
  · exact (List.nodup_cons.1 (inv.ids_nodup l)).2
  · intro k hk
    refine ⟨C k, reachableAt_of_inv inv (Nat.lt_of_le_of_lt hk hl) hf2, ?_⟩
    obtain ⟨d, rfl⟩ := Nat.exists_eq_add_of_le hk
    exact inv.sub_le k d

theorem chains_ordered_witness :
    ∃ c, reachableAt (stateAfter true 8 testCalls) 6 1 = some c ∧
      c.Pairwise (fun a b => before true a.2 b.2 = true) ∧
      (c.map Prod.snd).Nodup ∧ (c.map Prod.fst).Nodup ∧
      ∀ k, k ≤ 1 → ∃ ck, reachableAt (stateAfter true 8 testCalls) 6 k = some ck ∧
        c.Sublist ck :=
  chains_ordered true 8 testCalls (List.replicate 6 true) (stateAfter true 8 testCalls)
    (by rfl) (by unfold heightsOK; decide) 6 (by decide) 1 (by decide)

/-- C19: after a run of `Add` calls that returned, `highestLevel` is the largest height
drawn so far and no node other than the head has more levels; a further `Add` that
returns, inserting or not, leaves it at the maximum of its value and the height drawn,
so it never decreases. -/
theorem highestLevel_max_drawn (desc : Bool) (fuel : Nat) (calls : List (List Nat × Int))
    (res : List Bool) (s : SkipSet)
    (hret : addAll fuel (NewSkipSet desc) calls = some (res, s)) :
    s.highestLevel = maxHeight (drawnHeights calls) ∧
      (∀ n nd, 0 < n → s.heap[n]? = some nd → nd.levels.length ≤ s.highestLevel) ∧
      ∀ (fuel2 : Nat) (draws : List Nat) (v : Int) (b : Bool) (s2 : SkipSet),
        Add s fuel2 draws v = some (b, s2) →
        ∃ h, drawLevel draws 1 = some h ∧ s2.highestLevel = max s.highestLevel h ∧
          s.highestLevel ≤ s2.highestLevel := by
  obtain ⟨e, hh⟩ := addAll_level calls _ res s hret (new_heights desc)
  refine ⟨e, ?_, ?_⟩
  · intro n nd hn hnd
    exact levels_le_of_getNext hnd (hh n s.highestLevel hn (Nat.le_refl _))
  · intro fuel2 draws v b s2 hadd
    obtain ⟨⟨h, hd, hm⟩, _⟩ := Add_level hadd hh
    exact ⟨h, hd, hm, by rw [hm]; exact Nat.le_max_left _ _⟩

theorem highestLevel_max_drawn_witness :
    (stateAfter false 8 testCalls).highestLevel = 3 ∧
      (∀ n nd, 0 < n → (stateAfter false 8 testCalls).heap[n]? = some nd →
        nd.levels.length ≤ (stateAfter false 8 testCalls).highestLevel) ∧
      ∀ (fuel2 : Nat) (draws : List Nat) (v : Int) (b : Bool) (s2 : SkipSet),
        Add (stateAfter false 8 testCalls) fuel2 draws v = some (b, s2) →
        ∃ h, drawLevel draws 1 = some h ∧
          s2.highestLevel = max (stateAfter false 8 testCalls).highestLevel h ∧
          (stateAfter false 8 testCalls).highestLevel ≤ s2.highestLevel :=
  highestLevel_max_drawn false 8 testCalls (List.replicate 6 true) (stateAfter false 8 testCalls)
    (by rfl)

/-- C20, as stated, fails: the draws of 31 bits below the threshold of `randomLevel`
number `2 ^ 29 - 1`, less than half of `2 ^ 30`. -/
theorem continuing_not_half :
    continuing.card = 2 ^ 29 - 1 ∧ 2 * continuing.card < 2 ^ 30 := by
  rw [continuing_eq, Finset.card_range, threshold_eq]
  norm_num

/-- C20, amended: of the `2 ^ 31` values of a 31-bit draw, exactly those below
`threshold = math.MaxInt32 / 4` make the first loop of `randomLevel` increment the
height, and there are `2 ^ 29 - 1` of them: the draw continues with probability
roughly one quarter. -/
theorem continuing_quarter :
    (∀ d, d ∈ continuing ↔ d < 2 ^ 31 ∧ d < threshold) ∧
      (∀ (d : Nat) (ds : List Nat) (level : Nat), drawLevel (d :: ds) level =
        if d < threshold then drawLevel ds ((level + 1) % u32) else some level) ∧
      continuing.card = 2 ^ 29 - 1 ∧ 4 * (continuing.card + 1) = 2 ^ 31 := by
  refine ⟨fun d => ?_, fun d ds level => rfl, ?_, ?_⟩
  · unfold continuing
    simp only [Finset.mem_filter, Finset.mem_range]
  · rw [continuing_eq, Finset.card_range, threshold_eq]
  · rw [continuing_eq, Finset.card_range, threshold_eq]
    norm_num

end skipset

namespace hashset

/-! ## Reading and writing maps of the arena -/

theorem keysOf_set_same {T : Type} {st : List (List T)} {r : Nat} (m : List T)
    (hr : r < st.length) : keysOf (st.set r m) (some r) = m := by
  unfold keysOf
  simp [List.getElem?_set, hr]

theorem keysOf_set_ne {T : Type} {st : List (List T)} {r : Nat} (m : List T)
    {h : Option Nat} (hne : h ≠ some r) : keysOf (st.set r m) h = keysOf st h := by
  unfold keysOf
  cases h with
  | none => rfl
  | some q =>
    have hq : ¬ r = q := fun e => hne (by rw [e])
    simp [List.getElem?_set, hq]

theorem assign_spec {T : Type} [DecidableEq T] {st : List (List T)} {r : Nat} (k : T)
    (hr : r < st.length) :
    assign st (some r) k = some (st.set r ((keysOf st (some r)).insert k)) := by
  unfold assign keysOf
  simp [List.getElem?_eq_getElem hr]

theorem assignAll_spec {T : Type} [DecidableEq T] {r : Nat} :
    ∀ (ks : List T) (st : List (List T)), r < st.length →
      assignAll (some r) st ks
        = some (st.set r (ks.foldl (fun m k => m.insert k) (keysOf st (some r))))
  | [], st, hr => by
      unfold assignAll
      simp only [List.foldl_nil]
      congr 1
      apply List.ext_getElem?
      intro i
      rw [List.getElem?_set]
      by_cases c : r = i
      · subst c
        simp [keysOf, hr]
      · simp [c]
  | k :: ks, st, hr => by
      unfold assignAll
      rw [assign_spec k hr]
      simp only [Option.some_bind]
      rw [assignAll_spec ks _ (by simpa using hr), keysOf_set_same _ hr]
      simp only [List.foldl_cons, List.set_set]

theorem mem_foldl_insert {T : Type} [DecidableEq T] (x : T) :
    ∀ (ks m : List T), x ∈ ks.foldl (fun m k => m.insert k) m ↔ x ∈ m ∨ x ∈ ks
  | [], m => by simp
  | k :: ks, m => by
      simp only [List.foldl_cons, mem_foldl_insert x ks, List.mem_insert_iff, List.mem_cons]
      tauto

theorem nodup_foldl_insert {T : Type} [DecidableEq T] :
    ∀ (ks m : List T), m.Nodup → (ks.foldl (fun m k => m.insert k) m).Nodup
  | [], _, h => h
  | k :: ks, m, h => by
      simp only [List.foldl_cons]
      exact nodup_foldl_insert ks _ (h.insert)

/-! ## `Merge` -/

theorem mergeLoop_spec {T : Type} [DecidableEq T] {r : Nat} :
    ∀ (others : List (Option Nat)) (st : List (List T)), r < st.length →
      ∃ st2, mergeLoop (some r) st others = some st2 ∧ st2.length = st.length ∧
        (∀ x, x ∈ keysOf st2 (some r) ↔
          x ∈ keysOf st (some r) ∨ ∃ o ∈ others, x ∈ keysOf st o) ∧
        ((keysOf st (some r)).Nodup → (keysOf st2 (some r)).Nodup) ∧
        ∀ h, h ≠ some r → keysOf st2 h = keysOf st h
  | [], st, _ => ⟨st, rfl, rfl, by simp, fun h => h, fun _ _ => rfl⟩
  | o :: os, st, hr => by
      have hlen1 : r < (st.set r ((keysOf st o).foldl (fun m k => m.insert k)
          (keysOf st (some r)))).length := by simpa using hr
      obtain ⟨st2, hm, hl, hmem, hnd, hfr⟩ := mergeLoop_spec os _ hlen1
      refine ⟨st2, ?_, ?_, ?_, ?_, ?_⟩
      · unfold mergeLoop
        rw [assignAll_spec _ _ hr]
        exact hm
      · rw [hl]
        simp
      · intro x
        rw [hmem x, keysOf_set_same _ hr, mem_foldl_insert]
        constructor
        · rintro ((h1 | h1) | ⟨o2, ho2, h1⟩)
          · exact Or.inl h1
          · exact Or.inr ⟨o, List.mem_cons_self _ _, h1⟩
          · by_cases c : o2 = some r
            · subst c
              rw [keysOf_set_same _ hr, mem_foldl_insert] at h1
              rcases h1 with h1 | h1
              · exact Or.inl h1
              · exact Or.inr ⟨o, List.mem_cons_self _ _, h1⟩
            · rw [keysOf_set_ne _ c] at h1
              exact Or.inr ⟨o2, List.mem_cons_of_mem _ ho2, h1⟩
        · rintro (h1 | ⟨o2, ho2, h1⟩)
          · exact Or.inl (Or.inl h1)
          · rcases List.mem_cons.1 ho2 with e | e
            · subst e
              exact Or.inl (Or.inr h1)
            · by_cases c : o2 = some r
              · subst c
                exact Or.inl (Or.inl h1)
              · right
                refine ⟨o2, e, ?_⟩
                rw [keysOf_set_ne _ c]
                exact h1
      · intro h0
        apply hnd
        rw [keysOf_set_same _ hr]
        exact nodup_foldl_insert _ _ h0
      · intro h hne
        rw [hfr h hne, keysOf_set_ne _ hne]

/-! ## `Intersection` -/

theorem keysOf_append_valid {T : Type} {st : List (List T)} (acc : List T) {h : Option Nat}
    (hv : Valid st h) : keysOf (st ++ [acc]) h = keysOf st h := by
  unfold keysOf
  cases h with
  | none => rfl
  | some q =>
    have hq : q < st.length := hv q rfl
    simp [List.getElem?_append_left hq]

theorem keysOf_append_new {T : Type} (st : List (List T)) (acc : List T) :
    keysOf (st ++ [acc]) (some st.length) = acc := by
  unfold keysOf
  simp

theorem set_append_new {T : Type} (st : List (List T)) (acc m : List T) :
    (st ++ [acc]).set st.length m = st ++ [m] := by
  apply List.ext_getElem?
  intro i
  rw [List.getElem?_set, List.getElem?_append, List.getElem?_append]
  by_cases c : st.length = i
  · subst c
    simp
  · by_cases c2 : i < st.length
    · simp [c, c2]
    · have : i - st.length ≠ 0 := by omega
      simp [c, c2]
      rw [List.getElem?_eq_none (by simp; omega), List.getElem?_eq_none (by simp; omega)]

theorem intersectLoop_spec {T : Type} [DecidableEq T] {st : List (List T)} {cmp : Option Nat}
    (hv : Valid st cmp) :
    ∀ (ks acc : List T), intersectLoop (some st.length) cmp (st ++ [acc]) ks
      = some (st ++ [ks.foldl (fun a k => if k ∈ keysOf st cmp then a.insert k else a) acc])
  | [], acc => rfl
  | k :: ks, acc => by
      unfold intersectLoop
      rw [keysOf_append_valid acc hv]
      by_cases c : k ∈ keysOf st cmp
      · rw [if_pos c, assign_spec k (by simp), keysOf_append_new, set_append_new]
        simp only [Option.some_bind, List.foldl_cons, if_pos c]
        exact intersectLoop_spec hv ks _
      · rw [if_neg c]
        simp only [List.foldl_cons, if_neg c]
        exact intersectLoop_spec hv ks acc

theorem mem_foldl_common {T : Type} [DecidableEq T] (x : T) (cs : List T) :
    ∀ (ks acc : List T),
      x ∈ ks.foldl (fun a k => if k ∈ cs then a.insert k else a) acc ↔
        x ∈ acc ∨ (x ∈ ks ∧ x ∈ cs)
  | [], acc => by simp
  | k :: ks, acc => by
      simp only [List.foldl_cons, mem_foldl_common x cs ks, List.mem_cons]
      by_cases c : k ∈ cs
      · simp only [if_pos c, List.mem_insert_iff]
        constructor
        · rintro ((h | h) | h)
          · subst h
            exact Or.inr ⟨Or.inl rfl, c⟩
          · exact Or.inl h
          · exact Or.inr ⟨Or.inr h.1, h.2⟩
        · rintro (h | ⟨h | h, h2⟩)
          · exact Or.inl (Or.inr h)
          · exact Or.inl (Or.inl h)
          · exact Or.inr ⟨h, h2⟩
      · simp only [if_neg c]
        constructor
        · rintro (h | h)
          · exact Or.inl h
          · exact Or.inr ⟨Or.inr h.1, h.2⟩
        · rintro (h | ⟨h | h, h2⟩)
          · exact Or.inl h
          · subst h
            exact absurd h2 c
          · exact Or.inr ⟨h, h2⟩

theorem nodup_foldl_common {T : Type} [DecidableEq T] (cs : List T) :
    ∀ (ks acc : List T), acc.Nodup →
      (ks.foldl (fun a k => if k ∈ cs then a.insert k else a) acc).Nodup
  | [], _, h => h
  | k :: ks, acc, h => by
      simp only [List.foldl_cons]
      by_cases c : k ∈ cs
      · simp only [if_pos c]
        exact nodup_foldl_common cs ks _ h.insert
      · simp only [if_neg c]
        exact nodup_foldl_common cs ks _ h

/-- The result of `Intersection` in terms of the arena. -/
theorem Intersection_eq {T : Type} [DecidableEq T] (st : List (List T)) (s other : Option Nat)
    (hs : Valid st s) (ho : Valid st other) :
    ∃ acc : List T, Intersection st s other = some (st ++ [acc], some st.length) ∧
      acc.Nodup ∧ ∀ x, x ∈ acc ↔ x ∈ keysOf st s ∧ x ∈ keysOf st other := by
  unfold Intersection NewHashSetWithSize
  by_cases c : Len st s > Len st other
  · simp only [if_pos c]
    rw [keysOf_append_valid [] ho, intersectLoop_spec hs]
    refine ⟨_, rfl, nodup_foldl_common _ _ _ List.nodup_nil, fun x => ?_⟩
    rw [mem_foldl_common]
    simp only [List.not_mem_nil, false_or]
    exact And.comm
  · simp only [if_neg c]
    rw [keysOf_append_valid [] hs, intersectLoop_spec ho]
    refine ⟨_, rfl, nodup_foldl_common _ _ _ List.nodup_nil, fun x => ?_⟩
    rw [mem_foldl_common]
    simp only [List.not_mem_nil, false_or]

/-! ## Claims -/

/-- C11: for sets `s` and `other` of the arena (nil included), `s.Intersection(other)`
returns a newly allocated set holding exactly the values that are in both, each once;
`other.Intersection(s)` returns a set with the same elements; and every set of the
arena, `s` and `other` among them, keeps its keys. -/
theorem Intersection_common {T : Type} [DecidableEq T] (st : List (List T))
    (s other : Option Nat) (hs : Valid st s) (ho : Valid st other) :
    ∃ st2 st3, Intersection st s other = some (st2, some st.length) ∧
      Intersection st other s = some (st3, some st.length) ∧
      ¬ Valid st (some st.length) ∧
      (∀ x, x ∈ keysOf st2 (some st.length) ↔ x ∈ keysOf st s ∧ x ∈ keysOf st other) ∧
      (∀ x, x ∈ keysOf st3 (some st.length) ↔ x ∈ keysOf st2 (some st.length)) ∧
      (keysOf st2 (some st.length)).Nodup ∧
      Len st2 (some st.length)
        = ((keysOf st s).toFinset ∩ (keysOf st other).toFinset).card ∧
      ∀ h, Valid st h → keysOf st2 h = keysOf st h := by
  obtain ⟨acc, e1, nd1, m1⟩ := Intersection_eq st s other hs ho
  obtain ⟨acc2, e2, _, m2⟩ := Intersection_eq st other s ho hs
  refine ⟨_, _, e1, e2, ?_, ?_, ?_, ?_, ?_, ?_⟩
  · intro h
    exact Nat.lt_irrefl _ (h st.length rfl)
  · intro x
    rw [keysOf_append_new]
    exact m1 x
  · intro x
    rw [keysOf_append_new, keysOf_append_new, m1 x, m2 x]
    exact And.comm
  · rw [keysOf_append_new]
    exact nd1
  · unfold Len
    rw [keysOf_append_new, ← List.toFinset_card_of_nodup nd1]
    congr 1
    ext x
    simp only [List.mem_toFinset, Finset.mem_inter]
    exact m1 x
  · intro h hv
    exact keysOf_append_valid acc hv

theorem Intersection_common_witness :
    (∃ st2 st3, Intersection testArena (some 0) (some 1) = some (st2, some testArena.length) ∧
      Intersection testArena (some 1) (some 0) = some (st3, some testArena.length) ∧
      ¬ Valid testArena (some testArena.length) ∧
      (∀ x, x ∈ keysOf st2 (some testArena.length) ↔
        x ∈ keysOf testArena (some 0) ∧ x ∈ keysOf testArena (some 1)) ∧
      (∀ x, x ∈ keysOf st3 (some testArena.length) ↔ x ∈ keysOf st2 (some testArena.length)) ∧
      (keysOf st2 (some testArena.length)).Nodup ∧
      Len st2 (some testArena.length)
        = ((keysOf testArena (some 0)).toFinset ∩ (keysOf testArena (some 1)).toFinset).card ∧
      ∀ h, Valid testArena h → keysOf st2 h = keysOf testArena h) ∧
    Intersection testArena (some 0) (some 1)
      = some ([[4, 3, 2, 1], [6, 5, 4, 3], [3, 4]], some 2) :=
  ⟨Intersection_common testArena (some 0) (some 1)
      (by intro r h; cases h; decide) (by intro r h; cases h; decide), by rfl⟩

/-- C12, as stated, fails twice. With map 0 holding 1 and map 1 holding 2, the call
`s.Merge(o, s)` on `s` = map 0, `o` = map 1 leaves the second argument, `s` itself,
with the keys 2, 1 where it held 1 alone; and `Merge` on the nil set with the argument
`o` does not return (assignment to an entry of the nil map). -/
theorem Merge_counterexample :
    keysOf twoMaps (some 0) = [1] ∧
      Merge twoMaps (some 0) [some 1, some 0] = some ([[2, 1], [2]], some 0) ∧
      keysOf [[2, 1], [2]] (some 0) ≠ keysOf twoMaps (some 0) ∧
      Merge twoMaps none [some 1] = none := by
  refine ⟨by rfl, by rfl, by decide, by rfl⟩

/-- C12, amended: for a set `s` of the arena other than nil (with duplicate-free keys)
and any sets `o1..ok`, `s.Merge(o1..ok)` returns `s`; afterwards a value is in `s` if
and only if it was in `s` before or is in some `oi`, `Len()` is the number of distinct
such values, and every set other than `s` itself keeps its keys. -/
theorem Merge_union {T : Type} [DecidableEq T] (st : List (List T)) (r : Nat)
    (others : List (Option Nat)) (hr : r < st.length) (hnd : (keysOf st (some r)).Nodup) :
    ∃ st2, Merge st (some r) others = some (st2, some r) ∧ st2.length = st.length ∧
      (∀ x, x ∈ keysOf st2 (some r) ↔
        x ∈ keysOf st (some r) ∨ ∃ o ∈ others, x ∈ keysOf st o) ∧
      Len st2 (some r)
        = (keysOf st (some r) ++ others.flatMap (fun o => keysOf st o)).toFinset.card ∧
      ∀ h, h ≠ some r → keysOf st2 h = keysOf st h := by
  obtain ⟨st2, hm, hl, hmem, hn, hfr⟩ := mergeLoop_spec (T := T) others st hr
  refine ⟨st2, ?_, hl, hmem, ?_, hfr⟩
  · unfold Merge
    rw [hm]
    rfl
  · unfold Len
    rw [← List.toFinset_card_of_nodup (hn hnd)]
    congr 1
    ext x
    simp only [List.mem_toFinset, List.mem_append, List.mem_flatMap]
    exact hmem x

theorem Merge_union_witness :
    (∃ st2, Merge testArena (some 0) [some 1] = some (st2, some 0) ∧
      st2.length = testArena.length ∧
      (∀ x, x ∈ keysOf st2 (some 0) ↔
        x ∈ keysOf testArena (some 0) ∨ ∃ o ∈ [some 1], x ∈ keysOf testArena o) ∧
      Len st2 (some 0)
        = (keysOf testArena (some 0)
            ++ [some 1].flatMap (fun o => keysOf testArena o)).toFinset.card ∧
      ∀ h, h ≠ some 0 → keysOf st2 h = keysOf testArena h) ∧
    (Merge testArena (some 0) [some 1]).map
        (fun p => (Len p.1 p.2, [1, 2, 3, 4].map (fun x => Contain p.1 p.2 x)))
      = some (6, [true, true, true, true]) :=
  ⟨Merge_union testArena 0 [some 1] (by decide) (by decide), by rfl⟩

end hashset
